import Mathlib

/-!
# Linux shell simulator (`shell.c`): job table, token classifier, command segmenter

A shallow embedding of the parent-side logic of `shell.c`.

* C `int` values are modelled by `Int`/`Nat` without wrap-around: the counters of
  `tokenize` are bounded by the number of words of a line, and a job number can
  only overflow after more than `2^31` live list nodes.  The one value that comes
  from the user, the result of `atoi`, is reduced to an `int` of 32 bits.
* C strings are lists of characters; `readInput` works on the bytes of the standard
  input, each written as the character with that code.
* Pointers are addresses (`Nat`), `0` is `NULL`; the heap holding the job list is
  a partial map from addresses to nodes.  Dereferencing `NULL` or an address that
  is not allocated makes an operation return `none`.
* The global arrays `tokenType` and `tokenizedInput` are maps from indices to
  values; the array bounds are not part of this model.
* `while` loops whose termination depends on the data carry a fuel argument and
  return `none` when it runs out.
-/

namespace ShellSim

/-! ## Job table (`struct suspendedJobs`, `addJob`, `searchJob`, `deleteJob`) -/

/-- A list node, `struct suspendedJobs`; `next` is an address and `0` is `NULL`. -/
structure suspendedJobs where
  jobNum : Int
  pid : Int × Int × Int
  jobName : List Char
  next : Nat
deriving DecidableEq, Repr

/-- The heap of list nodes together with the globals `head` and `curr`. -/
structure JobTable where
  mem : Nat → Option suspendedJobs
  head : Nat
  curr : Nat

/-- The state at program start: `head = NULL`, `curr = NULL`, nothing allocated. -/
def emptyTable : JobTable :=
  { mem := fun _ => none, head := 0, curr := 0 }

/-- Read through a pointer: `NULL` and unallocated addresses cannot be read. -/
def load (mem : Nat → Option suspendedJobs) (p : Nat) : Option suspendedJobs :=
  if p = 0 then none else mem p

/-- Write through a pointer. -/
def store (mem : Nat → Option suspendedJobs) (p : Nat) (v : Option suspendedJobs) :
    Nat → Option suspendedJobs :=
  fun a => if a = p then v else mem a

/-- The function `addJob(pid)`.  The argument `ptr` is the value returned by `malloc`
(`0` when the allocation failed), `inputStringBackup` is the global copied into
`jobName`.  The result is the new table and the returned pointer. -/
def addJob (t : JobTable) (ptr : Nat) (pid : Int × Int × Int)
    (inputStringBackup : List Char) : Option (JobTable × Nat) :=
  if ptr = 0 then some (t, 0)
  else
    -- ptr->jobNum = (head ? curr->jobNum + 1 : 1)
    match (if t.head ≠ 0 then (load t.mem t.curr).map (fun c => c.jobNum + 1) else some 1) with
    | none => none
    | some num =>
      let mem1 := store t.mem ptr
        (some { jobNum := num, pid := pid, jobName := inputStringBackup, next := 0 })
      if t.head = 0 then
        some ({ mem := mem1, head := ptr, curr := ptr }, ptr)
      else
        -- curr = curr->next = ptr
        match load mem1 t.curr with
        | none => none
        | some c =>
          some ({ mem := store mem1 t.curr (some { c with next := ptr }),
                  head := t.head, curr := ptr }, ptr)

/-- The loop of `searchJob`, started at `ptr` with `tmp` the node before it.  The
result is the returned pointer and, when a node is returned, the value stored
through `preceding`. -/
def searchJobLoop (mem : Nat → Option suspendedJobs) (jobNum : Int) :
    Nat → Nat → Nat → Option (Nat × Option Nat)
  | 0, _, _ => none
  | fuel + 1, ptr, tmp =>
    if ptr = 0 then some (0, none)
    else
      match load mem ptr with
      | none => none
      | some node =>
        if node.jobNum = jobNum then some (ptr, some tmp)
        else searchJobLoop mem jobNum fuel node.next ptr

/-- The function `searchJob(jobNum, preceding)` with a non-null `preceding`. -/
def searchJob (fuel : Nat) (t : JobTable) (jobNum : Int) : Option (Nat × Option Nat) :=
  searchJobLoop t.mem jobNum fuel t.head 0

/-- The renumbering loop of `deleteJob`:
`while (ptr != curr) { ptr = ptr->next; ptr->jobNum--; }`. -/
def decreaseAfter (curr : Nat) :
    Nat → (Nat → Option suspendedJobs) → Nat → Option (Nat → Option suspendedJobs)
  | 0, _, _ => none
  | fuel + 1, mem, ptr =>
    if ptr = curr then some mem
    else
      match load mem ptr with
      | none => none
      | some node =>
        match load mem node.next with
        | none => none
        | some nxt =>
          decreaseAfter curr fuel
            (store mem node.next (some { nxt with jobNum := nxt.jobNum - 1 })) node.next

/-- The function `deleteJob(jobNum)`.  The Boolean is the returned value
(`EXIT_FAILURE` is `true`, `EXIT_SUCCESS` is `false`). -/
def deleteJob (fuel : Nat) (t : JobTable) (jobNum : Int) : Option (JobTable × Bool) :=
  match searchJob fuel t jobNum with
  | none => none
  | some (del, pre) =>
    if del = 0 then some (t, true)
    else
      let preceding := pre.getD 0
      match decreaseAfter t.curr fuel t.mem del with
      | none => none
      | some mem1 =>
        match load mem1 del with
        | none => none
        | some delNode =>
          -- if (preceding != NULL) preceding->next = del->next
          match (if preceding ≠ 0 then
                   (load mem1 preceding).map
                     (fun p => store mem1 preceding (some { p with next := delNode.next }))
                 else some mem1) with
          | none => none
          | some mem2 =>
            let curr1 := if del = t.curr then preceding else t.curr
            let head1 := if del = t.head then delNode.next else t.head
            -- free(del)
            some ({ mem := store mem2 del none, head := head1, curr := curr1 }, false)

/-- The traversal `for (ptr = head; ptr != NULL; ptr = ptr->next)` used by the
`jobs` built-in, collecting each address with its node. -/
def listJobs (mem : Nat → Option suspendedJobs) :
    Nat → Nat → Option (List (Nat × suspendedJobs))
  | 0, _ => none
  | fuel + 1, ptr =>
    if ptr = 0 then some []
    else
      match load mem ptr with
      | none => none
      | some node => (listJobs mem fuel node.next).map (fun rest => (ptr, node) :: rest)

/-- A call made on the job table. -/
inductive JobOp where
  | add (ptr : Nat) (pid : Int × Int × Int) (name : List Char)
  | delete (jobNum : Int)

/-- One call of `addJob` or `deleteJob`. -/
def stepOp (fuel : Nat) (t : JobTable) : JobOp → Option JobTable
  | JobOp.add ptr pid name => (addJob t ptr pid name).map Prod.fst
  | JobOp.delete k => (deleteJob fuel t k).map Prod.fst

/-- A sequence of calls, left to right. -/
def runOps (fuel : Nat) : JobTable → List JobOp → Option JobTable
  | t, [] => some t
  | t, op :: rest =>
    match stepOp fuel t op with
    | none => none
    | some t1 => runOps fuel t1 rest

/-- The contract of `malloc` along a sequence of calls: every pointer it returns is
`NULL` or an address that is not allocated at that moment. -/
def mallocValid (fuel : Nat) : JobTable → List JobOp → Bool
  | _, [] => true
  | t, op :: rest =>
    (match op with
      | JobOp.add ptr _ _ => decide (ptr = 0 ∨ t.mem ptr = none)
      | JobOp.delete _ => true) &&
    (match stepOp fuel t op with
      | none => true
      | some t1 => mallocValid fuel t1 rest)

/-! ## Specification-level views of the job table -/

/-- Address of the last node of a chain (`NULL` for the empty chain). -/
def lastAddr (L : List (Nat × suspendedJobs)) : Nat :=
  ((L.map Prod.fst).getLast?).getD 0

/-- The nodes `L`, in order, are linked from `p` up to the pointer `q`. -/
def Seg (mem : Nat → Option suspendedJobs) : Nat → List (Nat × suspendedJobs) → Nat → Prop
  | p, [], q => p = q
  | p, (a, n) :: rest, q => p = a ∧ a ≠ 0 ∧ mem a = some n ∧ Seg mem n.next rest q

/-- The table holds exactly the nodes `L`: they are linked from `head` to `NULL`,
sit at distinct addresses, and `curr` is the last of them (`NULL` when there is none). -/
def JobList (t : JobTable) (L : List (Nat × suspendedJobs)) : Prop :=
  Seg t.mem t.head L 0 ∧ (L.map Prod.fst).Nodup ∧ t.curr = lastAddr L

/-- The job ids of a chain, in list order. -/
def jobIds (L : List (Nat × suspendedJobs)) : List Int :=
  L.map (fun x => x.2.jobNum)

/-- The ids `1, 2, ..., n`. -/
def denseIds (n : Nat) : List Int :=
  (List.range n).map (fun (i : Nat) => (i : Int) + 1)

/-- The (process handles, command line) pairs of a chain, in list order. -/
def jobPayload (L : List (Nat × suspendedJobs)) : List ((Int × Int × Int) × List Char) :=
  L.map (fun x => (x.2.pid, x.2.jobName))

/-- Replace the `next` field of the last node of a chain. -/
def setLastNext : List (Nat × suspendedJobs) → Nat → List (Nat × suspendedJobs)
  | [], _ => []
  | [(a, n)], q => [(a, { n with next := q })]
  | x :: y :: rest, q => x :: setLastNext (y :: rest) q

/-- Decrease the job number of a node by one. -/
def decNode (x : Nat × suspendedJobs) : Nat × suspendedJobs :=
  (x.1, { x.2 with jobNum := x.2.jobNum - 1 })

/-! ## Token classifier (`tokenize`) -/

/-- The token kinds, `enum cmdType`. -/
inductive cmdType where
  | START | REDIR_IN | REDIR_OUT | BUILTIN | ARG | PIPE | CMDNAME | IN_FILE | OUT_FILE
  | BUILTIN_WITH_ARG
deriving DecidableEq, Repr

open cmdType

/-- The successive results of `strtok(inputString, " ")`, `strtok(NULL, " ")`, ...:
the maximal runs of characters other than the space.  The second argument is the
run being read. -/
def strtokAll : List Char → List Char → List (List Char)
  | [], cur => if cur = [] then [] else [cur]
  | c :: cs, cur =>
    if c = ' ' then (if cur = [] then strtokAll cs [] else cur :: strtokAll cs [])
    else strtokAll cs (cur ++ [c])

/-- The test `strchr(token, code)`: some character of the token has this code. -/
def strchr (token : List Char) (code : Nat) : Bool :=
  token.any (fun c => c.toNat = code)

/-- The test repeated in every branch of `tokenize`:
`strchr(token, 9) || strchr(token, 62) || strchr(token, 60) || strchr(token, 124) ||
strchr(token, 42) || strchr(token, 33) || strchr(token, 96) || strchr(token, 39) ||
strchr(token, 34)`. -/
def hasReserved (token : List Char) : Bool :=
  strchr token 9 || strchr token 62 || strchr token 60 || strchr token 124 ||
  strchr token 42 || strchr token 33 || strchr token 96 || strchr token 39 ||
  strchr token 34

/-- The variables of the loop of `tokenize`; `i` is the loop counter and
`previousToken` is `tokenType + i`. -/
structure TokState where
  tokenType : Nat → cmdType
  tokenizedInput : Nat → List Char
  i : Nat
  piped : Nat
  redirected : Nat
  invalidInput : Bool

/-- The assignment `*(previousToken + 1) = k`. -/
def TokState.assign (s : TokState) (k : cmdType) : TokState :=
  { s with tokenType := fun j => if j = s.i + 1 then k else s.tokenType j }

/-- One iteration of the loop of `tokenize` on the word `token`: the `switch` on
`*previousToken`, then `strcpy(tokenizedInput[i+1], token)` and the increments. -/
def tokenizeStep (s : TokState) (token : List Char) : TokState :=
  let s1 : TokState :=
    match s.tokenType s.i with
    | START =>
      if token = "exit".toList ∨ token = "jobs".toList then s.assign BUILTIN
      else if token = "cd".toList ∨ token = "fg".toList then s.assign BUILTIN_WITH_ARG
      else if ¬ hasReserved token then s.assign CMDNAME
      else { s with invalidInput := true }
    | REDIR_IN =>
      if ¬ hasReserved token then s.assign IN_FILE
      else { s with invalidInput := true }
    | REDIR_OUT =>
      if ¬ hasReserved token then s.assign OUT_FILE
      else { s with invalidInput := true }
    | BUILTIN => { s with invalidInput := true }
    | ARG =>
      if token = "<".toList ∧ s.piped = 0 then
        { s.assign REDIR_IN with redirected := s.redirected + 1 }
      else if token = ">".toList ∨ token = ">>".toList then
        { s.assign REDIR_OUT with redirected := s.redirected + 1 }
      else if token = "|".toList ∧ s.piped < 2 then
        { s.assign PIPE with piped := s.piped + 1 }
      else if ¬ hasReserved token then s.assign ARG
      else { s with invalidInput := true }
    | PIPE =>
      if ¬ hasReserved token ∧
          (token ≠ "cd".toList ∧ token ≠ "exit".toList ∧ token ≠ "fg".toList ∧
            token ≠ "jobs".toList) then s.assign CMDNAME
      else { s with invalidInput := true }
    | CMDNAME =>
      if token = "<".toList ∧ s.piped = 0 then
        { s.assign REDIR_IN with redirected := s.redirected + 1 }
      else if token = ">".toList ∨ token = ">>".toList then
        { s.assign REDIR_OUT with redirected := s.redirected + 1 }
      else if token = "|".toList ∧ s.piped < 2 then
        { s.assign PIPE with piped := s.piped + 1 }
      else if ¬ hasReserved token then s.assign ARG
      else { s with invalidInput := true }
    | IN_FILE =>
      if (token = ">".toList ∨ token = ">>".toList) ∧ s.redirected < 2 then
        { s.assign REDIR_OUT with redirected := s.redirected + 1 }
      else if token = "|".toList ∧ s.piped < 2 then
        { s.assign PIPE with piped := s.piped + 1 }
      else { s with invalidInput := true }
    | OUT_FILE =>
      if (token = "<".toList ∧ s.piped = 0) ∧ s.redirected < 2 then
        { s.assign REDIR_IN with redirected := s.redirected + 1 }
      else { s with invalidInput := true }
    | BUILTIN_WITH_ARG =>
      if ¬ hasReserved token then s.assign ARG
      else { s with invalidInput := true }
  { s1 with
    tokenizedInput := fun j => if j = s.i + 1 then token else s1.tokenizedInput j
    i := s.i + 1 }

/-- The loop state on entry: `previousToken = tokenType`, `piped = redirected = 0`,
`invalidInput = false`, every `tokenizedInput[i]` emptied.  The array `tokenType` is a
global that `tokenize` does not reset. -/
def tokenizeInit (tokenType : Nat → cmdType) : TokState :=
  { tokenType := tokenType, tokenizedInput := fun _ => [], i := 0, piped := 0,
    redirected := 0, invalidInput := false }

/-- The loop of `tokenize` over the words of the line. -/
def tokenizeLoop (tokenType : Nat → cmdType) (line : List Char) : TokState :=
  (strtokAll line []).foldl tokenizeStep (tokenizeInit tokenType)

/-- What a call of `tokenize` leaves behind: the globals it wrote, the returned
value and the text it printed. -/
structure TokResult where
  tokenType : Nat → cmdType
  tokenizedInput : Nat → List Char
  numOfTokens : Nat
  inputStringBackup : List Char
  ret : Bool
  printed : List Char

/-- The function `tokenize()`.  `tokenType` is the content of the global array on
entry, `inputString` is the line read by `readInput`, ending in its newline. -/
def tokenize (tokenType : Nat → cmdType) (inputString : List Char) : TokResult :=
  -- inputString[strlen(inputString)-1] = 0; strcpy(inputStringBackup, inputString)
  let line := inputString.dropLast
  let s := tokenizeLoop tokenType line
  let result (ret : Bool) (printed : List Char) : TokResult :=
    { tokenType := s.tokenType, tokenizedInput := s.tokenizedInput, numOfTokens := s.i,
      inputStringBackup := line, ret := ret, printed := printed }
  let invalidCheck : TokResult :=
    if s.invalidInput ∨ s.tokenType s.i = REDIR_IN ∨ s.tokenType s.i = REDIR_OUT ∨
        s.tokenType s.i = PIPE ∨ s.tokenType s.i = BUILTIN_WITH_ARG then
      result false "Error: invalid input command line\n".toList
    else result true []
  if s.tokenizedInput 1 = "exit".toList ∨ s.tokenizedInput 1 = "jobs".toList then
    if s.i ≠ 1 then
      result false (s.tokenizedInput 1 ++ ": wrong number of arguments\n".toList)
    else invalidCheck
  else if s.tokenizedInput 1 = "cd".toList ∨ s.tokenizedInput 1 = "fg".toList then
    if s.i ≠ 2 then
      result false (s.tokenizedInput 1 ++ ": wrong number of arguments\n".toList)
    else invalidCheck
  else invalidCheck

/-- The kinds held in `tokenType[1..n]`. -/
def kindsUpTo (tokenType : Nat → cmdType) (n : Nat) : List cmdType :=
  (List.range n).map (fun j => tokenType (j + 1))

/-- The texts held in `tokenizedInput[1..n]`. -/
def textsUpTo (tokenizedInput : Nat → List Char) (n : Nat) : List (List Char) :=
  (List.range n).map (fun j => tokenizedInput (j + 1))

/-- The content of `tokenType` at program start: every entry is `START`. -/
def freshTokenType : Nat → cmdType := fun _ => START

/-! ## Command segmenter (`nextCommand`, `execCmd`) -/

/-- The test of `nextCommand`:
`tokenType[i] == CMDNAME || tokenType[i] == BUILTIN || tokenType[i] == BUILTIN_WITH_ARG`. -/
def isCommand (k : cmdType) : Bool :=
  k = CMDNAME ∨ k = BUILTIN ∨ k = BUILTIN_WITH_ARG

/-- The test of `execCmd`:
`tokenType[j] == REDIR_IN || tokenType[j] == REDIR_OUT || tokenType[j] == PIPE`. -/
def isOperator (k : cmdType) : Bool :=
  k = REDIR_IN ∨ k = REDIR_OUT ∨ k = PIPE

/-- The function `nextCommand()`: the returned value and the new `currentCmdPos`.
The loop `for (i = currentCmdPos + 1; i <= numOfTokens; i++)` returns at the first
command token; when there is none the cursor is reset to `0`. -/
def nextCommand (tokenType : Nat → cmdType) (numOfTokens currentCmdPos : Nat) : Bool × Nat :=
  match (List.range' (currentCmdPos + 1) (numOfTokens - currentCmdPos)).find?
      (fun i => isCommand (tokenType i)) with
  | some i => (true, i)
  | none => (false, 0)

/-- The token positions `currentCmdPos + i` copied by the loop of `execCmd()`:
`for (i = 0; i < numOfTokens - currentCmdPos + 1 && !(operator at currentCmdPos+i); i++)`. -/
def execCmdIndices (tokenType : Nat → cmdType) (numOfTokens currentCmdPos : Nat) : List Nat :=
  ((List.range (numOfTokens + 1 - currentCmdPos)).takeWhile
    (fun i => ¬ isOperator (tokenType (currentCmdPos + i)))).map (fun i => currentCmdPos + i)

/-- The argument vector built by `execCmd()` (without the closing `NULL`):
`args[i] = tokenizedInput[currentCmdPos+i]`. -/
def execCmdArgs (tokenType : Nat → cmdType) (tokenizedInput : Nat → List Char)
    (numOfTokens currentCmdPos : Nat) : List (List Char) :=
  (execCmdIndices tokenType numOfTokens currentCmdPos).map tokenizedInput

/-- What `waitpid(.., WUNTRACED)` reports about a child. -/
inductive WaitStatus where
  | exited | signaled | stopped
deriving DecidableEq, Repr

/-- The texts the shell prints. -/
inductive Message where
  | tokenizeOutput (text : List Char)
  | cannotChangeDirectory (dir : List Char)
  | atLeastOneSuspendedJob
  | noSuspendedJobs
  | jobLine (jobNum : Int) (jobName : List Char)
  | noSuchJob
  | jobWakeUp (jobName : List Char)
  | signalError (pid : Int)
  | childTerminatedUnexpectedly
  | forkUnsuccessful
  | memoryAllocationFailed
  | newline
deriving DecidableEq, Repr

/-- The system calls and outputs of the shell process, as they happen. -/
inductive Event where
  | pipesCreated
  | pipesClosed
  | fork (slot : Nat) (result : Int)
  | kill (pid : Int)
  | waitpid (pid : Int)
  | chdir (dir : List Char)
  | print (m : Message)
deriving DecidableEq, Repr

/-- The results of the system calls; each may depend on everything that happened
before it. -/
structure Env where
  fork : List Event → Int
  kill : List Event → Int → Int
  waitpid : List Event → Int → Int × WaitStatus
  chdir : List Event → List Char → Int
  malloc : List Event → Nat

/-- The globals of the shell process and the events so far. -/
structure Shell where
  tokenType : Nat → cmdType
  tokenizedInput : Nat → List Char
  numOfTokens : Nat
  inputStringBackup : List Char
  currentCmdPos : Nat
  curPipe : Nat
  processCnt : Nat
  pid : Nat → Int
  jobs : JobTable
  trace : List Event

/-- How a function of the shell ends: it returns, the process calls `exit`, the
process is the child created by `fork`, the behaviour is undefined (a null or
dangling pointer is read), or the fuel of the model ran out. -/
inductive Step where
  | running (sh : Shell)
  | exited (status : Nat) (sh : Shell)
  | child (sh : Shell)
  | undefined (sh : Shell)
  | outOfFuel (sh : Shell)

/-- The state in which a function ended. -/
def Step.shell : Step → Shell
  | Step.running sh => sh
  | Step.exited _ sh => sh
  | Step.child sh => sh
  | Step.undefined sh => sh
  | Step.outOfFuel sh => sh

/-- Record an event. -/
def Shell.log (sh : Shell) (e : Event) : Shell :=
  { sh with trace := sh.trace ++ [e] }

/-- The test `isspace` of the C locale. -/
def isspace (c : Char) : Bool :=
  c.toNat = 32 ∨ (9 ≤ c.toNat ∧ c.toNat ≤ 13)

/-- The value of the leading decimal digits, continuing from `acc`. -/
def digitsValue : List Char → Int → Int
  | [], acc => acc
  | c :: cs, acc =>
    if 48 ≤ c.toNat ∧ c.toNat ≤ 57 then digitsValue cs (acc * 10 + ((c.toNat : Int) - 48))
    else acc

/-- The number written at the start of a string, as `strtol` reads it in base 10: white
space is skipped, an optional sign is read, then the leading decimal digits (`0` when
there are none). -/
def decimalValue (s : List Char) : Int :=
  match s.dropWhile isspace with
  | [] => 0
  | c :: rest =>
    if c.toNat = 45 then - digitsValue rest 0
    else if c.toNat = 43 then digitsValue rest 0
    else digitsValue (c :: rest) 0

/-- The constant `LONG_MAX` where `long` has 64 bits. -/
def LONG_MAX : Int := 9223372036854775807

/-- The constant `LONG_MIN` where `long` has 64 bits. -/
def LONG_MIN : Int := -9223372036854775808

/-- The library function `strtol(nptr, NULL, 10)`: a number outside the range of `long`
is replaced by `LONG_MAX` or `LONG_MIN`. -/
def strtol (s : List Char) : Int :=
  if LONG_MAX < decimalValue s then LONG_MAX
  else if decimalValue s < LONG_MIN then LONG_MIN
  else decimalValue s

/-- The conversion `(int) v` of a `long` to an `int` of 32 bits: the value modulo `2^32`
in the range `-2^31 .. 2^31 - 1`. -/
def longToInt (v : Int) : Int :=
  (v + 2147483648) % 4294967296 - 2147483648

/-- The library function `atoi`, which in the GNU C library is
`(int) strtol(nptr, NULL, 10)`: the result is an `int`, so `atoi("4294967297")` is `1`. -/
def atoi (s : List Char) : Int :=
  longToInt (strtol s)

/-- The loop of the `jobs` built-in:
`while (ptr != NULL) { printf("[%d]: %s", ptr->jobNum, ptr->jobName); ptr = ptr->next; }`. -/
def printJobs : Nat → Shell → Nat → Step
  | 0, sh, _ => Step.outOfFuel sh
  | fuel + 1, sh, ptr =>
    if ptr = 0 then Step.running sh
    else
      match load sh.jobs.mem ptr with
      | none => Step.undefined sh
      | some node =>
        printJobs fuel (sh.log (Event.print (Message.jobLine node.jobNum node.jobName)))
          node.next

/-- The process handles visited by `for (i = 0; i < 3 && ptr->pid[i] != 0; i++)`. -/
def livePids (pid : Int × Int × Int) : List Int :=
  [pid.1, pid.2.1, pid.2.2].takeWhile (fun p => p ≠ 0)

/-- The first loop of `fg`: `kill(ptr->pid[i], SIGCONT)` for each process handle. -/
def continueAll (env : Env) : Shell → List Int → Shell
  | sh, [] => sh
  | sh, p :: rest =>
    let sh1 := sh.log (Event.kill p)
    if env.kill sh.trace p = -1 then
      continueAll env (sh1.log (Event.print (Message.signalError p))) rest
    else continueAll env sh1 rest

/-- The second loop of `fg`: `waitpid` on each process handle; `i` is the loop counter
and the Boolean is the variable `resumed`. -/
def waitAllFg (env : Env) : Shell → Nat → Bool → List Int → Step × Bool
  | sh, _, resumed, [] => (Step.running sh, resumed)
  | sh, i, resumed, p :: rest =>
    let sh1 := sh.log (Event.waitpid p)
    if (env.waitpid sh.trace p).1 ≠ p then
      (Step.exited 1 (sh1.log (Event.print Message.childTerminatedUnexpectedly)), resumed)
    else if i = 0 ∧ (env.waitpid sh.trace p).2 = WaitStatus.stopped then
      waitAllFg env (sh1.log (Event.print Message.newline)) (i + 1) true rest
    else waitAllFg env sh1 (i + 1) resumed rest

/-- The `fg` branch of `runBuiltIn`, with `jobNum = atoi(tokenizedInput[2])`. -/
def runFg (env : Env) (fuel : Nat) (sh : Shell) (jobNum : Int) : Step :=
  if sh.jobs.head = 0 then Step.running (sh.log (Event.print Message.noSuchJob))
  else if jobNum < 1 then Step.running (sh.log (Event.print Message.noSuchJob))
  else
    match load sh.jobs.mem sh.jobs.curr with
    | none => Step.undefined sh
    | some last =>
      if jobNum > last.jobNum then Step.running (sh.log (Event.print Message.noSuchJob))
      else
        match searchJob fuel sh.jobs jobNum with
        | none => Step.outOfFuel sh
        | some (ptr, _) =>
          match load sh.jobs.mem ptr with
          | none => Step.undefined sh
          | some node =>
            let sh1 := sh.log (Event.print (Message.jobWakeUp node.jobName))
            let sh2 := continueAll env sh1 (livePids node.pid)
            match waitAllFg env sh2 0 false (livePids node.pid) with
            | (Step.running sh3, resumed) =>
              if resumed then Step.running sh3
              else
                match deleteJob fuel sh3.jobs jobNum with
                | none => Step.undefined sh3
                | some (t, _) => Step.running { sh3 with jobs := t }
            | (other, _) => other

/-- The function `runBuiltIn()`. -/
def runBuiltIn (env : Env) (fuel : Nat) (sh : Shell) : Step :=
  let jobNum := atoi (sh.tokenizedInput 2)
  let sh1 : Shell :=
    if sh.tokenizedInput 1 = "cd".toList then
      if env.chdir sh.trace (sh.tokenizedInput 2) ≠ 0 then
        (sh.log (Event.chdir (sh.tokenizedInput 2))).log
          (Event.print (Message.cannotChangeDirectory (sh.tokenizedInput 2)))
      else sh.log (Event.chdir (sh.tokenizedInput 2))
    else sh
  if sh1.tokenizedInput 1 = "exit".toList then
    if sh1.jobs.head ≠ 0 then
      Step.running (sh1.log (Event.print Message.atLeastOneSuspendedJob))
    else Step.exited 0 sh1
  else
    let afterJobs : Step :=
      if sh1.tokenizedInput 1 = "jobs".toList then
        if sh1.jobs.head = 0 then
          Step.running (sh1.log (Event.print Message.noSuspendedJobs))
        else printJobs fuel sh1 sh1.jobs.head
      else Step.running sh1
    match afterJobs with
    | Step.running sh2 =>
      if sh2.tokenizedInput 1 = "fg".toList then runFg env fuel sh2 jobNum
      else Step.running sh2
    | other => other

/-- The function `forkCmd()`: `pid[processCnt-1] = fork()`.  A result of `0` means
that the process is the new child, which goes on to `initIORedirection` and
`execCmd` and never returns to the caller. -/
def forkCmd (env : Env) (sh : Shell) : Step :=
  let r := env.fork sh.trace
  let sh1 : Shell :=
    { sh with
      pid := fun j => if j = sh.processCnt - 1 then r else sh.pid j
      trace := sh.trace ++ [Event.fork (sh.processCnt - 1) r] }
  if r = -1 then Step.exited 1 (sh1.log (Event.print Message.forkUnsuccessful))
  else if r = 0 then Step.child sh1
  else Step.running sh1

/-- The loop `while (nextCommand()) { ... }` of `processInput`; `jobFuel` is the fuel
handed to the job-table loops. -/
def launchLoop (env : Env) (jobFuel : Nat) : Nat → Shell → Step
  | 0, sh => Step.outOfFuel sh
  | fuel + 1, sh =>
    match nextCommand sh.tokenType sh.numOfTokens sh.currentCmdPos with
    | (false, pos) => Step.running { sh with currentCmdPos := pos }
    | (true, pos) =>
      let sh1 : Shell := { sh with currentCmdPos := pos }
      if sh1.tokenType pos = BUILTIN ∨ sh1.tokenType pos = BUILTIN_WITH_ARG then
        match runBuiltIn env jobFuel sh1 with
        | Step.running sh2 => launchLoop env jobFuel fuel sh2
        | other => other
      else
        match forkCmd env { sh1 with processCnt := sh1.processCnt + 1 } with
        | Step.running sh2 =>
          launchLoop env jobFuel fuel
            (if sh2.processCnt > 1 then { sh2 with curPipe := sh2.curPipe + 2 } else sh2)
        | other => other

/-- The call `addJob(pid)` made by `processInput`, with `malloc` answered by the
environment. -/
def addJobCall (env : Env) (sh : Shell) : Step :=
  match addJob sh.jobs (env.malloc sh.trace) (sh.pid 0, sh.pid 1, sh.pid 2)
      sh.inputStringBackup with
  | none => Step.undefined sh
  | some (t, ptr) =>
    if ptr = 0 then
      Step.running ({ sh with jobs := t }.log (Event.print Message.memoryAllocationFailed))
    else Step.running { sh with jobs := t }

/-- The loop `for (i = 0; i < processCnt; i++)` of `processInput` that waits for the
launched processes; the list holds the remaining values of `i`. -/
def waitLoop (env : Env) : Shell → List Nat → Step
  | sh, [] => Step.running sh
  | sh, i :: rest =>
    let sh1 := sh.log (Event.waitpid (sh.pid i))
    if (env.waitpid sh.trace (sh.pid i)).1 ≠ sh.pid i then
      Step.exited 1 (sh1.log (Event.print Message.childTerminatedUnexpectedly))
    else if i = 0 then
      let sh2 :=
        if (env.waitpid sh.trace (sh.pid i)).2 = WaitStatus.signaled then
          sh1.log (Event.print Message.newline)
        else sh1
      if (env.waitpid sh.trace (sh.pid i)).2 = WaitStatus.stopped then
        match addJobCall env (sh2.log (Event.print Message.newline)) with
        | Step.running sh3 => waitLoop env sh3 rest
        | other => other
      else waitLoop env sh2 rest
    else waitLoop env sh1 rest

/-- The initialisations at the start of `processInput()`: `processCnt = 0`, every
`pid[i] = 0`, the two calls of `pipe`, `curPipe = 0`. -/
def Shell.startLaunch (sh : Shell) : Shell :=
  { sh with processCnt := 0, pid := fun _ => 0, curPipe := 0,
            trace := sh.trace ++ [Event.pipesCreated] }

/-- The function `processInput()`. -/
def processInput (env : Env) (fuel : Nat) (sh : Shell) : Step :=
  match launchLoop env fuel fuel sh.startLaunch with
  | Step.running sh1 =>
    let sh2 := sh1.log Event.pipesClosed
    waitLoop env sh2 (List.range sh2.processCnt)
  | other => other

/-- The globals after a call of `tokenize()` with the result `r`. -/
def Shell.afterTokenize (sh : Shell) (r : TokResult) : Shell :=
  { sh with
    tokenType := r.tokenType, tokenizedInput := r.tokenizedInput,
    numOfTokens := r.numOfTokens, inputStringBackup := r.inputStringBackup,
    trace := if r.printed = [] then sh.trace
             else sh.trace ++ [Event.print (Message.tokenizeOutput r.printed)] }

/-- One round of the loop of `main`, after `readInput()` has stored the line
`inputString` (ending in its newline): `if (tokenize()) processInput();`. -/
def mainIteration (env : Env) (fuel : Nat) (sh : Shell) (inputString : List Char) : Step :=
  let r := tokenize sh.tokenType inputString
  if r.ret then processInput env fuel (sh.afterTokenize r)
  else Step.running (sh.afterTokenize r)

/-- The globals at program start. -/
def initialShell : Shell :=
  { tokenType := freshTokenType, tokenizedInput := fun _ => [], numOfTokens := 0,
    inputStringBackup := [], currentCmdPos := 0, curPipe := 0, processCnt := 0,
    pid := fun _ => 0, jobs := emptyTable, trace := [] }

/-- The slots of `pid` written by `forkCmd`, in order. -/
def forkSlots (trace : List Event) : List Nat :=
  trace.filterMap (fun e => match e with | Event.fork slot _ => some slot | _ => none)

/-- An environment in which every system call succeeds: `fork` returns a new process
id, each wait reports that its own process exited. -/
def quietEnv : Env :=
  { fork := fun tr => 100 + tr.length
    kill := fun _ _ => 0
    waitpid := fun _ p => (p, WaitStatus.exited)
    chdir := fun _ _ => 0
    malloc := fun tr => 1 + tr.length }

/-- The newline that ends every line handed over by `readInput`. -/
def endOfLine : Char := Char.ofNat 10

/-- The operator words. -/
def operatorWords : List (List Char) :=
  ["|".toList, "<".toList, ">".toList, ">>".toList]

/-- The nine reserved characters: tab, `>`, `<`, `|`, `*`, `!`, backtick, single quote
and double quote. -/
def reservedChars : List Char :=
  [Char.ofNat 9, '>', '<', '|', '*', '!', Char.ofNat 96, Char.ofNat 39, Char.ofNat 34]

/-- The word contains one of the reserved characters. -/
def ContainsReserved (w : List Char) : Prop :=
  ∃ c ∈ w, c ∈ reservedChars

/-- The variables of the loop of `tokenize` after its first `k` iterations on the
line (for `k` beyond the number of words: after the loop). -/
def stateAfter (tokenType : Nat → cmdType) (line : List Char) (k : Nat) : TokState :=
  ((strtokAll line []).take k).foldl tokenizeStep (tokenizeInit tokenType)

/-- The outcome of the `switch` of `tokenize` for the word `w` met in the state `s`:
the kind it stores in `*(previousToken + 1)`, or `none` when it sets `invalidInput`. -/
def stepOutcome (s : TokState) (w : List Char) : Option cmdType :=
  if (tokenizeStep { s with invalidInput := false } w).invalidInput then none
  else some ((tokenizeStep s w).tokenType (s.i + 1))

/-! ## Specification-level views of the segmenter and the orchestrator -/

/-- The positions after `pos`, up to `numOfTokens`, that hold a command token
(`CMDNAME`, `BUILTIN` or `BUILTIN_WITH_ARG`), in increasing order. -/
def cmdPositions (tokenType : Nat → cmdType) (numOfTokens pos : Nat) : List Nat :=
  (List.range' (pos + 1) (numOfTokens - pos)).filter (fun j => isCommand (tokenType j))

/-- Every slot of `pid` written so far lies inside the array of 3 entries. -/
def SlotsOK (sh : Shell) : Prop :=
  ∀ slot ∈ forkSlots sh.trace, slot < 3

/-- The second state has the tokens, the segmenter cursor, the process count and the
written slots of the first. -/
def SameLaunch (sh sh1 : Shell) : Prop :=
  sh1.tokenType = sh.tokenType ∧ sh1.numOfTokens = sh.numOfTokens ∧
    sh1.currentCmdPos = sh.currentCmdPos ∧ sh1.processCnt = sh.processCnt ∧
    forkSlots sh1.trace = forkSlots sh.trace

/-- The tokens (kind and text) at the `m` positions from `a` on. -/
def tokensFrom (tokenType : Nat → cmdType) (tokenizedInput : Nat → List Char) (a m : Nat) :
    List (cmdType × List Char) :=
  (List.range' a m).map (fun j => (tokenType j, tokenizedInput j))

/-- The transition function of the classifier: the kind given to a word, or `none`
when the word is invalid, from the kind before it, the number of pipes and of
redirections seen so far, and the text of the word. -/
def classify (prev : cmdType) (piped redirected : Nat) (token : List Char) : Option cmdType :=
  match prev with
  | START =>
    if token = "exit".toList ∨ token = "jobs".toList then some BUILTIN
    else if token = "cd".toList ∨ token = "fg".toList then some BUILTIN_WITH_ARG
    else if ¬ hasReserved token then some CMDNAME
    else none
  | REDIR_IN => if ¬ hasReserved token then some IN_FILE else none
  | REDIR_OUT => if ¬ hasReserved token then some OUT_FILE else none
  | BUILTIN => none
  | ARG | CMDNAME =>
    if token = "<".toList ∧ piped = 0 then some REDIR_IN
    else if token = ">".toList ∨ token = ">>".toList then some REDIR_OUT
    else if token = "|".toList ∧ piped < 2 then some PIPE
    else if ¬ hasReserved token then some ARG
    else none
  | PIPE =>
    if ¬ hasReserved token ∧
        (token ≠ "cd".toList ∧ token ≠ "exit".toList ∧ token ≠ "fg".toList ∧
          token ≠ "jobs".toList) then some CMDNAME
    else none
  | IN_FILE =>
    if (token = ">".toList ∨ token = ">>".toList) ∧ redirected < 2 then some REDIR_OUT
    else if token = "|".toList ∧ piped < 2 then some PIPE
    else none
  | OUT_FILE =>
    if (token = "<".toList ∧ piped = 0) ∧ redirected < 2 then some REDIR_IN
    else none
  | BUILTIN_WITH_ARG => if ¬ hasReserved token then some ARG else none

/-- The pipe counter after a word of kind `k`. -/
def pipedAfter (piped : Nat) (k : cmdType) : Nat :=
  piped + (if k = PIPE then 1 else 0)

/-- The redirection counter after a word of kind `k`. -/
def redirectedAfter (redirected : Nat) (k : cmdType) : Nat :=
  redirected + (if k = REDIR_IN ∨ k = REDIR_OUT then 1 else 0)

/-- The kinds `ks` are those the classifier gives to the words `ws`, one after the
other, none of them invalid, starting after a token of kind `prev` with the given
counters. -/
def Follows : cmdType → Nat → Nat → List cmdType → List (List Char) → Prop
  | _, _, _, [], [] => True
  | prev, piped, redirected, k :: ks, w :: ws =>
    classify prev piped redirected w = some k ∧
      Follows k (pipedAfter piped k) (redirectedAfter redirected k) ks ws
  | _, _, _, _, _ => False

/-- Which kind may come directly after which. -/
def Adj : cmdType → cmdType → Bool
  | START, k => k = BUILTIN ∨ k = BUILTIN_WITH_ARG ∨ k = CMDNAME
  | REDIR_IN, k => k = IN_FILE
  | REDIR_OUT, k => k = OUT_FILE
  | BUILTIN, _ => false
  | ARG, k => k = REDIR_IN ∨ k = REDIR_OUT ∨ k = PIPE ∨ k = ARG
  | CMDNAME, k => k = REDIR_IN ∨ k = REDIR_OUT ∨ k = PIPE ∨ k = ARG
  | PIPE, k => k = CMDNAME
  | IN_FILE, k => k = REDIR_OUT ∨ k = PIPE
  | OUT_FILE, k => k = REDIR_IN
  | BUILTIN_WITH_ARG, k => k = ARG

/-- What the text of a word must be for the classifier to give it the kind `k`. -/
def TextFits (k : cmdType) (piped : Nat) (w : List Char) : Prop :=
  match k with
  | START => False
  | REDIR_IN => w = "<".toList ∧ piped = 0
  | REDIR_OUT => w = ">".toList ∨ w = ">>".toList
  | PIPE => w = "|".toList ∧ piped < 2
  | BUILTIN => w = "exit".toList ∨ w = "jobs".toList
  | BUILTIN_WITH_ARG => w = "cd".toList ∨ w = "fg".toList
  | CMDNAME =>
    hasReserved w = false ∧ w ≠ "cd".toList ∧ w ≠ "exit".toList ∧ w ≠ "fg".toList ∧
      w ≠ "jobs".toList
  | ARG => hasReserved w = false
  | IN_FILE => hasReserved w = false
  | OUT_FILE => hasReserved w = false

/-! ## Concrete inputs -/

/-- A table with three jobs at the addresses 5, 7 and 9. -/
def threeJobs : JobTable :=
  { mem := fun a =>
      if a = 5 then some { jobNum := 1, pid := (11, 0, 0), jobName := ['a'], next := 7 }
      else if a = 7 then some { jobNum := 2, pid := (21, 22, 0), jobName := ['b'], next := 9 }
      else if a = 9 then some { jobNum := 3, pid := (31, 0, 0), jobName := ['c'], next := 0 }
      else none
    head := 5
    curr := 9 }

/-- The nodes of `threeJobs`, in list order. -/
def threeJobsList : List (Nat × suspendedJobs) :=
  [(5, { jobNum := 1, pid := (11, 0, 0), jobName := ['a'], next := 7 }),
   (7, { jobNum := 2, pid := (21, 22, 0), jobName := ['b'], next := 9 }),
   (9, { jobNum := 3, pid := (31, 0, 0), jobName := ['c'], next := 0 })]

/-- The stages of a sequence of token kinds: the runs of tokens between consecutive
`PIPE` tokens (and the ends of the line), in order. -/
def splitStages : List cmdType → List (List cmdType)
  | [] => [[]]
  | k :: ks =>
    if k = PIPE then [] :: splitStages ks
    else
      match splitStages ks with
      | [] => [[k]]
      | st :: rest => (k :: st) :: rest

/-- What the classifier state says about the redirections already met in the current
stage: `i` input and `o` output redirections, after a token of kind `p`, with the
counter `redirected`. -/
def StageBudget (p : cmdType) (redirected i o : Nat) : Prop :=
  match p with
  | REDIR_IN => i = 1 ∧ o ≤ 1 ∧ 1 + o ≤ redirected
  | IN_FILE => i = 1 ∧ o ≤ 1 ∧ 1 + o ≤ redirected
  | REDIR_OUT => o = 1 ∧ i ≤ 1 ∧ i + 1 ≤ redirected
  | OUT_FILE => o = 1 ∧ i ≤ 1 ∧ i + 1 ≤ redirected
  | _ => i = 0 ∧ o = 0

/-! ## Scripted wait outcomes -/

/-- The number of `waitpid` calls among the events. -/
def waitsIn (trace : List Event) : Nat :=
  trace.countP (fun e => match e with | Event.waitpid _ => true | _ => false)

/-- The environment `base`, except that every wait returns the process it was asked
about, and the waits made once the events hold `start` waits report the statuses
`outcomes`, in order (and `exited` when the vector is used up). -/
def scriptedEnv (base : Env) (start : Nat) (outcomes : List WaitStatus) : Env :=
  { base with
    waitpid := fun tr p => (p, outcomes.getD (waitsIn tr - start) WaitStatus.exited) }

/-- The shell at program start, but with the three jobs of `threeJobs` suspended. -/
def threeJobsShell : Shell := { initialShell with jobs := threeJobs }

/-- Two states of the loop of `tokenize` that differ at most in what an earlier line
left in `tokenType` beyond the tokens of the current line. -/
def SameRun (s1 s2 : TokState) : Prop :=
  s1.i = s2.i ∧ s1.tokenizedInput = s2.tokenizedInput ∧ s1.invalidInput = s2.invalidInput ∧
    (s1.invalidInput = false →
      s1.piped = s2.piped ∧ s1.redirected = s2.redirected ∧
        ∀ j, j ≤ s1.i → s1.tokenType j = s2.tokenType j)



/-- A line of 255 characters: 128 words `a` separated by single spaces. -/
def fullLine : List Char := (List.replicate 127 "a ".toList).flatten ++ "a".toList

/-! ## Line input (`readInput`) -/

/-- The constant `STRSIZ`. -/
def STRSIZ : Nat := 255

/-- The bytes of a character in the encoding UTF-8, each written as the character with
that code; a character below 128 is its own single byte. -/
def utf8Bytes (c : Char) : List Char :=
  if c.toNat < 128 then [c]
  else if c.toNat < 2048 then
    [Char.ofNat (192 + c.toNat / 64), Char.ofNat (128 + c.toNat % 64)]
  else if c.toNat < 65536 then
    [Char.ofNat (224 + c.toNat / 4096), Char.ofNat (128 + c.toNat / 64 % 64),
     Char.ofNat (128 + c.toNat % 64)]
  else
    [Char.ofNat (240 + c.toNat / 262144), Char.ofNat (128 + c.toNat / 4096 % 64),
     Char.ofNat (128 + c.toNat / 64 % 64), Char.ofNat (128 + c.toNat % 64)]

/-- The bytes that a text typed at the terminal puts on the standard input. -/
def stdinBytes (text : List Char) : List Char :=
  (text.map utf8Bytes).flatten

/-- The C string held by a buffer: its bytes up to the first null byte. -/
def cString (buffer : List Char) : List Char :=
  buffer.takeWhile (fun c => c.toNat != 0)

/-- The bytes that `fgets` stores when it may store at most `n` of them: those up to and
including the first newline; the second component is what is left on the stream.  The
stream is a list of bytes, each written as the character with that code. -/
def fgets : Nat → List Char → List Char × List Char
  | 0, stream => ([], stream)
  | _ + 1, [] => ([], [])
  | n + 1, c :: cs =>
    if c = endOfLine then ([c], cs) else (c :: (fgets n cs).1, (fgets n cs).2)

/-- What `readInput()` leaves behind: the returned value (`EXIT_FAILURE` is `true`),
whether `Command is too long!` was printed, the C string in the buffer `inputString` and
the rest of the input stream. -/
structure ReadResult where
  ret : Bool
  tooLong : Bool
  inputString : List Char
  stream : List Char
deriving DecidableEq

/-- The loop `do { fgets(...) } while (!strchr(inputString, 10))` that discards the rest
of a line that is too long; `inputString` holds the bytes last stored in the buffer,
which stay when `fgets` stores nothing at the end of the stream.  The result is `none`
when the loop is still running after `fuel` rounds. -/
def discardLine : Nat → List Char → List Char → Option (List Char × List Char)
  | 0, _, _ => none
  | fuel + 1, inputString, stream =>
    let inputString1 :=
      if (fgets (STRSIZ + 1) stream).1 = [] then inputString else (fgets (STRSIZ + 1) stream).1
    if endOfLine ∈ cString inputString1 then
      some (inputString1, (fgets (STRSIZ + 1) stream).2)
    else discardLine fuel inputString1 (fgets (STRSIZ + 1) stream).2

/-- The function `readInput()`: `inputString` has `STRSIZ + 2` bytes, so `fgets` stores at
most `STRSIZ + 1` bytes before the final null byte; `strchr` looks for the newline in the
C string, that is, before the first null byte. -/
def readInput (fuel : Nat) (stream : List Char) : Option ReadResult :=
  if (fgets (STRSIZ + 1) stream).1 ≠ [] then
    if endOfLine ∈ cString (fgets (STRSIZ + 1) stream).1 then
      some { ret := false, tooLong := false,
             inputString := cString (fgets (STRSIZ + 1) stream).1,
             stream := (fgets (STRSIZ + 1) stream).2 }
    else
      (discardLine fuel (fgets (STRSIZ + 1) stream).1 (fgets (STRSIZ + 1) stream).2).map
        (fun r => { ret := true, tooLong := true, inputString := cString r.1, stream := r.2 })
  else some { ret := true, tooLong := false, inputString := [],
              stream := (fgets (STRSIZ + 1) stream).2 }

/-- The flags of the three calls of `open`: `O_RDONLY`; `O_WRONLY | O_CREAT | O_TRUNC`;
`O_WRONLY | O_APPEND | O_CREAT`. -/
inductive OpenMode where
  | readOnly | truncate | append
deriving DecidableEq, Repr

/-- The value returned by `open` with the `errno` it leaves: a descriptor, or a
negative value with `ENOENT`, with `EACCES`, or with another error. -/
inductive OpenResult where
  | fd (n : Nat)
  | noEntry
  | accessDenied
  | otherError
deriving DecidableEq, Repr

/-- The descriptor operations and the messages of a child in `initIORedirection`:
`dupPipe index target` is `dup2(pipes[index], target)`. -/
inductive WireEvent where
  | dupPipe (index : Nat) (target : Nat)
  | openFile (name : List Char) (mode : OpenMode) (result : OpenResult)
  | dupFile (fd : Nat) (target : Nat)
  | closeFile (fd : Nat)
  | closePipes
  | noSuchFile (name : List Char)
  | permissionDenied (name : List Char)
  | unknownError (name : List Char)
deriving DecidableEq, Repr

/-- The child's copy of `curPipe` and what it has done so far. -/
structure Wiring where
  curPipe : Nat
  events : List WireEvent
deriving DecidableEq, Repr

/-- Add operations to the record. -/
def Wiring.add (w : Wiring) (es : List WireEvent) : Wiring :=
  { w with events := w.events ++ es }

theorem lastAddr_nil : lastAddr [] = 0 := rfl

theorem lastAddr_concat (L : List (Nat × suspendedJobs)) (x : Nat × suspendedJobs) :
    lastAddr (L ++ [x]) = x.1 := by
  simp [lastAddr]

theorem lastAddr_cons_cons (x y : Nat × suspendedJobs) (L : List (Nat × suspendedJobs)) :
    lastAddr (x :: y :: L) = lastAddr (y :: L) := by
  simp [lastAddr, List.getLast?_cons_cons]

theorem lastAddr_singleton (x : Nat × suspendedJobs) : lastAddr [x] = x.1 := by
  simp [lastAddr]

theorem lastAddr_append_cons (A B : List (Nat × suspendedJobs)) (x : Nat × suspendedJobs) :
    lastAddr (A ++ x :: B) = lastAddr (x :: B) := by
  induction A with
  | nil => rfl
  | cons a A ih =>
    cases A with
    | nil => simpa using lastAddr_cons_cons a x B
    | cons b A => rw [List.cons_append, List.cons_append, lastAddr_cons_cons]; simpa using ih

theorem lastAddr_mem (x : Nat × suspendedJobs) (B : List (Nat × suspendedJobs)) :
    lastAddr (x :: B) ∈ (x :: B).map Prod.fst := by
  induction B generalizing x with
  | nil => simp [lastAddr]
  | cons y B ih =>
    rw [lastAddr_cons_cons]
    exact List.mem_cons_of_mem _ (by simpa using ih y)

theorem seg_append (mem : Nat → Option suspendedJobs) (A B : List (Nat × suspendedJobs))
    (p q : Nat) : Seg mem p (A ++ B) q ↔ ∃ r, Seg mem p A r ∧ Seg mem r B q := by
  induction A generalizing p with
  | nil => simp [Seg]
  | cons x A ih =>
    obtain ⟨a, n⟩ := x
    show (p = a ∧ a ≠ 0 ∧ mem a = some n ∧ Seg mem n.next (A ++ B) q) ↔
      ∃ r, (p = a ∧ a ≠ 0 ∧ mem a = some n ∧ Seg mem n.next A r) ∧ Seg mem r B q
    rw [ih]
    constructor
    · rintro ⟨h1, h2, h3, r, h4, h5⟩
      exact ⟨r, ⟨h1, h2, h3, h4⟩, h5⟩
    · rintro ⟨r, ⟨h1, h2, h3, h4⟩, h5⟩
      exact ⟨h1, h2, h3, r, h4, h5⟩

theorem seg_frame (mem mem1 : Nat → Option suspendedJobs) (L : List (Nat × suspendedJobs))
    (p q : Nat) (hf : ∀ a ∈ L.map Prod.fst, mem1 a = mem a) (h : Seg mem p L q) :
    Seg mem1 p L q := by
  induction L generalizing p with
  | nil => exact h
  | cons x L ih =>
    obtain ⟨a, n⟩ := x
    obtain ⟨h1, h2, h3, h4⟩ := h
    refine ⟨h1, h2, ?_, ih _ (fun b hb => hf b (by simp at hb ⊢; exact Or.inr hb)) h4⟩
    rw [hf a (by simp), h3]

theorem seg_firstAddr_ne_zero (mem : Nat → Option suspendedJobs) (x : Nat × suspendedJobs)
    (L : List (Nat × suspendedJobs)) (p q : Nat) (h : Seg mem p (x :: L) q) : p ≠ 0 := by
  obtain ⟨a, n⟩ := x
  obtain ⟨h1, h2, _, _⟩ := h
  omega

theorem listJobs_of_seg (mem : Nat → Option suspendedJobs) (L : List (Nat × suspendedJobs))
    (p fuel : Nat) (h : Seg mem p L 0) (hfuel : L.length < fuel) :
    listJobs mem fuel p = some L := by
  induction L generalizing p fuel with
  | nil =>
    cases fuel with
    | zero => simp at hfuel
    | succ f => simp [Seg] at h; simp [listJobs, h]
  | cons x L ih =>
    obtain ⟨a, n⟩ := x
    obtain ⟨h1, h2, h3, h4⟩ := h
    cases fuel with
    | zero => simp at hfuel
    | succ f =>
      subst h1
      have := ih n.next f h4 (by simpa using hfuel)
      simp [listJobs, load, h2, h3, this]

theorem seg_mem_some (mem : Nat → Option suspendedJobs) (L : List (Nat × suspendedJobs))
    (p q : Nat) (h : Seg mem p L q) : ∀ x ∈ L, x.1 ≠ 0 ∧ mem x.1 = some x.2 := by
  induction L generalizing p with
  | nil => simp
  | cons x L ih =>
    obtain ⟨a, n⟩ := x
    obtain ⟨_, h2, h3, h4⟩ := h
    intro y hy
    rcases List.mem_cons.1 hy with rfl | hy
    · exact ⟨h2, h3⟩
    · exact ih _ h4 y hy

theorem seg_addr_allocated (mem : Nat → Option suspendedJobs) (L : List (Nat × suspendedJobs))
    (p q a : Nat) (h : Seg mem p L q) (ha : a ∈ L.map Prod.fst) : mem a ≠ none ∧ a ≠ 0 := by
  obtain ⟨x, hx, rfl⟩ := List.mem_map.1 ha
  have := seg_mem_some mem L p q h x hx
  simp [this.2, this.1]

theorem list_nil_or_snoc {α : Type} (L : List α) : L = [] ∨ ∃ L0 x, L = L0 ++ [x] := by
  rcases List.eq_nil_or_concat L with h | ⟨L0, x, h⟩
  · exact Or.inl h
  · exact Or.inr ⟨L0, x, by simpa using h⟩

theorem setLastNext_concat (L : List (Nat × suspendedJobs)) (a : Nat) (n : suspendedJobs)
    (q : Nat) : setLastNext (L ++ [(a, n)]) q = L ++ [(a, { n with next := q })] := by
  induction L with
  | nil => rfl
  | cons x L ih =>
    cases L with
    | nil => rfl
    | cons y L => simpa [setLastNext] using ih

theorem setLastNext_nil (q : Nat) : setLastNext [] q = [] := rfl

theorem setLastNext_fst (L : List (Nat × suspendedJobs)) (q : Nat) :
    (setLastNext L q).map Prod.fst = L.map Prod.fst := by
  rcases list_nil_or_snoc L with rfl | ⟨L0, x, rfl⟩
  · rfl
  · obtain ⟨a, n⟩ := x
    simp [setLastNext_concat]

theorem setLastNext_ids (L : List (Nat × suspendedJobs)) (q : Nat) :
    jobIds (setLastNext L q) = jobIds L := by
  rcases list_nil_or_snoc L with rfl | ⟨L0, x, rfl⟩
  · rfl
  · obtain ⟨a, n⟩ := x
    simp [setLastNext_concat, jobIds]

theorem setLastNext_payload (L : List (Nat × suspendedJobs)) (q : Nat) :
    jobPayload (setLastNext L q) = jobPayload L := by
  rcases list_nil_or_snoc L with rfl | ⟨L0, x, rfl⟩
  · rfl
  · obtain ⟨a, n⟩ := x
    simp [setLastNext_concat, jobPayload]

theorem setLastNext_length (L : List (Nat × suspendedJobs)) (q : Nat) :
    (setLastNext L q).length = L.length := by
  have := congrArg List.length (setLastNext_fst L q)
  simpa using this

/-- Relinking the last node of a segment: the nodes stay in place and the segment
now ends at the new pointer. -/
theorem seg_setLastNext (mem : Nat → Option suspendedJobs) (A : List (Nat × suspendedJobs))
    (c : Nat) (cn : suspendedJobs) (p q q1 : Nat)
    (hnd : ((A ++ [(c, cn)]).map Prod.fst).Nodup)
    (h : Seg mem p (A ++ [(c, cn)]) q) :
    Seg (store mem c (some { cn with next := q1 })) p (setLastNext (A ++ [(c, cn)]) q1) q1 := by
  rw [setLastNext_concat]
  rw [seg_append] at h ⊢
  obtain ⟨r, hA, hr, hc, _, _⟩ := h
  refine ⟨r, seg_frame mem _ A p r ?_ hA, hr, hc, by simp [store], rfl⟩
  intro a ha
  have : a ≠ c := by
    rintro rfl
    simp [List.nodup_append] at hnd
    simp at ha
    obtain ⟨b, hb⟩ := ha
    exact hnd.2 _ hb
  simp [store, this]

/-- Effect of `addJob` when `malloc` succeeds: the call returns the new node, the
old nodes keep their place (the last one is relinked) and the new node is appended
with the next job number. -/
theorem addJob_spec (t : JobTable) (L : List (Nat × suspendedJobs)) (ptr : Nat)
    (pid : Int × Int × Int) (name : List Char)
    (h : JobList t L) (hp : ptr ≠ 0) (hfree : t.mem ptr = none) :
    ∃ t1, addJob t ptr pid name = some (t1, ptr) ∧
      JobList t1 (setLastNext L ptr ++
        [(ptr, { jobNum := (match L.getLast? with | none => 1 | some x => x.2.jobNum + 1),
                 pid := pid, jobName := name, next := 0 })]) := by
  obtain ⟨hseg, hnd, hcurr⟩ := h
  have hfresh : ptr ∉ L.map Prod.fst := fun hm =>
    (seg_addr_allocated t.mem L t.head 0 ptr hseg hm).1 hfree
  rcases list_nil_or_snoc L with rfl | ⟨L0, x, rfl⟩
  · have hh : t.head = 0 := hseg
    refine ⟨_, by simp [addJob, hp, hh]; rfl, ?_⟩
    refine ⟨?_, by simp [setLastNext], by simp [lastAddr]⟩
    exact ⟨rfl, hp, by simp [store], rfl⟩
  · obtain ⟨c, cn⟩ := x
    have hc : t.curr = c := by rw [hcurr, lastAddr_concat]
    obtain ⟨r, hA, hr, hc0, hmc, hnx⟩ := (seg_append _ _ _ _ _).1 hseg
    have hh : t.head ≠ 0 := by
      cases L0 with
      | nil => simp [Seg] at hA; omega
      | cons y L0 => exact seg_firstAddr_ne_zero _ _ _ _ _ hA
    have hpc : c ≠ ptr := by
      rintro rfl
      exact hfresh (by simp)
    have e1 : load t.mem c = some cn := by simp [load, hc0, hmc]
    have e2 : ∀ v, load (store t.mem ptr v) c = some cn := by
      intro v
      simp [load, store, hc0, hpc, hmc]
    refine ⟨_, by simp [addJob, hp, hh, hc, e1, e2]; rfl, ?_⟩
    have hl : (L0 ++ [(c, cn)]).getLast? = some (c, cn) := by simp
    rw [hl]
    show JobList _ (setLastNext (L0 ++ [(c, cn)]) ptr ++
      [(ptr, { jobNum := cn.jobNum + 1, pid := pid, jobName := name, next := 0 })])
    refine ⟨?_, ?_, ?_⟩
    · rw [seg_append]
      refine ⟨ptr, ?_, rfl, hp, by simp [store, hpc.symm], rfl⟩
      apply seg_setLastNext _ _ _ _ _ _ _ hnd
      apply seg_frame t.mem _ _ _ _ _ hseg
      intro a ha
      have : a ≠ ptr := fun e => hfresh (e ▸ ha)
      simp [store, this]
    · rw [List.map_append, setLastNext_fst]
      simp only [List.map_cons, List.map_nil]
      rw [List.nodup_append]
      refine ⟨hnd, by simp, ?_⟩
      intro a ha hb
      simp at hb
      exact hfresh (hb ▸ ha)
    · rw [lastAddr_concat]

theorem decNode_fst (B : List (Nat × suspendedJobs)) :
    (B.map decNode).map Prod.fst = B.map Prod.fst := by
  simp [decNode, Function.comp_def]

theorem lastAddr_decNode (B : List (Nat × suspendedJobs)) :
    lastAddr (B.map decNode) = lastAddr B := by
  unfold lastAddr
  rw [decNode_fst]

theorem lastAddr_eq_of_fst (A B : List (Nat × suspendedJobs))
    (h : A.map Prod.fst = B.map Prod.fst) : lastAddr A = lastAddr B := by
  simp [lastAddr, h]

theorem lastAddr_cons_ne (x : Nat × suspendedJobs) (y : Nat × suspendedJobs)
    (B : List (Nat × suspendedJobs)) (hnd : ((x :: y :: B).map Prod.fst).Nodup) :
    lastAddr (x :: y :: B) ≠ x.1 := by
  rw [lastAddr_cons_cons]
  intro h
  have hm := lastAddr_mem y B
  rw [h] at hm
  simp only [List.map_cons, List.nodup_cons] at hnd
  exact hnd.1 (by simpa using hm)

/-- The search loop walks over nodes whose number differs from the one looked for. -/
theorem searchJobLoop_skip (mem : Nat → Option suspendedJobs) (k : Int)
    (A : List (Nat × suspendedJobs)) (p r tmp f : Nat)
    (h : Seg mem p A r) (hne : ∀ x ∈ A, x.2.jobNum ≠ k) :
    searchJobLoop mem k (A.length + f) p tmp =
      searchJobLoop mem k f r (((A.map Prod.fst).getLast?).getD tmp) := by
  induction A generalizing p tmp with
  | nil =>
    have : p = r := h
    simp [this]
  | cons x A ih =>
    obtain ⟨a, n⟩ := x
    obtain ⟨h1, h2, h3, h4⟩ := h
    subst h1
    have hn : n.jobNum ≠ k := hne (p, n) (by simp)
    have e : (p, n) :: A = [(p, n)] ++ A := rfl
    have hlen : ((p, n) :: A).length + f = (A.length + f) + 1 := by simp; omega
    rw [hlen]
    simp only [searchJobLoop, h2, load, h3, hn, if_false]
    rw [ih n.next p h4 (fun x hx => hne x (List.mem_cons_of_mem _ hx))]
    congr 1
    cases A with
    | nil => simp
    | cons y A =>
      cases hq : (List.map Prod.fst ((p, n) :: y :: A)).getLast? with
      | none => simp at hq
      | some v =>
        have hq2 : (List.map Prod.fst (y :: A)).getLast? = some v := by
          simpa [List.getLast?_cons_cons] using hq
        rw [hq2]
        rfl

theorem searchJobLoop_found (mem : Nat → Option suspendedJobs) (k : Int)
    (d : Nat) (dn : suspendedJobs) (tmp f : Nat)
    (hd : d ≠ 0) (hm : mem d = some dn) (hk : dn.jobNum = k) :
    searchJobLoop mem k (f + 1) d tmp = some (d, some tmp) := by
  simp [searchJobLoop, hd, load, hm, hk]

theorem searchJobLoop_absent (mem : Nat → Option suspendedJobs) (k : Int)
    (L : List (Nat × suspendedJobs)) (p tmp fuel : Nat)
    (h : Seg mem p L 0) (hne : ∀ x ∈ L, x.2.jobNum ≠ k) (hf : L.length < fuel) :
    searchJobLoop mem k fuel p tmp = some (0, none) := by
  obtain ⟨f, rfl⟩ : ∃ f, fuel = L.length + (f + 1) := ⟨fuel - L.length - 1, by omega⟩
  rw [searchJobLoop_skip mem k L p 0 tmp (f + 1) h hne]
  simp [searchJobLoop]

/-- The renumbering loop started at a node decreases the number of every node after
it and touches nothing else. -/
theorem decreaseAfter_spec (B : List (Nat × suspendedJobs)) :
    ∀ (mem : Nat → Option suspendedJobs) (a : Nat) (n : suspendedJobs) (fuel : Nat),
      Seg mem a ((a, n) :: B) 0 → (((a, n) :: B).map Prod.fst).Nodup → B.length < fuel →
      ∃ mem1, decreaseAfter (lastAddr ((a, n) :: B)) fuel mem a = some mem1 ∧
        Seg mem1 n.next (B.map decNode) 0 ∧ ∀ x, x ∉ B.map Prod.fst → mem1 x = mem x := by
  induction B with
  | nil =>
    intro mem a n fuel h _ hf
    obtain ⟨f, rfl⟩ : ∃ f, fuel = f + 1 := ⟨fuel - 1, by omega⟩
    obtain ⟨_, _, _, h4⟩ := h
    exact ⟨mem, by simp [decreaseAfter, lastAddr], h4, fun _ _ => rfl⟩
  | cons y B ih =>
    intro mem a n fuel h hnd hf
    obtain ⟨b, bn⟩ := y
    obtain ⟨f, rfl⟩ : ∃ f, fuel = f + 1 := ⟨fuel - 1, by omega⟩
    obtain ⟨_, ha0, ham, hb, hb0, hbm, hrest⟩ := h
    have hcur : lastAddr ((a, n) :: (b, bn) :: B) ≠ a := lastAddr_cons_ne (a, n) (b, bn) B hnd
    have hndB : (((b, bn) :: B).map Prod.fst).Nodup := (List.nodup_cons.1 hnd).2
    have hbB : b ∉ B.map Prod.fst := (List.nodup_cons.1 hndB).1
    have hab : a ≠ b := by
      intro e
      exact (List.nodup_cons.1 hnd).1 (by simp [e])
    have hseg1 : Seg (store mem b (some { bn with jobNum := bn.jobNum - 1 })) b
        ((b, { bn with jobNum := bn.jobNum - 1 }) :: B) 0 := by
      refine ⟨rfl, hb0, by simp [store], ?_⟩
      apply seg_frame mem _ _ _ _ _ hrest
      intro x hx
      have : x ≠ b := fun e => hbB (e ▸ hx)
      simp [store, this]
    obtain ⟨mem1, hm1, hs1, hfr1⟩ := ih _ b { bn with jobNum := bn.jobNum - 1 } f hseg1
      hndB (by simpa using hf)
    have hlast : lastAddr ((b, { bn with jobNum := bn.jobNum - 1 }) :: B) =
        lastAddr ((a, n) :: (b, bn) :: B) := by
      rw [lastAddr_cons_cons]
      exact lastAddr_eq_of_fst _ _ rfl
    rw [hlast] at hm1
    refine ⟨mem1, ?_, ?_, ?_⟩
    · have hne : ¬ a = lastAddr ((a, n) :: (b, bn) :: B) := fun e => hcur e.symm
      simp only [decreaseAfter, hne, if_false, load, ha0, ham]
      rw [hb]
      simp only [hb0, hbm, if_false]
      exact hm1
    · refine ⟨hb, hb0, ?_, hs1⟩
      rw [hfr1 b hbB]
      simp [store, decNode]
    · intro x hx
      have hx1 : x ≠ b := fun e => hx (by simp [e])
      have hx2 : x ∉ B.map Prod.fst := fun e => hx (by simp at e ⊢; exact Or.inr e)
      rw [hfr1 x hx2]
      simp [store, hx1]

theorem seg_first_mem (mem : Nat → Option suspendedJobs) (L : List (Nat × suspendedJobs))
    (p q : Nat) (h : Seg mem p L q) (hL : L ≠ []) : p ∈ L.map Prod.fst := by
  cases L with
  | nil => exact absurd rfl hL
  | cons x L =>
    obtain ⟨a, n⟩ := x
    obtain ⟨h1, _⟩ := h
    simp [h1]

/-- Effect of `deleteJob(k)` when the first node numbered `k` is `d`: the call
succeeds, `d` is unlinked and freed, the node before it is relinked, and every node
after it has its number decreased by one. -/
theorem deleteJob_spec (t : JobTable) (A B : List (Nat × suspendedJobs)) (d : Nat)
    (dn : suspendedJobs) (k : Int) (fuel : Nat)
    (h : JobList t (A ++ (d, dn) :: B)) (hne : ∀ x ∈ A, x.2.jobNum ≠ k)
    (hk : dn.jobNum = k) (hf : (A ++ (d, dn) :: B).length < fuel) :
    ∃ t1, deleteJob fuel t k = some (t1, false) ∧
      JobList t1 (setLastNext A dn.next ++ B.map decNode) ∧ t1.mem d = none := by
  obtain ⟨hseg, hnd, hcurr⟩ := h
  obtain ⟨r, hA, hr, hd0, hdm, hB⟩ := (seg_append _ _ _ _ _).1 hseg
  subst hr
  rw [lastAddr_append_cons] at hcurr
  rw [List.map_append, List.nodup_append] at hnd
  obtain ⟨ndA, ndDB, hdisj⟩ := hnd
  have hdA : r ∉ A.map Prod.fst := fun hm => hdisj hm (by simp)
  have hAB : ∀ a ∈ A.map Prod.fst, a ∉ B.map Prod.fst := fun a ha hb =>
    hdisj ha (by simp at hb ⊢; exact Or.inr hb)
  have hdB : r ∉ B.map Prod.fst := (List.nodup_cons.1 ndDB).1
  have ndB : (B.map Prod.fst).Nodup := (List.nodup_cons.1 ndDB).2
  have hlen : (A ++ (r, dn) :: B).length = A.length + (B.length + 1) := by simp
  have hsearch : searchJob fuel t k = some (r, some (lastAddr A)) := by
    obtain ⟨f, rfl⟩ : ∃ f, fuel = A.length + (f + 1) := ⟨fuel - A.length - 1, by omega⟩
    unfold searchJob
    rw [searchJobLoop_skip t.mem k A t.head r 0 (f + 1) hA hne]
    exact searchJobLoop_found t.mem k r dn _ f hd0 hdm hk
  obtain ⟨mem1, hdec, hs1, hfr1⟩ := decreaseAfter_spec B t.mem r dn fuel
    ⟨rfl, hd0, hdm, hB⟩ ndDB (by omega)
  rw [← hcurr] at hdec
  have hld : load mem1 r = some dn := by simp [load, hd0, hfr1 r hdB, hdm]
  have hcurrB : (if r = t.curr then lastAddr A else t.curr) =
      lastAddr (setLastNext A dn.next ++ B.map decNode) := by
    cases B with
    | nil =>
      rw [hcurr]
      simp only [lastAddr_singleton, if_true, List.map_nil, List.append_nil]
      exact lastAddr_eq_of_fst _ _ (setLastNext_fst _ _).symm
    | cons y B =>
      have hne1 : lastAddr ((r, dn) :: y :: B) ≠ r := lastAddr_cons_ne (r, dn) y B ndDB
      rw [hcurr, if_neg (fun e => hne1 e.symm), List.map_cons, lastAddr_append_cons,
        lastAddr_cons_cons]
      exact lastAddr_eq_of_fst _ _ (by simp [decNode_fst, decNode])
  have hndR : ((setLastNext A dn.next ++ B.map decNode).map Prod.fst).Nodup := by
    rw [List.map_append, setLastNext_fst, decNode_fst, List.nodup_append]
    exact ⟨ndA, ndB, fun a ha hb => hAB a ha hb⟩
  rcases list_nil_or_snoc A with rfl | ⟨A0, x, rfl⟩
  · have hh : t.head = r := hA
    refine ⟨{ mem := store mem1 r none, head := dn.next,
              curr := if r = t.curr then 0 else t.curr }, ?_, ⟨?_, hndR, ?_⟩, by simp [store]⟩
    · simp [deleteJob, hsearch, hd0, hdec, hld, lastAddr, hh]
    · simp only [setLastNext_nil, List.nil_append]
      apply seg_frame mem1 _ _ _ _ _ hs1
      intro a ha
      rw [decNode_fst] at ha
      have : a ≠ r := fun e => hdB (e ▸ ha)
      simp [store, this]
    · exact hcurrB
  · obtain ⟨p, pn⟩ := x
    have hp := seg_mem_some _ _ _ _ hA (p, pn) (by simp)
    have hpA : p ∈ (A0 ++ [(p, pn)]).map Prod.fst := by simp
    have hpB : p ∉ B.map Prod.fst := hAB p hpA
    have hpd : p ≠ r := fun e => hdA (e ▸ hpA)
    have hlp : load mem1 p = some pn := by simp [load, hp.1, hfr1 p hpB, hp.2]
    have hhead : t.head ≠ r := fun e =>
      hdA (e ▸ seg_first_mem _ _ _ _ hA (by simp))
    have hlast : lastAddr (A0 ++ [(p, pn)]) = p := lastAddr_concat _ _
    rw [hlast] at hsearch hcurrB
    refine ⟨{ mem := store (store mem1 p (some { pn with next := dn.next })) r none,
              head := t.head, curr := if r = t.curr then p else t.curr },
            ?_, ⟨?_, hndR, hcurrB⟩, by simp [store]⟩
    · have hhead2 : ¬ r = t.head := fun e => hhead e.symm
      simp [deleteJob, hsearch, hd0, hdec, hld, hp.1, hlp, hhead2]
    · rw [seg_append]
      refine ⟨dn.next, ?_, ?_⟩
      · have hA1 : Seg mem1 t.head (A0 ++ [(p, pn)]) r :=
          seg_frame t.mem _ _ _ _ (fun a ha => hfr1 a (hAB a ha)) hA
        have hA2 := seg_setLastNext mem1 A0 p pn t.head r dn.next ndA hA1
        apply seg_frame _ _ _ _ _ _ hA2
        intro a ha
        rw [setLastNext_fst] at ha
        have : a ≠ r := fun e => hdA (e ▸ ha)
        simp [store, this]
      · apply seg_frame mem1 _ _ _ _ _ hs1
        intro a ha
        rw [decNode_fst] at ha
        have h1 : a ≠ r := fun e => hdB (e ▸ ha)
        have h2 : a ≠ p := fun e => hpB (e ▸ ha)
        simp [store, h1, h2]

/-- Effect of `deleteJob(k)` when no node is numbered `k`: nothing changes and the
call reports failure. -/
theorem deleteJob_absent (t : JobTable) (L : List (Nat × suspendedJobs)) (k : Int)
    (fuel : Nat) (h : JobList t L) (hne : ∀ x ∈ L, x.2.jobNum ≠ k) (hf : L.length < fuel) :
    deleteJob fuel t k = some (t, true) := by
  have := searchJobLoop_absent t.mem k L t.head 0 fuel h.1 hne hf
  simp [deleteJob, searchJob, this]

theorem mem_denseIds (n : Nat) (v : Int) : v ∈ denseIds n ↔ 1 ≤ v ∧ v ≤ n := by
  simp only [denseIds, List.mem_map, List.mem_range]
  constructor
  · rintro ⟨i, hi, rfl⟩
    omega
  · rintro ⟨h1, h2⟩
    exact ⟨(v - 1).toNat, by omega, by omega⟩

theorem denseIds_length (n : Nat) : (denseIds n).length = n := by
  simp [denseIds]

theorem denseIds_add (a b : Nat) :
    denseIds (a + b) = denseIds a ++ (List.range b).map (fun (i : Nat) => ((a + i : Nat) : Int) + 1) := by
  simp [denseIds, List.range_add, Function.comp_def]

theorem jobIds_append (A B : List (Nat × suspendedJobs)) :
    jobIds (A ++ B) = jobIds A ++ jobIds B := by
  simp [jobIds]

theorem jobIds_length (A : List (Nat × suspendedJobs)) : (jobIds A).length = A.length := by
  simp [jobIds]

theorem jobIds_decNode (B : List (Nat × suspendedJobs)) :
    jobIds (B.map decNode) = (jobIds B).map (fun v => v - 1) := by
  simp [jobIds, decNode, Function.comp_def]

theorem jobPayload_append (A B : List (Nat × suspendedJobs)) :
    jobPayload (A ++ B) = jobPayload A ++ jobPayload B := by
  simp [jobPayload]

theorem jobPayload_decNode (B : List (Nat × suspendedJobs)) :
    jobPayload (B.map decNode) = jobPayload B := by
  simp [jobPayload, decNode, Function.comp_def]

/-- In a densely numbered chain the nodes before a position carry the first ids, the
node at the position carries the next one and the ones after it continue from there. -/
theorem dense_split (A B : List (Nat × suspendedJobs)) (x : Nat × suspendedJobs)
    (h : jobIds (A ++ x :: B) = denseIds (A ++ x :: B).length) :
    jobIds A = denseIds A.length ∧ x.2.jobNum = (A.length : Int) + 1 ∧
      jobIds B = (List.range B.length).map (fun (i : Nat) => ((A.length + (i + 1) : Nat) : Int) + 1) := by
  have hl : (A ++ x :: B).length = A.length + (B.length + 1) := by simp
  rw [hl, denseIds_add, jobIds_append] at h
  have h1 := List.append_inj h (by simp [jobIds_length, denseIds_length])
  refine ⟨h1.1, ?_, ?_⟩
  · have h2 := h1.2
    rw [List.range_succ_eq_map] at h2
    simp only [jobIds, List.map_cons] at h2
    have := (List.cons_eq_cons.1 h2).1
    simpa using this
  · have h2 := h1.2
    rw [List.range_succ_eq_map] at h2
    simp only [jobIds, List.map_cons] at h2
    have := (List.cons_eq_cons.1 h2).2
    simpa [jobIds, Function.comp_def] using this

/-- Removing a node from a densely numbered chain and decreasing the numbers after it
leaves a densely numbered chain. -/
theorem dense_delete (A B : List (Nat × suspendedJobs)) (x : Nat × suspendedJobs) (q : Nat)
    (h : jobIds (A ++ x :: B) = denseIds (A ++ x :: B).length) :
    jobIds (setLastNext A q ++ B.map decNode) =
      denseIds (setLastNext A q ++ B.map decNode).length := by
  obtain ⟨hA, _, hB⟩ := dense_split A B x h
  have hl : (setLastNext A q ++ B.map decNode).length = A.length + B.length := by
    simp [setLastNext_length]
  rw [hl, denseIds_add, jobIds_append, setLastNext_ids, jobIds_decNode, hA, hB]
  congr 1
  simp only [List.map_map]
  apply List.map_congr_left
  intro i _
  simp only [Function.comp]
  push_cast
  omega

/-- A number between `1` and the length of a densely numbered chain designates the
node at that position; the nodes before it carry other numbers. -/
theorem dense_locate (L : List (Nat × suspendedJobs)) (k : Int)
    (h : jobIds L = denseIds L.length) (hk1 : 1 ≤ k) (hk2 : k ≤ L.length) :
    ∃ A d dn B, L = A ++ (d, dn) :: B ∧ A = L.take (k.toNat - 1) ∧
      B = L.drop (k.toNat - 1 + 1) ∧ A.length = k.toNat - 1 ∧
      dn.jobNum = k ∧ ∀ x ∈ A, x.2.jobNum ≠ k := by
  have hm : k.toNat - 1 < L.length := by omega
  have hsplit : L = L.take (k.toNat - 1) ++ L[k.toNat - 1] :: L.drop (k.toNat - 1 + 1) := by
    rw [← List.drop_eq_getElem_cons hm, List.take_append_drop]
  have hlen : (L.take (k.toNat - 1)).length = k.toNat - 1 := by
    rw [List.length_take]; omega
  rw [hsplit] at h
  obtain ⟨hA, hx, _⟩ := dense_split _ _ _ h
  refine ⟨L.take (k.toNat - 1), (L[k.toNat - 1]).1, (L[k.toNat - 1]).2,
    L.drop (k.toNat - 1 + 1), hsplit, rfl, rfl, hlen, ?_, ?_⟩
  · rw [hx, hlen]; omega
  · intro x hx1
    have : x.2.jobNum ∈ denseIds (L.take (k.toNat - 1)).length := by
      rw [← hA]; exact List.mem_map.2 ⟨x, hx1, rfl⟩
    rw [mem_denseIds, hlen] at this
    omega

theorem dense_absent (L : List (Nat × suspendedJobs)) (k : Int)
    (h : jobIds L = denseIds L.length) (hk : k < 1 ∨ (L.length : Int) < k) :
    ∀ x ∈ L, x.2.jobNum ≠ k := by
  intro x hx
  have : x.2.jobNum ∈ denseIds L.length := by
    rw [← h]; exact List.mem_map.2 ⟨x, hx, rfl⟩
  rw [mem_denseIds] at this
  omega

theorem dense_last (L : List (Nat × suspendedJobs)) (x : Nat × suspendedJobs)
    (h : jobIds (L ++ [x]) = denseIds (L ++ [x]).length) :
    x.2.jobNum = (L.length : Int) + 1 :=
  (dense_split L [] x h).2.1

/-- Head and tail pointers of a densely numbered table. -/
theorem dense_head_curr (t : JobTable) (L : List (Nat × suspendedJobs))
    (h : JobList t L) (hd : jobIds L = denseIds L.length) :
    (t.head = 0 ↔ L.length = 0) ∧
      (0 < L.length → L.getLast?.map Prod.fst = some t.curr ∧
        (load t.mem t.curr).map (fun n => n.jobNum) = some (L.length : Int)) := by
  obtain ⟨hseg, _, hcurr⟩ := h
  rcases list_nil_or_snoc L with rfl | ⟨L0, x, rfl⟩
  · have : t.head = 0 := hseg
    simp [this]
  · obtain ⟨c, cn⟩ := x
    have hc : t.curr = c := by rw [hcurr, lastAddr_concat]
    have hm : c ≠ 0 ∧ t.mem c = some cn := seg_mem_some _ _ _ _ hseg (c, cn) (by simp)
    have hnum : cn.jobNum = (L0.length : Int) + 1 := dense_last L0 (c, cn) hd
    have hh : t.head ≠ 0 := by
      cases L0 with
      | nil => exact seg_firstAddr_ne_zero _ _ _ _ _ hseg
      | cons y L0 => exact seg_firstAddr_ne_zero _ _ _ _ _ hseg
    refine ⟨by simp [hh], fun _ => ⟨by simp [hc], ?_⟩⟩
    simp only [hc, load, hm.1, if_false, hm.2, Option.map_some', hnum]
    simp

/-- One call of `addJob` or `deleteJob` on a densely numbered table succeeds and
leaves a densely numbered table with at most one more node. -/
theorem stepOp_dense (t : JobTable) (L : List (Nat × suspendedJobs)) (op : JobOp) (fuel : Nat)
    (h : JobList t L) (hd : jobIds L = denseIds L.length) (hf : L.length < fuel)
    (hm : mallocValid fuel t [op] = true) :
    ∃ t1 L1, stepOp fuel t op = some t1 ∧ JobList t1 L1 ∧
      jobIds L1 = denseIds L1.length ∧ L1.length ≤ L.length + 1 := by
  cases op with
  | add ptr pid name =>
    by_cases hp : ptr = 0
    · exact ⟨t, L, by simp [stepOp, addJob, hp], h, hd, by omega⟩
    · have hfree : t.mem ptr = none := by
        simp [mallocValid, hp] at hm
        exact hm.1
      obtain ⟨t1, h1, h2⟩ := addJob_spec t L ptr pid name h hp hfree
      refine ⟨t1, _, by simp [stepOp, h1], h2, ?_, by simp [setLastNext_length]⟩
      have hl : (setLastNext L ptr ++
          [(ptr, ({ jobNum := (match L.getLast? with | none => 1 | some x => x.2.jobNum + 1),
                    pid := pid, jobName := name, next := 0 } : suspendedJobs))]).length
            = L.length + 1 := by simp [setLastNext_length]
      rw [hl, denseIds_add, jobIds_append, setLastNext_ids, hd]
      congr 1
      have hr : List.range 1 = [0] := rfl
      rw [hr]
      rcases list_nil_or_snoc L with rfl | ⟨L0, x, rfl⟩
      · simp [jobIds]
      · have := dense_last L0 x hd
        simp [jobIds, this]
  | delete k =>
    by_cases hk : 1 ≤ k ∧ k ≤ L.length
    · obtain ⟨A, d, dn, B, hL, _, _, _, hdk, hne⟩ := dense_locate L k hd hk.1 hk.2
      subst hL
      obtain ⟨t1, h1, h2, _⟩ := deleteJob_spec t A B d dn k fuel h hne hdk hf
      exact ⟨t1, _, by simp [stepOp, h1], h2, dense_delete A B (d, dn) dn.next hd,
        by simp [setLastNext_length]; omega⟩
    · have hne := dense_absent L k hd (by omega)
      exact ⟨t, L, by simp [stepOp, deleteJob_absent t L k fuel h hne hf], h, hd, by omega⟩

/-- Every sequence of calls on a densely numbered table succeeds and ends in a
densely numbered table. -/
theorem runOps_dense (ops : List JobOp) :
    ∀ (t : JobTable) (L : List (Nat × suspendedJobs)) (fuel : Nat),
      JobList t L → jobIds L = denseIds L.length → L.length + ops.length < fuel →
      mallocValid fuel t ops = true →
      ∃ t1 L1, runOps fuel t ops = some t1 ∧ JobList t1 L1 ∧
        jobIds L1 = denseIds L1.length ∧ L1.length < fuel := by
  induction ops with
  | nil =>
    intro t L fuel h hd hf _
    exact ⟨t, L, rfl, h, hd, by simpa using hf⟩
  | cons op rest ih =>
    intro t L fuel h hd hf hm
    have hm1 : mallocValid fuel t [op] = true := by
      simp only [mallocValid, Bool.and_eq_true] at hm ⊢
      refine ⟨hm.1, ?_⟩
      cases stepOp fuel t op <;> rfl
    obtain ⟨t1, L1, hs, hj, hd1, hl⟩ := stepOp_dense t L op fuel h hd (by omega) hm1
    have hm2 : mallocValid fuel t1 rest = true := by
      simp only [mallocValid, Bool.and_eq_true, hs] at hm
      exact hm.2
    obtain ⟨t2, L2, hr, hj2, hd2, hl2⟩ := ih t1 L1 fuel hj hd1
      (by simp at hf; omega) hm2
    exact ⟨t2, L2, by simp [runOps, hs, hr], hj2, hd2, hl2⟩

theorem jobList_empty : JobList emptyTable [] :=
  ⟨rfl, by simp, rfl⟩

theorem seg_head_eq (mem : Nat → Option suspendedJobs) (L : List (Nat × suspendedJobs))
    (p : Nat) (h : Seg mem p L 0) : p = ((L.map Prod.fst).head?).getD 0 := by
  cases L with
  | nil => exact h
  | cons x L =>
    obtain ⟨a, n⟩ := x
    exact h.1

/-! ## Token classifier: lemmas -/

/-- One iteration of the loop of `tokenize` applies the transition function. -/
theorem tokenizeStep_eq (s : TokState) (w : List Char) :
    tokenizeStep s w =
      match classify (s.tokenType s.i) s.piped s.redirected w with
      | some k =>
        { tokenType := fun j => if j = s.i + 1 then k else s.tokenType j
          tokenizedInput := fun j => if j = s.i + 1 then w else s.tokenizedInput j
          i := s.i + 1
          piped := pipedAfter s.piped k
          redirected := redirectedAfter s.redirected k
          invalidInput := s.invalidInput }
      | none =>
        { tokenType := s.tokenType
          tokenizedInput := fun j => if j = s.i + 1 then w else s.tokenizedInput j
          i := s.i + 1
          piped := s.piped
          redirected := s.redirected
          invalidInput := true } := by
  unfold tokenizeStep classify
  cases h : s.tokenType s.i <;> simp only [] <;> split_ifs <;>
    simp [TokState.assign, pipedAfter, redirectedAfter]

theorem tokenizeStep_i (s : TokState) (w : List Char) : (tokenizeStep s w).i = s.i + 1 := by
  rw [tokenizeStep_eq]
  cases classify (s.tokenType s.i) s.piped s.redirected w <;> rfl

theorem tokenizeStep_text (s : TokState) (w : List Char) (j : Nat) :
    (tokenizeStep s w).tokenizedInput j = if j = s.i + 1 then w else s.tokenizedInput j := by
  rw [tokenizeStep_eq]
  cases classify (s.tokenType s.i) s.piped s.redirected w <;> rfl

theorem tokenizeStep_frame (s : TokState) (w : List Char) (j : Nat) (hj : j ≤ s.i) :
    (tokenizeStep s w).tokenType j = s.tokenType j := by
  rw [tokenizeStep_eq]
  cases classify (s.tokenType s.i) s.piped s.redirected w with
  | none => rfl
  | some k =>
    have : j ≠ s.i + 1 := by omega
    simp [this]

theorem tokenizeStep_invalid_of_invalid (s : TokState) (w : List Char)
    (h : s.invalidInput = true) : (tokenizeStep s w).invalidInput = true := by
  rw [tokenizeStep_eq]
  cases classify (s.tokenType s.i) s.piped s.redirected w with
  | none => rfl
  | some k => exact h

/-- An iteration that leaves `invalidInput` false has classified its word. -/
theorem tokenizeStep_valid (s : TokState) (w : List Char)
    (h : (tokenizeStep s w).invalidInput = false) :
    s.invalidInput = false ∧
      ∃ k, classify (s.tokenType s.i) s.piped s.redirected w = some k ∧
        (tokenizeStep s w).tokenType (s.i + 1) = k ∧
        (tokenizeStep s w).piped = pipedAfter s.piped k ∧
        (tokenizeStep s w).redirected = redirectedAfter s.redirected k := by
  rw [tokenizeStep_eq] at h ⊢
  cases hc : classify (s.tokenType s.i) s.piped s.redirected w with
  | none => rw [hc] at h; simp at h
  | some k =>
    rw [hc] at h
    exact ⟨h, k, rfl, by simp, rfl, rfl⟩

theorem foldl_i (ws : List (List Char)) (s : TokState) :
    (ws.foldl tokenizeStep s).i = s.i + ws.length := by
  induction ws generalizing s with
  | nil => rfl
  | cons w ws ih =>
    rw [List.foldl_cons, ih, tokenizeStep_i, List.length_cons]
    omega

theorem foldl_frame (ws : List (List Char)) (s : TokState) (j : Nat) (hj : j ≤ s.i) :
    (ws.foldl tokenizeStep s).tokenType j = s.tokenType j := by
  induction ws generalizing s with
  | nil => rfl
  | cons w ws ih =>
    rw [List.foldl_cons, ih _ (by rw [tokenizeStep_i]; omega), tokenizeStep_frame s w j hj]

theorem foldl_text_frame (ws : List (List Char)) (s : TokState) (j : Nat) (hj : j ≤ s.i) :
    (ws.foldl tokenizeStep s).tokenizedInput j = s.tokenizedInput j := by
  induction ws generalizing s with
  | nil => rfl
  | cons w ws ih =>
    rw [List.foldl_cons, ih _ (by rw [tokenizeStep_i]; omega), tokenizeStep_text]
    have : j ≠ s.i + 1 := by omega
    simp [this]

/-- After the loop `tokenizedInput[i+1..]` holds the words, in order. -/
theorem foldl_texts (ws : List (List Char)) (s : TokState) :
    (List.range ws.length).map
      (fun j => (ws.foldl tokenizeStep s).tokenizedInput (s.i + 1 + j)) = ws := by
  induction ws generalizing s with
  | nil => rfl
  | cons w ws ih =>
    rw [List.foldl_cons, List.length_cons, List.range_succ_eq_map, List.map_cons, List.map_map]
    congr 1
    · rw [foldl_text_frame _ _ _ (by simp [tokenizeStep_i]), tokenizeStep_text]
      simp
    · have := ih (tokenizeStep s w)
      rw [tokenizeStep_i] at this
      conv_rhs => rw [← this]
      apply List.map_congr_left
      intro j _
      simp only [Function.comp, Nat.succ_eq_add_one]
      congr 1
      omega

theorem foldl_invalid_of_invalid (ws : List (List Char)) (s : TokState)
    (h : s.invalidInput = true) : (ws.foldl tokenizeStep s).invalidInput = true := by
  induction ws generalizing s with
  | nil => exact h
  | cons w ws ih => exact ih _ (tokenizeStep_invalid_of_invalid s w h)

/-- When the loop ends with `invalidInput` false, every word was classified by the
transition function from the kind written just before it, and the counters count
the pipes and redirections. -/
theorem foldl_follows (ws : List (List Char)) (s : TokState)
    (h : (ws.foldl tokenizeStep s).invalidInput = false) :
    s.invalidInput = false ∧
      Follows (s.tokenType s.i) s.piped s.redirected
        ((List.range ws.length).map (fun j => (ws.foldl tokenizeStep s).tokenType (s.i + 1 + j)))
        ws := by
  induction ws generalizing s with
  | nil => exact ⟨h, trivial⟩
  | cons w ws ih =>
    rw [List.foldl_cons] at h ⊢
    obtain ⟨h1, hF⟩ := ih (tokenizeStep s w) h
    obtain ⟨h2, k, hk, hkt, hp, hr⟩ := tokenizeStep_valid s w h1
    refine ⟨h2, ?_⟩
    rw [List.length_cons, List.range_succ_eq_map, List.map_cons, List.map_map]
    have hk1 : (ws.foldl tokenizeStep (tokenizeStep s w)).tokenType (s.i + 1 + 0) = k := by
      rw [foldl_frame _ _ _ (by simp [tokenizeStep_i])]
      exact hkt
    rw [hk1]
    refine ⟨hk, ?_⟩
    rw [tokenizeStep_i, hkt, hp, hr] at hF
    have e : (List.range ws.length).map
        ((fun j => (ws.foldl tokenizeStep (tokenizeStep s w)).tokenType (s.i + 1 + j)) ∘
          Nat.succ) =
        (List.range ws.length).map
          (fun j => (ws.foldl tokenizeStep (tokenizeStep s w)).tokenType (s.i + 1 + 1 + j)) := by
      apply List.map_congr_left
      intro j _
      simp only [Function.comp, Nat.succ_eq_add_one]
      congr 1
      omega
    rw [e]
    exact hF

theorem tokenize_tokenType (tt0 : Nat → cmdType) (input : List Char) :
    (tokenize tt0 input).tokenType = (tokenizeLoop tt0 input.dropLast).tokenType := by
  unfold tokenize
  simp only []
  split_ifs <;> rfl

theorem tokenize_tokenizedInput (tt0 : Nat → cmdType) (input : List Char) :
    (tokenize tt0 input).tokenizedInput = (tokenizeLoop tt0 input.dropLast).tokenizedInput := by
  unfold tokenize
  simp only []
  split_ifs <;> rfl

theorem tokenize_numOfTokens (tt0 : Nat → cmdType) (input : List Char) :
    (tokenize tt0 input).numOfTokens = (tokenizeLoop tt0 input.dropLast).i := by
  unfold tokenize
  simp only []
  split_ifs <;> rfl

theorem tokenize_inputStringBackup (tt0 : Nat → cmdType) (input : List Char) :
    (tokenize tt0 input).inputStringBackup = input.dropLast := by
  unfold tokenize
  simp only []
  split_ifs <;> rfl

/-- When `tokenize` returns `true`: the arity tests and the final test all passed. -/
theorem tokenize_ret_true (tt0 : Nat → cmdType) (input : List Char) :
    (tokenize tt0 input).ret = true ↔
      (((tokenizeLoop tt0 input.dropLast).tokenizedInput 1 = "exit".toList ∨
          (tokenizeLoop tt0 input.dropLast).tokenizedInput 1 = "jobs".toList) →
        (tokenizeLoop tt0 input.dropLast).i = 1) ∧
      (¬ ((tokenizeLoop tt0 input.dropLast).tokenizedInput 1 = "exit".toList ∨
          (tokenizeLoop tt0 input.dropLast).tokenizedInput 1 = "jobs".toList) →
        ((tokenizeLoop tt0 input.dropLast).tokenizedInput 1 = "cd".toList ∨
          (tokenizeLoop tt0 input.dropLast).tokenizedInput 1 = "fg".toList) →
        (tokenizeLoop tt0 input.dropLast).i = 2) ∧
      (tokenizeLoop tt0 input.dropLast).invalidInput = false ∧
      (tokenizeLoop tt0 input.dropLast).tokenType (tokenizeLoop tt0 input.dropLast).i ≠ REDIR_IN ∧
      (tokenizeLoop tt0 input.dropLast).tokenType (tokenizeLoop tt0 input.dropLast).i ≠ REDIR_OUT ∧
      (tokenizeLoop tt0 input.dropLast).tokenType (tokenizeLoop tt0 input.dropLast).i ≠ PIPE ∧
      (tokenizeLoop tt0 input.dropLast).tokenType (tokenizeLoop tt0 input.dropLast).i ≠
        BUILTIN_WITH_ARG := by
  unfold tokenize
  simp only []
  split_ifs <;>
    simp only [Bool.false_eq_true, false_iff, true_iff, Bool.eq_false_iff, ne_eq] <;> tauto

theorem tokenizeLoop_i (tt0 : Nat → cmdType) (line : List Char) :
    (tokenizeLoop tt0 line).i = (strtokAll line []).length := by
  unfold tokenizeLoop
  rw [foldl_i]
  simp [tokenizeInit]

theorem tokenizeLoop_zero (tt0 : Nat → cmdType) (line : List Char) :
    (tokenizeLoop tt0 line).tokenType 0 = tt0 0 := by
  unfold tokenizeLoop
  rw [foldl_frame _ _ _ (Nat.zero_le _)]
  rfl

theorem tokenizeLoop_texts (tt0 : Nat → cmdType) (line : List Char) :
    textsUpTo (tokenizeLoop tt0 line).tokenizedInput (tokenizeLoop tt0 line).i =
      strtokAll line [] := by
  rw [tokenizeLoop_i]
  have := foldl_texts (strtokAll line []) (tokenizeInit tt0)
  unfold textsUpTo tokenizeLoop
  conv_rhs => rw [← this]
  apply List.map_congr_left
  intro j _
  simp only [tokenizeInit]
  congr 1
  omega

theorem tokenizeLoop_follows (tt0 : Nat → cmdType) (line : List Char)
    (h : (tokenizeLoop tt0 line).invalidInput = false) :
    Follows (tt0 0) 0 0 (kindsUpTo (tokenizeLoop tt0 line).tokenType (tokenizeLoop tt0 line).i)
      (strtokAll line []) := by
  rw [tokenizeLoop_i]
  have := (foldl_follows (strtokAll line []) (tokenizeInit tt0) h).2
  unfold kindsUpTo tokenizeLoop
  have e : (List.range (strtokAll line []).length).map
      (fun j => ((strtokAll line []).foldl tokenizeStep (tokenizeInit tt0)).tokenType (j + 1)) =
      (List.range (strtokAll line []).length).map
        (fun j => ((strtokAll line []).foldl tokenizeStep (tokenizeInit tt0)).tokenType
          ((tokenizeInit tt0).i + 1 + j)) := by
    apply List.map_congr_left
    intro j _
    simp only [tokenizeInit]
    congr 1
    omega
  rw [e]
  exact this

/-- What an accepted line looks like: the texts are the words of the line, the kinds
follow the transition function from `START`, and the last kind is not a dangling
operator or a built-in that still wants its argument. -/
theorem tokenize_accepted (tt0 : Nat → cmdType) (input : List Char) (h0 : tt0 0 = START)
    (hacc : (tokenize tt0 input).ret = true) :
    (tokenize tt0 input).numOfTokens = (strtokAll input.dropLast []).length ∧
      textsUpTo (tokenize tt0 input).tokenizedInput (tokenize tt0 input).numOfTokens =
        strtokAll input.dropLast [] ∧
      (tokenize tt0 input).tokenType 0 = START ∧
      Follows START 0 0
        (kindsUpTo (tokenize tt0 input).tokenType (tokenize tt0 input).numOfTokens)
        (strtokAll input.dropLast []) ∧
      (tokenize tt0 input).tokenType (tokenize tt0 input).numOfTokens ≠ REDIR_IN ∧
      (tokenize tt0 input).tokenType (tokenize tt0 input).numOfTokens ≠ REDIR_OUT ∧
      (tokenize tt0 input).tokenType (tokenize tt0 input).numOfTokens ≠ PIPE ∧
      (tokenize tt0 input).tokenType (tokenize tt0 input).numOfTokens ≠ BUILTIN_WITH_ARG := by
  rw [tokenize_ret_true] at hacc
  obtain ⟨_, _, hv, h1, h2, h3, h4⟩ := hacc
  rw [tokenize_tokenType, tokenize_tokenizedInput, tokenize_numOfTokens]
  refine ⟨tokenizeLoop_i _ _, tokenizeLoop_texts _ _, ?_, ?_, h1, h2, h3, h4⟩
  · rw [tokenizeLoop_zero, h0]
  · have := tokenizeLoop_follows tt0 input.dropLast hv
    rw [h0] at this
    exact this

/-- A classified word: the kind may follow the previous one and the text fits it. -/
theorem classify_some (p : cmdType) (a b : Nat) (w : List Char) (k : cmdType)
    (h : classify p a b w = some k) : Adj p k = true ∧ TextFits k a w := by
  unfold classify at h
  cases p <;> simp only [] at h
  all_goals (try split_ifs at h)
  all_goals cases h
  all_goals simp_all [Adj, TextFits]

theorem kindsUpTo_getElem? (tt : Nat → cmdType) (n j : Nat) (h : j < n) :
    (kindsUpTo tt n)[j]? = some (tt (j + 1)) := by
  simp [kindsUpTo, List.getElem?_map, List.getElem?_range h]

theorem textsUpTo_getElem? (ti : Nat → List Char) (n j : Nat) (h : j < n) :
    (textsUpTo ti n)[j]? = some (ti (j + 1)) := by
  simp [textsUpTo, List.getElem?_map, List.getElem?_range h]

theorem follows_length (ks : List cmdType) (ws : List (List Char)) :
    ∀ p a b, Follows p a b ks ws → ks.length = ws.length := by
  induction ks generalizing ws with
  | nil =>
    intro p a b h
    cases ws with
    | nil => rfl
    | cons w ws => exact absurd h (by simp [Follows])
  | cons k ks ih =>
    intro p a b h
    cases ws with
    | nil => exact absurd h (by simp [Follows])
    | cons w ws =>
      have := ih ws _ _ _ h.2
      simp [this]

/-- Every classified word was classified from the kind just before it. -/
theorem follows_local (ks : List cmdType) (ws : List (List Char)) :
    ∀ (p : cmdType) (a b : Nat), Follows p a b ks ws →
      ∀ (j : Nat) (k : cmdType) (w : List Char), ks[j]? = some k → ws[j]? = some w →
        ∃ pk a1 b1, (p :: ks)[j]? = some pk ∧ classify pk a1 b1 w = some k := by
  induction ks generalizing ws with
  | nil =>
    intro p a b _ j k w hk _
    simp at hk
  | cons k0 ks ih =>
    intro p a b h j k w hk hw
    cases ws with
    | nil => simp at hw
    | cons w0 ws =>
      obtain ⟨h1, h2⟩ := h
      cases j with
      | zero =>
        simp at hk hw
        subst hk hw
        exact ⟨p, a, b, by simp, h1⟩
      | succ j =>
        simp at hk hw
        obtain ⟨pk, a1, b1, hp, hc⟩ := ih ws _ _ _ h2 j k w hk hw
        exact ⟨pk, a1, b1, by simpa using hp, hc⟩

/-- In an accepted line every token was classified from the token before it. -/
theorem accepted_local (tt0 : Nat → cmdType) (input : List Char) (h0 : tt0 0 = START)
    (hacc : (tokenize tt0 input).ret = true) (j : Nat)
    (hj : j < (tokenize tt0 input).numOfTokens) :
    ∃ a b, classify ((tokenize tt0 input).tokenType j) a b
      ((tokenize tt0 input).tokenizedInput (j + 1)) =
        some ((tokenize tt0 input).tokenType (j + 1)) := by
  obtain ⟨_, htx, hz, hF, _⟩ := tokenize_accepted tt0 input h0 hacc
  rw [← htx] at hF
  obtain ⟨pk, a, b, hp, hc⟩ := follows_local _ _ _ _ _ hF j _ _
    (kindsUpTo_getElem? _ _ j hj) (textsUpTo_getElem? _ _ j hj)
  refine ⟨a, b, ?_⟩
  cases j with
  | zero =>
    simp at hp
    rw [hz, hp]
    exact hc
  | succ j =>
    rw [List.getElem?_cons_succ, kindsUpTo_getElem? _ _ j (by omega)] at hp
    cases hp
    exact hc

/-- An operator word can only be classified as an operator. -/
theorem textFits_operator (k : cmdType) (a : Nat) (w : List Char) (h : TextFits k a w)
    (hw : w ∈ operatorWords) : k = REDIR_IN ∨ k = REDIR_OUT ∨ k = PIPE := by
  have hr : hasReserved w = true := by
    simp only [operatorWords, List.mem_cons, List.mem_singleton, List.not_mem_nil,
      or_false] at hw
    rcases hw with rfl | rfl | rfl | rfl <;> decide
  have hb : w ≠ "exit".toList ∧ w ≠ "jobs".toList ∧ w ≠ "cd".toList ∧ w ≠ "fg".toList := by
    simp only [operatorWords, List.mem_cons, List.mem_singleton, List.not_mem_nil,
      or_false] at hw
    rcases hw with rfl | rfl | rfl | rfl <;> decide
  cases k <;> simp_all [TextFits]

/-- A rejected line has printed a message. -/
theorem tokenize_rejected_printed (tt0 : Nat → cmdType) (input : List Char)
    (h : (tokenize tt0 input).ret = false) : (tokenize tt0 input).printed ≠ [] := by
  unfold tokenize at h ⊢
  simp only [] at h ⊢
  split_ifs at h ⊢
  all_goals first
    | (simp at h; done)
    | (exact List.append_ne_nil_of_right_ne_nil _ (by decide))
    | (show "Error: invalid input command line\n".toList ≠ []; decide)

/-- When `tokenize` rejects the line, the round of `main` ends at once: nothing but the
message of `tokenize` is added to the events, `processInput` is not entered. -/
theorem mainIteration_rejected (env : Env) (fuel : Nat) (sh : Shell) (input : List Char)
    (h : (tokenize sh.tokenType input).ret = false) :
    ∃ sh1, mainIteration env fuel sh input = Step.running sh1 ∧
      sh1.trace = sh.trace ++
        [Event.print (Message.tokenizeOutput (tokenize sh.tokenType input).printed)] ∧
      sh1.jobs = sh.jobs ∧ sh1.pid = sh.pid ∧ sh1.processCnt = sh.processCnt ∧
      sh1.currentCmdPos = sh.currentCmdPos := by
  have hp := tokenize_rejected_printed sh.tokenType input h
  unfold mainIteration
  simp only [h, if_false, Bool.false_eq_true]
  refine ⟨_, rfl, ?_, rfl, rfl, rfl, rfl⟩
  show (if (tokenize sh.tokenType input).printed = [] then sh.trace else _) = _
  rw [if_neg hp]

theorem char_toNat_eq (c : Char) (n : Nat) (h : c.toNat = n) : c = Char.ofNat n := by
  rw [← h, Char.ofNat_toNat]

/-- The repeated `strchr` test of `tokenize` finds exactly the reserved characters. -/
theorem hasReserved_iff (w : List Char) : hasReserved w = true ↔ ContainsReserved w := by
  unfold hasReserved strchr ContainsReserved reservedChars
  simp only [Bool.or_eq_true, List.any_eq_true, decide_eq_true_eq, List.mem_cons,
    List.mem_singleton, List.not_mem_nil, or_false]
  constructor
  · intro h
    rcases h with ((((((((⟨c, hc, h⟩ | ⟨c, hc, h⟩) | ⟨c, hc, h⟩) | ⟨c, hc, h⟩) | ⟨c, hc, h⟩) |
      ⟨c, hc, h⟩) | ⟨c, hc, h⟩) | ⟨c, hc, h⟩) | ⟨c, hc, h⟩) <;>
      refine ⟨c, hc, ?_⟩ <;> have := char_toNat_eq c _ h <;> subst this <;> decide
  · rintro ⟨c, hc, h⟩
    rcases h with rfl | rfl | rfl | rfl | rfl | rfl | rfl | rfl | rfl
    · exact Or.inl (Or.inl (Or.inl (Or.inl (Or.inl (Or.inl (Or.inl (Or.inl ⟨_, hc, by decide⟩)))))))
    · exact Or.inl (Or.inl (Or.inl (Or.inl (Or.inl (Or.inl (Or.inl (Or.inr ⟨_, hc, by decide⟩)))))))
    · exact Or.inl (Or.inl (Or.inl (Or.inl (Or.inl (Or.inl (Or.inr ⟨_, hc, by decide⟩))))))
    · exact Or.inl (Or.inl (Or.inl (Or.inl (Or.inl (Or.inr ⟨_, hc, by decide⟩)))))
    · exact Or.inl (Or.inl (Or.inl (Or.inl (Or.inr ⟨_, hc, by decide⟩))))
    · exact Or.inl (Or.inl (Or.inl (Or.inr ⟨_, hc, by decide⟩)))
    · exact Or.inl (Or.inl (Or.inr ⟨_, hc, by decide⟩))
    · exact Or.inl (Or.inr ⟨_, hc, by decide⟩)
    · exact Or.inr ⟨_, hc, by decide⟩

/-- A classified word that contains a reserved character is an operator word. -/
theorem textFits_reserved (k : cmdType) (a : Nat) (w : List Char) (h : TextFits k a w)
    (hr : hasReserved w = true) : w ∈ operatorWords := by
  have e1 : hasReserved "exit".toList = false := by decide
  have e2 : hasReserved "jobs".toList = false := by decide
  have e3 : hasReserved "cd".toList = false := by decide
  have e4 : hasReserved "fg".toList = false := by decide
  cases k <;> simp only [TextFits] at h
  case REDIR_IN => rw [h.1]; decide
  case REDIR_OUT => rcases h with h | h <;> rw [h] <;> decide
  case BUILTIN =>
    rcases h with h | h <;> rw [h] at hr
    · rw [e1] at hr; cases hr
    · rw [e2] at hr; cases hr
  case ARG => rw [h] at hr; cases hr
  case PIPE => rw [h.1]; decide
  case CMDNAME => rw [h.1] at hr; cases hr
  case IN_FILE => rw [h] at hr; cases hr
  case OUT_FILE => rw [h] at hr; cases hr
  case BUILTIN_WITH_ARG =>
    rcases h with h | h <;> rw [h] at hr
    · rw [e3] at hr; cases hr
    · rw [e4] at hr; cases hr

/-- In an accepted line the kind of every token fits its text. -/
theorem accepted_textFits (tt0 : Nat → cmdType) (input : List Char) (h0 : tt0 0 = START)
    (hacc : (tokenize tt0 input).ret = true) (j : Nat) (hj1 : 1 ≤ j)
    (hj2 : j ≤ (tokenize tt0 input).numOfTokens) :
    ∃ a, Adj ((tokenize tt0 input).tokenType (j - 1)) ((tokenize tt0 input).tokenType j) = true ∧
      TextFits ((tokenize tt0 input).tokenType j) a ((tokenize tt0 input).tokenizedInput j) := by
  obtain ⟨a, b, hc⟩ := accepted_local tt0 input h0 hacc (j - 1) (by omega)
  have e : j - 1 + 1 = j := by omega
  rw [e] at hc
  exact ⟨a, classify_some _ _ _ _ _ hc⟩

/-- In an accepted line every word of the line is the text of a token. -/
theorem accepted_word_index (tt0 : Nat → cmdType) (input : List Char) (h0 : tt0 0 = START)
    (hacc : (tokenize tt0 input).ret = true) (w : List Char)
    (hw : w ∈ strtokAll input.dropLast []) :
    ∃ j, 1 ≤ j ∧ j ≤ (tokenize tt0 input).numOfTokens ∧
      (tokenize tt0 input).tokenizedInput j = w := by
  obtain ⟨hn, htx, _⟩ := tokenize_accepted tt0 input h0 hacc
  obtain ⟨j, hj, hjw⟩ := List.getElem_of_mem hw
  have hlt : j < (tokenize tt0 input).numOfTokens := by omega
  have h1 := textsUpTo_getElem? (tokenize tt0 input).tokenizedInput _ j hlt
  rw [htx, List.getElem?_eq_getElem hj, hjw] at h1
  exact ⟨j + 1, by omega, by omega, (Option.some.inj h1).symm⟩

theorem tokenizeLoop_first_text (tt0 : Nat → cmdType) (line : List Char) (w : List Char)
    (hw : (strtokAll line []).head? = some w) :
    (tokenizeLoop tt0 line).tokenizedInput 1 = w := by
  have hpos : 0 < (tokenizeLoop tt0 line).i := by
    rw [tokenizeLoop_i]
    cases hws : strtokAll line [] with
    | nil => rw [hws] at hw; simp at hw
    | cons x xs => simp
  have h1 := textsUpTo_getElem? (tokenizeLoop tt0 line).tokenizedInput _ 0 hpos
  rw [tokenizeLoop_texts] at h1
  cases hws : strtokAll line [] with
  | nil => rw [hws] at hw; simp at hw
  | cons x xs =>
    rw [hws] at hw h1
    simp at hw h1
    rw [← h1, hw]

/-- The arity test of `exit` and `jobs`. -/
theorem tokenize_arity_noarg (tt0 : Nat → cmdType) (input : List Char)
    (h1 : (tokenizeLoop tt0 input.dropLast).tokenizedInput 1 = "exit".toList ∨
      (tokenizeLoop tt0 input.dropLast).tokenizedInput 1 = "jobs".toList)
    (h2 : (tokenizeLoop tt0 input.dropLast).i ≠ 1) :
    (tokenize tt0 input).ret = false ∧
      (tokenize tt0 input).printed =
        (tokenizeLoop tt0 input.dropLast).tokenizedInput 1 ++
          ": wrong number of arguments\n".toList := by
  unfold tokenize
  simp only [h1, h2, if_true, ne_eq, not_false_eq_true, and_self]

/-- The arity test of `cd` and `fg`. -/
theorem tokenize_arity_onearg (tt0 : Nat → cmdType) (input : List Char)
    (h0 : ¬ ((tokenizeLoop tt0 input.dropLast).tokenizedInput 1 = "exit".toList ∨
      (tokenizeLoop tt0 input.dropLast).tokenizedInput 1 = "jobs".toList))
    (h1 : (tokenizeLoop tt0 input.dropLast).tokenizedInput 1 = "cd".toList ∨
      (tokenizeLoop tt0 input.dropLast).tokenizedInput 1 = "fg".toList)
    (h2 : (tokenizeLoop tt0 input.dropLast).i ≠ 2) :
    (tokenize tt0 input).ret = false ∧
      (tokenize tt0 input).printed =
        (tokenizeLoop tt0 input.dropLast).tokenizedInput 1 ++
          ": wrong number of arguments\n".toList := by
  unfold tokenize
  simp only [h0, h1, h2, if_true, if_false, ne_eq, not_false_eq_true, and_self]

theorem tokenizeStep_some (s : TokState) (w : List Char) (k : cmdType)
    (hc : classify (s.tokenType s.i) s.piped s.redirected w = some k) :
    tokenizeStep s w =
      { tokenType := fun j => if j = s.i + 1 then k else s.tokenType j
        tokenizedInput := fun j => if j = s.i + 1 then w else s.tokenizedInput j
        i := s.i + 1
        piped := pipedAfter s.piped k
        redirected := redirectedAfter s.redirected k
        invalidInput := s.invalidInput } := by
  rw [tokenizeStep_eq, hc]

theorem tokenizeStep_none (s : TokState) (w : List Char)
    (hc : classify (s.tokenType s.i) s.piped s.redirected w = none) :
    tokenizeStep s w =
      { tokenType := s.tokenType
        tokenizedInput := fun j => if j = s.i + 1 then w else s.tokenizedInput j
        i := s.i + 1
        piped := s.piped
        redirected := s.redirected
        invalidInput := true } := by
  rw [tokenizeStep_eq, hc]

/-- The loop on a line that consists of the word `exit` or `jobs`. -/
theorem tokenizeLoop_noarg (tt0 : Nat → cmdType) (line : List Char) (w : List Char)
    (h0 : tt0 0 = START) (hws : strtokAll line [] = [w])
    (hw : w = "exit".toList ∨ w = "jobs".toList) :
    (tokenizeLoop tt0 line).invalidInput = false ∧ (tokenizeLoop tt0 line).i = 1 ∧
      (tokenizeLoop tt0 line).tokenType 1 = BUILTIN := by
  have hc0 : classify START 0 0 w = some BUILTIN := by
    rcases hw with rfl | rfl <;> decide
  have hc : classify ((tokenizeInit tt0).tokenType (tokenizeInit tt0).i)
      (tokenizeInit tt0).piped (tokenizeInit tt0).redirected w = some BUILTIN := by
    simpa [tokenizeInit, h0] using hc0
  unfold tokenizeLoop
  rw [hws, List.foldl_cons, List.foldl_nil, tokenizeStep_some _ _ _ hc]
  simp [tokenizeInit]

/-- The loop on a line that consists of `cd` or `fg` and one more word. -/
theorem tokenizeLoop_onearg (tt0 : Nat → cmdType) (line : List Char) (w w2 : List Char)
    (h0 : tt0 0 = START) (hws : strtokAll line [] = [w, w2])
    (hw : w = "cd".toList ∨ w = "fg".toList) :
    (tokenizeLoop tt0 line).i = 2 ∧
      (hasReserved w2 = true → (tokenizeLoop tt0 line).invalidInput = true) ∧
      (hasReserved w2 = false → (tokenizeLoop tt0 line).invalidInput = false ∧
        (tokenizeLoop tt0 line).tokenType 1 = BUILTIN_WITH_ARG ∧
        (tokenizeLoop tt0 line).tokenType 2 = ARG) := by
  have hc0 : classify START 0 0 w = some BUILTIN_WITH_ARG := by
    rcases hw with rfl | rfl <;> decide
  have hc : classify ((tokenizeInit tt0).tokenType (tokenizeInit tt0).i)
      (tokenizeInit tt0).piped (tokenizeInit tt0).redirected w = some BUILTIN_WITH_ARG := by
    simpa [tokenizeInit, h0] using hc0
  unfold tokenizeLoop
  rw [hws, List.foldl_cons, List.foldl_cons, List.foldl_nil, tokenizeStep_some _ _ _ hc]
  by_cases hr : hasReserved w2 = true
  · rw [tokenizeStep_none _ _ (by simp [tokenizeInit, classify, hr])]
    simp [tokenizeInit, hr]
  · have hr2 : hasReserved w2 = false := by simpa using hr
    rw [tokenizeStep_some _ _ ARG (by simp [tokenizeInit, classify, hr2])]
    simp [tokenizeInit, hr2]

/-- The outcome of the `switch` is the value of the transition function. -/
theorem stepOutcome_eq (s : TokState) (w : List Char) :
    stepOutcome s w = classify (s.tokenType s.i) s.piped s.redirected w := by
  unfold stepOutcome
  rw [tokenizeStep_eq, tokenizeStep_eq]
  cases classify (s.tokenType s.i) s.piped s.redirected w <;> simp

theorem stateAfter_i (tt0 : Nat → cmdType) (line : List Char) (k : Nat)
    (hk : k ≤ (strtokAll line []).length) : (stateAfter tt0 line k).i = k := by
  unfold stateAfter
  rw [foldl_i, List.length_take]
  simp [tokenizeInit]
  exact hk

theorem stateAfter_succ (tt0 : Nat → cmdType) (line : List Char) (k : Nat) (w : List Char)
    (hw : (strtokAll line [])[k]? = some w) :
    stateAfter tt0 line (k + 1) = tokenizeStep (stateAfter tt0 line k) w := by
  unfold stateAfter
  rw [List.take_succ, hw, List.foldl_append]
  rfl

theorem tokenizeLoop_from (tt0 : Nat → cmdType) (line : List Char) (k : Nat) :
    tokenizeLoop tt0 line =
      ((strtokAll line []).drop k).foldl tokenizeStep (stateAfter tt0 line k) := by
  unfold tokenizeLoop stateAfter
  rw [← List.foldl_append, List.take_append_drop]

theorem tokenize_invalid_rejects (tt0 : Nat → cmdType) (input : List Char)
    (h : (tokenizeLoop tt0 input.dropLast).invalidInput = true) :
    (tokenize tt0 input).ret = false := by
  cases hr : (tokenize tt0 input).ret with
  | false => rfl
  | true =>
    rw [tokenize_ret_true] at hr
    rw [hr.2.2.1] at h
    cases h

/-- A word that the `switch` finds invalid makes `tokenize` reject the line. -/
theorem invalid_word_rejects (tt0 : Nat → cmdType) (line : List Char) (k : Nat)
    (w : List Char) (hw : (strtokAll line [])[k]? = some w)
    (hout : stepOutcome (stateAfter tt0 line k) w = none) :
    (tokenize tt0 (line ++ [endOfLine])).ret = false := by
  apply tokenize_invalid_rejects
  rw [List.dropLast_concat, tokenizeLoop_from tt0 line (k + 1), stateAfter_succ tt0 line k w hw]
  apply foldl_invalid_of_invalid
  rw [stepOutcome_eq] at hout
  rw [tokenizeStep_none _ _ hout]

/-! ## Segmenter and orchestrator: lemmas -/

/-- A successful `nextCommand()` moves the cursor to the first command token after it. -/
theorem nextCommand_true (tt : Nat → cmdType) (n pos p : Nat)
    (h : nextCommand tt n pos = (true, p)) :
    pos < p ∧ p ≤ n ∧ isCommand (tt p) = true ∧
      cmdPositions tt n pos = p :: cmdPositions tt n p := by
  unfold nextCommand at h
  cases hf : (List.range' (pos + 1) (n - pos)).find? (fun i => isCommand (tt i)) with
  | none => rw [hf] at h; simp at h
  | some q =>
    rw [hf] at h
    simp only [Prod.mk.injEq, true_and] at h
    subst h
    obtain ⟨hq, as, bs, hsplit, has⟩ := List.find?_eq_some.1 hf
    obtain ⟨k, hk, has1, hbs1⟩ := List.range'_eq_append_iff.1 hsplit
    obtain ⟨hq1, hq2, hbs2⟩ := List.range'_eq_cons_iff.1 hbs1.symm
    have hbs3 : bs = List.range' (q + 1) (n - q) := by
      rw [hbs2]; congr 1; omega
    refine ⟨by omega, by omega, hq, ?_⟩
    unfold cmdPositions
    have hnil : as.filter (fun j => isCommand (tt j)) = [] := by
      rw [List.filter_eq_nil_iff]
      intro a ha
      have := has a ha
      simpa using this
    have hcons : (q :: bs).filter (fun j => isCommand (tt j)) =
        q :: bs.filter (fun j => isCommand (tt j)) :=
      List.filter_cons_of_pos (p := fun j => isCommand (tt j)) hq
    rw [hsplit, List.filter_append, hnil, List.nil_append, hcons, ← hbs3]

/-- A failing `nextCommand()` resets the cursor; no command token was left. -/
theorem nextCommand_false (tt : Nat → cmdType) (n pos p : Nat)
    (h : nextCommand tt n pos = (false, p)) : p = 0 ∧ cmdPositions tt n pos = [] := by
  unfold nextCommand at h
  cases hf : (List.range' (pos + 1) (n - pos)).find? (fun i => isCommand (tt i)) with
  | some q => rw [hf] at h; simp at h
  | none =>
    rw [hf] at h
    simp only [Prod.mk.injEq, true_and] at h
    refine ⟨h.symm, ?_⟩
    unfold cmdPositions
    rw [List.filter_eq_nil_iff]
    intro a ha
    have := (List.find?_eq_none.1 hf) a ha
    simpa using this

theorem classify_pipe_iff (p : cmdType) (a b : Nat) (w : List Char) (k : cmdType)
    (h : classify p a b w = some k) : k = PIPE ↔ w = "|".toList := by
  have hfit := (classify_some p a b w k h).2
  constructor
  · intro hk
    rw [hk] at hfit
    exact hfit.1
  · intro hw
    rcases textFits_operator k a w hfit (by rw [hw]; decide) with hk | hk | hk
    · rw [hk] at hfit
      rw [hfit.1] at hw
      exact absurd hw (by decide)
    · rw [hk] at hfit
      rcases hfit with h1 | h1 <;> rw [h1] at hw <;> exact absurd hw (by decide)
    · exact hk

/-- At most `2 - piped` more pipes are classified. -/
theorem follows_pipe_count (ks : List cmdType) (ws : List (List Char)) :
    ∀ (p : cmdType) (a b : Nat), Follows p a b ks ws → ks.count PIPE ≤ 2 - a := by
  induction ks generalizing ws with
  | nil => intro p a b _; simp
  | cons k ks ih =>
    intro p a b h
    cases ws with
    | nil => exact absurd h (by simp [Follows])
    | cons w ws =>
      obtain ⟨h1, h2⟩ := h
      have hrest := ih ws _ _ _ h2
      have hfit := (classify_some p a b w k h1).2
      rw [List.count_cons]
      by_cases hk : k = PIPE
      · subst hk
        have ha : a < 2 := hfit.2
        simp only [pipedAfter, if_true] at hrest
        simp
        omega
      · have hk2 : (k == PIPE) = false := by simpa using hk
        simp only [pipedAfter, hk, if_false, Nat.add_zero] at hrest
        simp [hk2]
        exact hrest

/-- The words `|` of an accepted sequence are exactly its `PIPE` tokens. -/
theorem follows_pipe_words (ks : List cmdType) (ws : List (List Char)) :
    ∀ (p : cmdType) (a b : Nat), Follows p a b ks ws →
      ws.count "|".toList = ks.count PIPE := by
  induction ks generalizing ws with
  | nil =>
    intro p a b h
    cases ws with
    | nil => rfl
    | cons w ws => exact absurd h (by simp [Follows])
  | cons k ks ih =>
    intro p a b h
    cases ws with
    | nil => exact absurd h (by simp [Follows])
    | cons w ws =>
      obtain ⟨h1, h2⟩ := h
      have hrest := ih ws _ _ _ h2
      have hiff := classify_pipe_iff p a b w k h1
      rw [List.count_cons, List.count_cons, hrest]
      by_cases hk : k = PIPE
      · have hw := hiff.1 hk
        simp [hk, hw]
      · have hw : ¬ w = "|".toList := fun e => hk (hiff.2 e)
        have hk2 : (k == PIPE) = false := by simpa using hk
        have hw2 : (w == "|".toList) = false := by simpa using hw
        rw [hk2, hw2]

theorem adj_command (p k : cmdType) (h : Adj p k = true) (hk : isCommand k = true) :
    p = START ∨ p = PIPE := by
  cases p <;> cases k <;> simp [Adj, isCommand] at h hk ⊢

theorem adj_not_start (p k : cmdType) (h : Adj p k = true) : k ≠ START := by
  cases p <;> cases k <;> simp [Adj] at h ⊢

/-- There is at most one command token per pipe, plus one at the very start. -/
theorem follows_cmd_count (ks : List cmdType) (ws : List (List Char)) :
    ∀ (p : cmdType) (a b : Nat), Follows p a b ks ws →
      ks.countP isCommand ≤ (if p = START ∨ p = PIPE then 1 else 0) + ks.count PIPE := by
  induction ks generalizing ws with
  | nil => intro p a b _; simp
  | cons k ks ih =>
    intro p a b h
    cases ws with
    | nil => exact absurd h (by simp [Follows])
    | cons w ws =>
      obtain ⟨h1, h2⟩ := h
      have hrest := ih ws _ _ _ h2
      have hadj := (classify_some p a b w k h1).1
      have hns := adj_not_start p k hadj
      rw [List.countP_cons, List.count_cons]
      by_cases hc : isCommand k = true
      · have hp := adj_command p k hadj hc
        have hkp : k ≠ PIPE := by
          intro e; rw [e] at hc; simp [isCommand] at hc
        have hk2 : (k == PIPE) = false := by simpa using hkp
        have hind : ¬ (k = START ∨ k = PIPE) := by
          rintro (e | e)
          · exact hns e
          · exact hkp e
        rw [if_neg hind] at hrest
        rw [if_pos hp, if_pos hc, hk2]
        simp
        omega
      · rw [if_neg hc]
        by_cases hkp : k = PIPE
        · subst hkp
          simp at hrest ⊢
          omega
        · have hk2 : (k == PIPE) = false := by simpa using hkp
          have hind : ¬ (k = START ∨ k = PIPE) := by
            rintro (e | e)
            · exact hns e
            · exact hkp e
          rw [if_neg hind] at hrest
          rw [hk2]
          simp at hrest ⊢
          omega

theorem cmdPositions_zero_length (tt : Nat → cmdType) (n : Nat) :
    (cmdPositions tt n 0).length = (kindsUpTo tt n).countP isCommand := by
  unfold cmdPositions kindsUpTo
  rw [List.countP_map, List.countP_eq_length_filter, List.range'_eq_map_range,
    List.filter_map, List.length_map]
  congr 1
  apply List.filter_congr
  intro j _
  simp only [Function.comp, Nat.zero_add, Nat.sub_zero]
  rw [Nat.add_comm]

/-- An accepted line has at most 2 `PIPE` tokens and at most 3 command tokens. -/
theorem accepted_counts (tt0 : Nat → cmdType) (input : List Char) (h0 : tt0 0 = START)
    (hacc : (tokenize tt0 input).ret = true) :
    (kindsUpTo (tokenize tt0 input).tokenType (tokenize tt0 input).numOfTokens).count PIPE ≤ 2 ∧
    (kindsUpTo (tokenize tt0 input).tokenType (tokenize tt0 input).numOfTokens).countP
      isCommand ≤ 3 ∧
    (strtokAll input.dropLast []).count "|".toList =
      (kindsUpTo (tokenize tt0 input).tokenType (tokenize tt0 input).numOfTokens).count PIPE := by
  obtain ⟨_, _, _, hF, _⟩ := tokenize_accepted tt0 input h0 hacc
  have h1 := follows_pipe_count _ _ _ _ _ hF
  have h2 := follows_cmd_count _ _ _ _ _ hF
  have h3 := follows_pipe_words _ _ _ _ _ hF
  simp only [true_or, if_true] at h2
  exact ⟨by omega, by omega, h3⟩

theorem forkSlots_append (tr : List Event) (e : Event) :
    forkSlots (tr ++ [e]) =
      forkSlots tr ++ (match e with | Event.fork slot _ => [slot] | _ => []) := by
  unfold forkSlots
  rw [List.filterMap_append]
  cases e <;> rfl

theorem sameLaunch_refl (sh : Shell) : SameLaunch sh sh :=
  ⟨rfl, rfl, rfl, rfl, rfl⟩

theorem sameLaunch_trans (a b c : Shell) (h1 : SameLaunch a b) (h2 : SameLaunch b c) :
    SameLaunch a c :=
  ⟨h2.1.trans h1.1, h2.2.1.trans h1.2.1, h2.2.2.1.trans h1.2.2.1,
    h2.2.2.2.1.trans h1.2.2.2.1, h2.2.2.2.2.trans h1.2.2.2.2⟩

theorem sameLaunch_log (sh : Shell) (e : Event)
    (he : (match e with | Event.fork slot _ => [slot] | _ => []) = []) :
    SameLaunch sh (sh.log e) := by
  refine ⟨rfl, rfl, rfl, rfl, ?_⟩
  show forkSlots (sh.trace ++ [e]) = forkSlots sh.trace
  rw [forkSlots_append, he, List.append_nil]

theorem sameLaunch_jobs (sh : Shell) (t : JobTable) : SameLaunch sh { sh with jobs := t } :=
  ⟨rfl, rfl, rfl, rfl, rfl⟩

theorem sameLaunch_printJobs (fuel : Nat) :
    ∀ (sh : Shell) (ptr : Nat), SameLaunch sh (printJobs fuel sh ptr).shell := by
  induction fuel with
  | zero => intro sh ptr; exact sameLaunch_refl sh
  | succ f ih =>
    intro sh ptr
    unfold printJobs
    split
    · exact sameLaunch_refl sh
    · split
      · exact sameLaunch_refl sh
      · exact sameLaunch_trans _ _ _ (sameLaunch_log sh _ rfl) (ih _ _)

theorem sameLaunch_continueAll (env : Env) (l : List Int) :
    ∀ (sh : Shell), SameLaunch sh (continueAll env sh l) := by
  induction l with
  | nil => intro sh; exact sameLaunch_refl sh
  | cons p rest ih =>
    intro sh
    unfold continueAll
    simp only []
    split
    · exact sameLaunch_trans _ _ _
        (sameLaunch_trans _ _ _ (sameLaunch_log sh _ rfl) (sameLaunch_log _ _ rfl)) (ih _)
    · exact sameLaunch_trans _ _ _ (sameLaunch_log sh _ rfl) (ih _)

theorem sameLaunch_waitAllFg (env : Env) (l : List Int) :
    ∀ (sh : Shell) (i : Nat) (r : Bool), SameLaunch sh (waitAllFg env sh i r l).1.shell := by
  induction l with
  | nil => intro sh i r; exact sameLaunch_refl sh
  | cons p rest ih =>
    intro sh i r
    unfold waitAllFg
    simp only []
    split
    · exact sameLaunch_trans _ _ _ (sameLaunch_log sh _ rfl) (sameLaunch_log _ _ rfl)
    · split
      · exact sameLaunch_trans _ _ _
          (sameLaunch_trans _ _ _ (sameLaunch_log sh _ rfl) (sameLaunch_log _ _ rfl)) (ih _ _ _)
      · exact sameLaunch_trans _ _ _ (sameLaunch_log sh _ rfl) (ih _ _ _)

theorem sameLaunch_runFg (env : Env) (fuel : Nat) (sh : Shell) (jobNum : Int) :
    SameLaunch sh (runFg env fuel sh jobNum).shell := by
  unfold runFg
  split
  · exact sameLaunch_log sh _ rfl
  split
  · exact sameLaunch_log sh _ rfl
  split
  · exact sameLaunch_refl sh
  split
  · exact sameLaunch_log sh _ rfl
  split
  · exact sameLaunch_refl sh
  split
  · exact sameLaunch_refl sh
  rename_i node _
  have hw := sameLaunch_waitAllFg env (livePids node.pid)
    (continueAll env (sh.log (Event.print (Message.jobWakeUp node.jobName)))
      (livePids node.pid)) 0 false
  have hpre : SameLaunch sh (continueAll env
      (sh.log (Event.print (Message.jobWakeUp node.jobName))) (livePids node.pid)) :=
    sameLaunch_trans _ _ _ (sameLaunch_log sh _ rfl) (sameLaunch_continueAll env _ _)
  have hall := sameLaunch_trans _ _ _ hpre hw
  simp only []
  split
  · rename_i sh3 resumed heq
    rw [heq] at hall
    split
    · exact hall
    · split
      · exact hall
      · exact sameLaunch_trans _ _ _ hall (sameLaunch_jobs _ _)
  · rename_i other r hne heq
    rw [heq] at hall
    exact hall

theorem sameLaunch_runBuiltIn (env : Env) (fuel : Nat) (sh : Shell) :
    SameLaunch sh (runBuiltIn env fuel sh).shell := by
  unfold runBuiltIn
  simp only []
  have h1 : SameLaunch sh
      (if sh.tokenizedInput 1 = "cd".toList then
        if env.chdir sh.trace (sh.tokenizedInput 2) ≠ 0 then
          (sh.log (Event.chdir (sh.tokenizedInput 2))).log
            (Event.print (Message.cannotChangeDirectory (sh.tokenizedInput 2)))
        else sh.log (Event.chdir (sh.tokenizedInput 2))
      else sh) := by
    split
    · split
      · exact sameLaunch_trans _ _ _ (sameLaunch_log sh _ rfl) (sameLaunch_log _ _ rfl)
      · exact sameLaunch_log sh _ rfl
    · exact sameLaunch_refl sh
  generalize (if sh.tokenizedInput 1 = "cd".toList then
        if env.chdir sh.trace (sh.tokenizedInput 2) ≠ 0 then
          (sh.log (Event.chdir (sh.tokenizedInput 2))).log
            (Event.print (Message.cannotChangeDirectory (sh.tokenizedInput 2)))
        else sh.log (Event.chdir (sh.tokenizedInput 2))
      else sh) = sh1 at h1 ⊢
  split
  · split
    · exact sameLaunch_trans _ _ _ h1 (sameLaunch_log sh1 _ rfl)
    · exact h1
  · have h2 : SameLaunch sh
        (if sh1.tokenizedInput 1 = "jobs".toList then
          if sh1.jobs.head = 0 then
            Step.running (sh1.log (Event.print Message.noSuspendedJobs))
          else printJobs fuel sh1 sh1.jobs.head
        else Step.running sh1).shell := by
      split
      · split
        · exact sameLaunch_trans _ _ _ h1 (sameLaunch_log sh1 _ rfl)
        · exact sameLaunch_trans _ _ _ h1 (sameLaunch_printJobs fuel sh1 _)
      · exact h1
    generalize (if sh1.tokenizedInput 1 = "jobs".toList then
          if sh1.jobs.head = 0 then
            Step.running (sh1.log (Event.print Message.noSuspendedJobs))
          else printJobs fuel sh1 sh1.jobs.head
        else Step.running sh1) = st at h2 ⊢
    split
    · split
      · exact sameLaunch_trans _ _ _ h2 (sameLaunch_runFg env fuel _ _)
      · exact h2
    · exact h2

theorem sameLaunch_addJobCall (env : Env) (sh : Shell) :
    SameLaunch sh (addJobCall env sh).shell := by
  unfold addJobCall
  split
  · exact sameLaunch_refl sh
  · split
    · exact sameLaunch_trans _ _ _ (sameLaunch_jobs sh _) (sameLaunch_log _ _ rfl)
    · exact sameLaunch_jobs sh _

theorem sameLaunch_waitLoop (env : Env) (l : List Nat) :
    ∀ (sh : Shell), SameLaunch sh (waitLoop env sh l).shell := by
  induction l with
  | nil => intro sh; exact sameLaunch_refl sh
  | cons i rest ih =>
    intro sh
    unfold waitLoop
    simp only []
    have hlog : SameLaunch sh (sh.log (Event.waitpid (sh.pid i))) := sameLaunch_log sh _ rfl
    split
    · exact sameLaunch_trans _ _ _ hlog (sameLaunch_log _ _ rfl)
    · split
      · have h2 : SameLaunch sh
            (if (env.waitpid sh.trace (sh.pid i)).2 = WaitStatus.signaled then
              (sh.log (Event.waitpid (sh.pid i))).log (Event.print Message.newline)
            else sh.log (Event.waitpid (sh.pid i))) := by
          split
          · exact sameLaunch_trans _ _ _ hlog (sameLaunch_log _ _ rfl)
          · exact hlog
        generalize (if (env.waitpid sh.trace (sh.pid i)).2 = WaitStatus.signaled then
              (sh.log (Event.waitpid (sh.pid i))).log (Event.print Message.newline)
            else sh.log (Event.waitpid (sh.pid i))) = sh2 at h2 ⊢
        split
        · have h3 := sameLaunch_trans _ _ _
            (sameLaunch_trans _ _ _ h2 (sameLaunch_log sh2 (Event.print Message.newline) rfl))
            (sameLaunch_addJobCall env _)
          split
          · rename_i sh3 heq
            rw [heq] at h3
            exact sameLaunch_trans _ _ _ h3 (ih _)
          · exact h3
        · exact sameLaunch_trans _ _ _ h2 (ih _)
      · exact sameLaunch_trans _ _ _ hlog (ih _)

/-- What `forkCmd()` changes: the slot `processCnt - 1` of `pid` is written. -/
theorem forkCmd_frame (env : Env) (sh : Shell) :
    (forkCmd env sh).shell.tokenType = sh.tokenType ∧
    (forkCmd env sh).shell.numOfTokens = sh.numOfTokens ∧
    (forkCmd env sh).shell.currentCmdPos = sh.currentCmdPos ∧
    (forkCmd env sh).shell.processCnt = sh.processCnt ∧
    forkSlots (forkCmd env sh).shell.trace = forkSlots sh.trace ++ [sh.processCnt - 1] := by
  unfold forkCmd
  simp only []
  split
  · refine ⟨rfl, rfl, rfl, rfl, ?_⟩
    show forkSlots ((sh.trace ++ [Event.fork (sh.processCnt - 1) (env.fork sh.trace)]) ++
      [Event.print Message.forkUnsuccessful]) = _
    rw [forkSlots_append, forkSlots_append]
    simp
  · split
    · refine ⟨rfl, rfl, rfl, rfl, ?_⟩
      show forkSlots (sh.trace ++ [Event.fork (sh.processCnt - 1) (env.fork sh.trace)]) = _
      rw [forkSlots_append]
    · refine ⟨rfl, rfl, rfl, rfl, ?_⟩
      show forkSlots (sh.trace ++ [Event.fork (sh.processCnt - 1) (env.fork sh.trace)]) = _
      rw [forkSlots_append]

theorem slotsOK_of_sameLaunch (sh sh1 : Shell) (h : SameLaunch sh sh1) (hs : SlotsOK sh) :
    SlotsOK sh1 := by
  unfold SlotsOK
  rw [h.2.2.2.2]
  exact hs

/-- The launching loop never counts more processes than there are command tokens
left, and writes only slots below that count; when it returns, the segmenter cursor
is back at `0`. -/
theorem launchLoop_bound (env : Env) (jf : Nat) :
    ∀ (fuel : Nat) (sh : Shell),
      sh.processCnt + (cmdPositions sh.tokenType sh.numOfTokens sh.currentCmdPos).length ≤ 3 →
      SlotsOK sh →
      (launchLoop env jf fuel sh).shell.processCnt ≤ 3 ∧
      SlotsOK (launchLoop env jf fuel sh).shell ∧
      (launchLoop env jf fuel sh).shell.tokenType = sh.tokenType ∧
      (∀ sh1, launchLoop env jf fuel sh = Step.running sh1 → sh1.currentCmdPos = 0) := by
  intro fuel
  induction fuel with
  | zero =>
    intro sh h hs
    exact ⟨by simp only [launchLoop, Step.shell]; omega, hs, rfl,
      fun sh1 h1 => by simp [launchLoop] at h1⟩
  | succ f ih =>
    intro sh h hs
    unfold launchLoop
    cases hn : nextCommand sh.tokenType sh.numOfTokens sh.currentCmdPos with
    | mk b pos =>
      cases b with
      | false =>
        obtain ⟨hp, _⟩ := nextCommand_false _ _ _ _ hn
        refine ⟨by simp only [Step.shell]; omega, hs, rfl, ?_⟩
        intro sh1 h1
        simp only [Step.running.injEq] at h1
        rw [← h1]
        exact hp
      | true =>
        obtain ⟨_, _, _, hc⟩ := nextCommand_true _ _ _ _ hn
        rw [hc] at h
        simp only [List.length_cons] at h
        simp only []
        split
        · have hfr := sameLaunch_runBuiltIn env jf { sh with currentCmdPos := pos }
          have hs1 := slotsOK_of_sameLaunch _ _ hfr hs
          obtain ⟨e1, e2, e3, e4, _⟩ := hfr
          split
          · rename_i sh2 heq
            rw [heq] at e1 e2 e3 e4 hs1
            have e1b : sh2.tokenType = sh.tokenType := e1
            have e2b : sh2.numOfTokens = sh.numOfTokens := e2
            have e3b : sh2.currentCmdPos = pos := e3
            have e4b : sh2.processCnt = sh.processCnt := e4
            have := ih sh2 (by rw [e1b, e2b, e3b, e4b]; omega) hs1
            rw [e1b] at this
            exact this
          · rename_i other hne
            have e4b : (runBuiltIn env jf { sh with currentCmdPos := pos }).shell.processCnt =
                sh.processCnt := e4
            refine ⟨by rw [e4b]; omega, hs1, e1, ?_⟩
            intro sh1 h1
            exact absurd h1 (hne sh1)
        · obtain ⟨e1, e2, e3, e4, e5⟩ := forkCmd_frame env
            { sh with currentCmdPos := pos, processCnt := sh.processCnt + 1 }
          have hs2 : SlotsOK (forkCmd env
              { sh with currentCmdPos := pos, processCnt := sh.processCnt + 1 }).shell := by
            unfold SlotsOK
            rw [e5]
            intro slot hslot
            rcases List.mem_append.1 hslot with hm | hm
            · exact hs slot hm
            · simp only [List.mem_singleton] at hm
              rw [hm]
              show sh.processCnt + 1 - 1 < 3
              omega
          have e4b : (forkCmd env
              { sh with currentCmdPos := pos, processCnt := sh.processCnt + 1 }).shell.processCnt =
              sh.processCnt + 1 := e4
          split
          · rename_i sh2 heq
            rw [heq] at e1 e2 e3 e4b hs2
            have e1b : sh2.tokenType = sh.tokenType := e1
            have e2b : sh2.numOfTokens = sh.numOfTokens := e2
            have e3b : sh2.currentCmdPos = pos := e3
            have e4c : sh2.processCnt = sh.processCnt + 1 := e4b
            have hs2b : SlotsOK sh2 := hs2
            have hs3 : SlotsOK (if sh2.processCnt > 1 then
                { sh2 with curPipe := sh2.curPipe + 2 } else sh2) := by
              split
              · exact hs2b
              · exact hs2b
            have hpre : (if sh2.processCnt > 1 then
                  ({ sh2 with curPipe := sh2.curPipe + 2 } : Shell) else sh2).processCnt +
                (cmdPositions
                  (if sh2.processCnt > 1 then
                    ({ sh2 with curPipe := sh2.curPipe + 2 } : Shell) else sh2).tokenType
                  (if sh2.processCnt > 1 then
                    ({ sh2 with curPipe := sh2.curPipe + 2 } : Shell) else sh2).numOfTokens
                  (if sh2.processCnt > 1 then
                    ({ sh2 with curPipe := sh2.curPipe + 2 } : Shell) else sh2).currentCmdPos).length
                ≤ 3 := by
              split
              · show sh2.processCnt +
                  (cmdPositions sh2.tokenType sh2.numOfTokens sh2.currentCmdPos).length ≤ 3
                rw [e1b, e2b, e3b, e4c]; omega
              · rw [e1b, e2b, e3b, e4c]; omega
            have := ih _ hpre hs3
            have e1d : (if sh2.processCnt > 1 then
                ({ sh2 with curPipe := sh2.curPipe + 2 } : Shell) else sh2).tokenType =
                sh.tokenType := by
              split <;> exact e1b
            rw [e1d] at this
            exact this
          · rename_i other hne
            refine ⟨by rw [e4b]; omega, hs2, e1, ?_⟩
            intro sh1 h1
            exact absurd h1 (hne sh1)

/-- `processInput()` on tokens with at most 3 command tokens: the process count stays
within 3, only slots below 3 are written, and on return the cursor is back at `0`. -/
theorem processInput_bound (env : Env) (fuel : Nat) (sh : Shell)
    (hpos : sh.currentCmdPos = 0)
    (hc : (cmdPositions sh.tokenType sh.numOfTokens 0).length ≤ 3) (hs : SlotsOK sh) :
    (processInput env fuel sh).shell.processCnt ≤ 3 ∧
    SlotsOK (processInput env fuel sh).shell ∧
    (processInput env fuel sh).shell.tokenType = sh.tokenType ∧
    (∀ sh1, processInput env fuel sh = Step.running sh1 → sh1.currentCmdPos = 0) := by
  have hs0 : SlotsOK sh.startLaunch := by
    unfold SlotsOK
    show ∀ slot ∈ forkSlots (sh.trace ++ [Event.pipesCreated]), slot < 3
    rw [forkSlots_append]
    simpa using hs
  obtain ⟨h1, h2, h3, h4⟩ := launchLoop_bound env fuel fuel sh.startLaunch
    (by show 0 + (cmdPositions sh.tokenType sh.numOfTokens sh.currentCmdPos).length ≤ 3
        rw [hpos]; omega) hs0
  unfold processInput
  simp only []
  split
  · rename_i sh1 heq
    rw [heq] at h1 h2 h3
    have h1b : sh1.processCnt ≤ 3 := h1
    have h2b : SlotsOK sh1 := h2
    have h3b : sh1.tokenType = sh.tokenType := h3
    have h4b : sh1.currentCmdPos = 0 := h4 sh1 heq
    have hfr : SameLaunch sh1
        (waitLoop env (sh1.log Event.pipesClosed)
          (List.range (sh1.log Event.pipesClosed).processCnt)).shell :=
      sameLaunch_trans _ _ _ (sameLaunch_log sh1 _ rfl) (sameLaunch_waitLoop env _ _)
    have hs3 := slotsOK_of_sameLaunch _ _ hfr h2b
    obtain ⟨e1, _, e3, e4, _⟩ := hfr
    refine ⟨by rw [e4]; exact h1b, hs3, by rw [e1, h3b], ?_⟩
    intro sh2 hsh2
    rw [hsh2] at e3
    exact e3.trans h4b
  · rename_i other hne
    refine ⟨h1, h2, h3, ?_⟩
    intro sh1 hsh1
    exact absurd hsh1 (hne sh1)

/-- One classified word keeps the redirection budget of the stage. -/
theorem stageBudget_step (p : cmdType) (a b : Nat) (w : List Char) (k : cmdType) (i o : Nat)
    (hB : StageBudget p b i o) (hc : classify p a b w = some k) :
    StageBudget k (redirectedAfter b k)
      (if k = PIPE then 0 else i + (if k = REDIR_IN then 1 else 0))
      (if k = PIPE then 0 else o + (if k = REDIR_OUT then 1 else 0)) := by
  unfold classify at hc
  cases p <;> simp only [] at hc
  all_goals (try split_ifs at hc)
  all_goals cases hc
  all_goals simp only [StageBudget, redirectedAfter] at hB ⊢
  all_goals simp
  all_goals omega

theorem splitStages_ne_nil (ks : List cmdType) : splitStages ks ≠ [] := by
  cases ks with
  | nil => simp [splitStages]
  | cons k ks =>
    unfold splitStages
    split
    · simp
    · split <;> simp

/-- Along a classified sequence, no stage gets more than one input and one output
redirection. -/
theorem follows_stage_counts (ks : List cmdType) (ws : List (List Char)) :
    ∀ (p : cmdType) (a b i o : Nat), StageBudget p b i o → i ≤ 1 → o ≤ 1 →
      Follows p a b ks ws →
      ∃ st rest, splitStages ks = st :: rest ∧
        i + st.count REDIR_IN ≤ 1 ∧ o + st.count REDIR_OUT ≤ 1 ∧
        ∀ t ∈ rest, t.count REDIR_IN ≤ 1 ∧ t.count REDIR_OUT ≤ 1 := by
  induction ks generalizing ws with
  | nil =>
    intro p a b i o _ hi ho _
    exact ⟨[], [], rfl, by simpa using hi, by simpa using ho, by simp⟩
  | cons k ks ih =>
    intro p a b i o hB hi ho h
    cases ws with
    | nil => exact absurd h (by simp [Follows])
    | cons w ws =>
      obtain ⟨h1, h2⟩ := h
      have hB2 := stageBudget_step p a b w k i o hB h1
      by_cases hk : k = PIPE
      · subst hk
        simp only [if_true] at hB2
        obtain ⟨st, rest, hs, hci, hco, hrest⟩ :=
          ih ws _ _ _ _ _ hB2 (by omega) (by omega) h2
        refine ⟨[], st :: rest, by simp [splitStages, hs], by simpa using hi,
          by simpa using ho, ?_⟩
        intro t ht
        rcases List.mem_cons.1 ht with rfl | ht
        · exact ⟨by omega, by omega⟩
        · exact hrest t ht
      · simp only [hk, if_false] at hB2
        have hi2 : i + (if k = REDIR_IN then 1 else 0) ≤ 1 := by
          cases k <;> simp only [StageBudget] at hB2 <;> simp at hB2 ⊢ <;> omega
        have ho2 : o + (if k = REDIR_OUT then 1 else 0) ≤ 1 := by
          cases k <;> simp only [StageBudget] at hB2 <;> simp at hB2 ⊢ <;> omega
        obtain ⟨st, rest, hs, hci, hco, hrest⟩ := ih ws _ _ _ _ _ hB2 hi2 ho2 h2
        refine ⟨k :: st, rest, by simp [splitStages, hk, hs], ?_, ?_, hrest⟩
        · rw [List.count_cons]
          by_cases hk1 : k = REDIR_IN
          · simp [hk1] at hci ⊢; omega
          · have : (k == REDIR_IN) = false := by simpa using hk1
            simp [hk1, this] at hci ⊢; omega
        · rw [List.count_cons]
          by_cases hk1 : k = REDIR_OUT
          · simp [hk1] at hco ⊢; omega
          · have : (k == REDIR_OUT) = false := by simpa using hk1
            simp [hk1, this] at hco ⊢; omega

/-! ## Stage boundaries and argument vectors: lemmas -/

theorem execCmdArgs_eq_tokens (tt : Nat → cmdType) (ti : Nat → List Char) (n p : Nat) :
    execCmdArgs tt ti n p =
      ((tokensFrom tt ti p (n + 1 - p)).takeWhile (fun x => ¬ isOperator x.1)).map Prod.snd := by
  unfold execCmdArgs execCmdIndices tokensFrom
  rw [List.range'_eq_map_range]
  simp only [List.map_map, List.takeWhile_map]
  rfl

/-- C1: starting from the empty job table, every finite sequence of `addJob` and
`deleteJob(k)` calls (any `k`, any outcome of `malloc` that respects its contract)
runs to completion, and afterwards the nodes reached from `head` carry exactly the ids
`1, 2, ..., N` in list order, `head` is `NULL` iff `N = 0`, and when `N > 0` the
pointer `curr` is the last node and its `jobNum` is `N`. -/
theorem C1_job_ids_dense (ops : List JobOp) (fuel : Nat) (hfuel : ops.length < fuel)
    (hmalloc : mallocValid fuel emptyTable ops = true) :
    ∃ t L, runOps fuel emptyTable ops = some t ∧ JobList t L ∧
      listJobs t.mem fuel t.head = some L ∧
      jobIds L = denseIds L.length ∧
      (t.head = 0 ↔ L.length = 0) ∧
      (0 < L.length → L.getLast?.map Prod.fst = some t.curr ∧
        (load t.mem t.curr).map (fun n => n.jobNum) = some (L.length : Int)) := by
  obtain ⟨t, L, hr, hj, hd, hl⟩ := runOps_dense ops emptyTable [] fuel jobList_empty rfl
    (by simpa using hfuel) hmalloc
  have hhc := dense_head_curr t L hj hd
  exact ⟨t, L, hr, hj, listJobs_of_seg t.mem L t.head fuel hj.1 hl, hd, hhc.1, hhc.2⟩

/-- C1 at a concrete run: three jobs are added, the second is deleted, an absent id
is deleted, `malloc` fails once and then hands the freed address out again. -/
theorem C1_job_ids_dense_witness :
    ∃ t L, runOps 8 emptyTable
        [JobOp.add 5 (11, 0, 0) ['a'], JobOp.add 7 (21, 22, 0) ['b'],
         JobOp.add 9 (31, 0, 0) ['c'], JobOp.delete 2, JobOp.delete 7,
         JobOp.add 0 (41, 0, 0) ['d'], JobOp.add 7 (51, 0, 0) ['e']] = some t ∧
      JobList t L ∧
      listJobs t.mem 8 t.head = some L ∧
      jobIds L = denseIds L.length ∧
      (t.head = 0 ↔ L.length = 0) ∧
      (0 < L.length → L.getLast?.map Prod.fst = some t.curr ∧
        (load t.mem t.curr).map (fun n => n.jobNum) = some (L.length : Int)) :=
  C1_job_ids_dense _ 8 (by decide) (by decide)

/-- C10: on a job table whose nodes carry the ids `1..N`, `deleteJob(k)` with
`1 ≤ k ≤ N` succeeds and leaves `N - 1` nodes: the same nodes, in the same order,
without the `k`-th one (which is freed); their (process handles, command line) pairs
are unchanged; ids before position `k` are kept and ids after it are decreased by
one; `head` and `curr` are the new first and last node, both `NULL` when `N = 1`. -/
theorem C10_deleteJob_postcondition (t : JobTable) (L : List (Nat × suspendedJobs))
    (k : Int) (fuel : Nat) (h : JobList t L) (hd : jobIds L = denseIds L.length)
    (hk1 : 1 ≤ k) (hk2 : k ≤ L.length) (hf : L.length < fuel) :
    ∃ t1 L1, deleteJob fuel t k = some (t1, false) ∧ JobList t1 L1 ∧
      listJobs t1.mem fuel t1.head = some L1 ∧
      L1.length = L.length - 1 ∧
      jobPayload L1 = (jobPayload L).eraseIdx (k.toNat - 1) ∧
      L1.map Prod.fst = (L.map Prod.fst).eraseIdx (k.toNat - 1) ∧
      jobIds L1 = (jobIds L).take (k.toNat - 1) ++
        ((jobIds L).drop (k.toNat - 1 + 1)).map (fun v => v - 1) ∧
      jobIds L1 = denseIds (L.length - 1) ∧
      (∀ d, (L.map Prod.fst)[k.toNat - 1]? = some d → t1.mem d = none) ∧
      t1.head = ((L1.map Prod.fst).head?).getD 0 ∧
      t1.curr = ((L1.map Prod.fst).getLast?).getD 0 ∧
      (L.length = 1 → t1.head = 0 ∧ t1.curr = 0) := by
  obtain ⟨A, d, dn, B, hL, hA, hB, hAl, hdk, hne⟩ := dense_locate L k hd hk1 hk2
  have hLl : L.length = A.length + (B.length + 1) := by rw [hL]; simp
  rw [hL] at h hd
  obtain ⟨t1, h1, h2, h3⟩ := deleteJob_spec t A B d dn k fuel h hne hdk
    (by rw [← hL]; exact hf)
  have hlen : (setLastNext A dn.next ++ B.map decNode).length = L.length - 1 := by
    rw [hLl]; simp [setLastNext_length]
  have hdense := dense_delete A B (d, dn) dn.next hd
  rw [hlen] at hdense
  refine ⟨t1, setLastNext A dn.next ++ B.map decNode, h1, h2,
    listJobs_of_seg _ _ _ _ h2.1 (by rw [hlen]; omega), hlen,
    ?_, ?_, ?_, hdense, ?_, seg_head_eq _ _ _ h2.1, h2.2.2, ?_⟩
  · have e1 : (jobPayload L).take (k.toNat - 1) = jobPayload A := by
      rw [hA]; simp [jobPayload, List.map_take]
    have e2 : (jobPayload L).drop (k.toNat - 1 + 1) = jobPayload B := by
      rw [hB]; simp [jobPayload, List.map_drop]
    rw [List.eraseIdx_eq_take_drop_succ, e1, e2, jobPayload_append, setLastNext_payload,
      jobPayload_decNode]
  · rw [List.eraseIdx_eq_take_drop_succ, List.map_append, setLastNext_fst, decNode_fst,
      hA, hB, List.map_take, List.map_drop]
  · rw [jobIds_append, setLastNext_ids, jobIds_decNode, hA, hB]
    simp [jobIds, List.map_take, List.map_drop]
  · intro d1 hd1
    have : (L.map Prod.fst)[k.toNat - 1]? = some d := by
      rw [hL, ← hAl, List.map_append, List.getElem?_append_right (by simp)]
      simp
    rw [this] at hd1
    cases hd1
    exact h3
  · intro hN
    have hnil : setLastNext A dn.next ++ B.map decNode = [] := by
      apply List.eq_nil_of_length_eq_zero
      rw [hlen, hN]
    have hh := seg_head_eq _ _ _ h2.1
    have hc := h2.2.2
    rw [hnil] at hh hc
    exact ⟨hh, hc⟩

/-- C10 on the table `threeJobs`, deleting job 2: jobs 1 and 3 remain, job 3 becomes
job 2, the node at address 7 is freed. -/
theorem C10_deleteJob_postcondition_witness :
    JobList threeJobs threeJobsList ∧
    ∃ t1 L1, deleteJob 4 threeJobs 2 = some (t1, false) ∧ JobList t1 L1 ∧
      listJobs t1.mem 4 t1.head = some L1 ∧
      L1.length = 2 ∧
      jobPayload L1 = [((11, 0, 0), ['a']), ((31, 0, 0), ['c'])] ∧
      L1.map Prod.fst = [5, 9] ∧
      jobIds L1 = [1, 2] ∧
      t1.mem 7 = none ∧ t1.head = 5 ∧ t1.curr = 9 := by
  have hJ : JobList threeJobs threeJobsList :=
    ⟨⟨rfl, by decide, rfl, rfl, by decide, rfl, rfl, by decide, rfl, rfl⟩, by decide, rfl⟩
  refine ⟨hJ, ?_⟩
  obtain ⟨t1, L1, h1, h2, h3, h4, h5, h6, h7, _, h9, h10, h11, _⟩ :=
    C10_deleteJob_postcondition threeJobs threeJobsList 2 4 hJ (by decide) (by decide)
      (by decide) (by decide)
  refine ⟨t1, L1, h1, h2, h3, h4, h5, h6, ?_, h9 7 (by decide), ?_, ?_⟩
  · rw [h7]; decide
  · rw [h10, h6]; rfl
  · rw [h11, h6]; rfl

/-- C5: if some word of the line contains a reserved character (tab, `>`, `<`, `|`,
`*`, `!`, backtick, single quote, double quote) and is not exactly one of the operator
words `<`, `>`, `>>`, `|`, then `tokenize` rejects the line; and in every accepted line
each token of kind `CMDNAME`, `ARG`, `IN_FILE` or `OUT_FILE` has a text without any
reserved character. -/
theorem C5_reserved_characters (tt0 : Nat → cmdType) (line : List Char) (h0 : tt0 0 = START) :
    (∀ w ∈ strtokAll line [], ContainsReserved w → w ∉ operatorWords →
      (tokenize tt0 (line ++ [endOfLine])).ret = false) ∧
    ((tokenize tt0 (line ++ [endOfLine])).ret = true →
      ∀ j, 1 ≤ j → j ≤ (tokenize tt0 (line ++ [endOfLine])).numOfTokens →
        ((tokenize tt0 (line ++ [endOfLine])).tokenType j = CMDNAME ∨
         (tokenize tt0 (line ++ [endOfLine])).tokenType j = ARG ∨
         (tokenize tt0 (line ++ [endOfLine])).tokenType j = IN_FILE ∨
         (tokenize tt0 (line ++ [endOfLine])).tokenType j = OUT_FILE) →
        ¬ ContainsReserved ((tokenize tt0 (line ++ [endOfLine])).tokenizedInput j)) := by
  constructor
  · intro w hw hres hop
    cases hr : (tokenize tt0 (line ++ [endOfLine])).ret with
    | false => rfl
    | true =>
      exfalso
      have hw1 : w ∈ strtokAll (line ++ [endOfLine]).dropLast [] := by
        rw [List.dropLast_concat]; exact hw
      obtain ⟨j, hj1, hj2, hjw⟩ := accepted_word_index tt0 _ h0 hr w hw1
      obtain ⟨a, _, hfit⟩ := accepted_textFits tt0 _ h0 hr j hj1 hj2
      rw [hjw] at hfit
      exact hop (textFits_reserved _ _ _ hfit ((hasReserved_iff w).2 hres))
  · intro hacc j hj1 hj2 hk hres
    obtain ⟨a, _, hfit⟩ := accepted_textFits tt0 _ h0 hacc j hj1 hj2
    have hr := (hasReserved_iff _).2 hres
    rcases hk with hk | hk | hk | hk <;> rw [hk] at hfit <;> simp only [TextFits] at hfit
    · rw [hfit.1] at hr; exact absurd hr (by simp)
    · rw [hfit] at hr; exact absurd hr (by simp)
    · rw [hfit] at hr; exact absurd hr (by simp)
    · rw [hfit] at hr; exact absurd hr (by simp)

/-- C5 on concrete lines: `ls a|b` is rejected because of the word `a|b`, and in the
accepted line `ls -l` the argument `-l` has no reserved character. -/
theorem C5_reserved_characters_witness :
    freshTokenType 0 = START ∧
    (tokenize freshTokenType ("ls a|b".toList ++ [endOfLine])).ret = false ∧
    ¬ ContainsReserved
      ((tokenize freshTokenType ("ls -l".toList ++ [endOfLine])).tokenizedInput 2) :=
  ⟨rfl,
   (C5_reserved_characters freshTokenType "ls a|b".toList rfl).1 "a|b".toList (by decide)
     ⟨'|', by decide, by decide⟩ (by decide),
   (C5_reserved_characters freshTokenType "ls -l".toList rfl).2 (by decide) 2 (by decide)
     (by decide) (Or.inr (Or.inl (by decide)))⟩

/-- C4: a line whose first word is `exit` or `jobs` is accepted iff it has exactly one
word; a line whose first word is `cd` or `fg` is accepted iff it has exactly two words
and the second contains no reserved character, and its kinds are then
`[BUILTIN_WITH_ARG, ARG]`; when the number of words differs from the arity the line is
rejected and the message printed is the command followed by
`: wrong number of arguments`. -/
theorem C4_builtin_arity (tt0 : Nat → cmdType) (line : List Char) (w : List Char)
    (h0 : tt0 0 = START) (hw : (strtokAll line []).head? = some w) :
    ((w = "exit".toList ∨ w = "jobs".toList) →
      ((tokenize tt0 (line ++ [endOfLine])).ret = true ↔ (strtokAll line []).length = 1) ∧
      ((strtokAll line []).length ≠ 1 →
        (tokenize tt0 (line ++ [endOfLine])).ret = false ∧
        (tokenize tt0 (line ++ [endOfLine])).printed =
          w ++ ": wrong number of arguments\n".toList)) ∧
    ((w = "cd".toList ∨ w = "fg".toList) →
      ((tokenize tt0 (line ++ [endOfLine])).ret = true ↔
        ∃ w2, strtokAll line [] = [w, w2] ∧ ¬ ContainsReserved w2) ∧
      ((tokenize tt0 (line ++ [endOfLine])).ret = true →
        kindsUpTo (tokenize tt0 (line ++ [endOfLine])).tokenType
          (tokenize tt0 (line ++ [endOfLine])).numOfTokens = [BUILTIN_WITH_ARG, ARG]) ∧
      ((strtokAll line []).length ≠ 2 →
        (tokenize tt0 (line ++ [endOfLine])).ret = false ∧
        (tokenize tt0 (line ++ [endOfLine])).printed =
          w ++ ": wrong number of arguments\n".toList)) := by
  have hfirst := tokenizeLoop_first_text tt0 line w hw
  have hi := tokenizeLoop_i tt0 line
  have hdl : (line ++ [endOfLine]).dropLast = line := List.dropLast_concat
  constructor
  · intro hw1
    have hrej : (strtokAll line []).length ≠ 1 →
        (tokenize tt0 (line ++ [endOfLine])).ret = false ∧
        (tokenize tt0 (line ++ [endOfLine])).printed =
          w ++ ": wrong number of arguments\n".toList := by
      intro hlen
      have := tokenize_arity_noarg tt0 (line ++ [endOfLine])
        (by rw [hdl, hfirst]; exact hw1) (by rw [hdl, hi]; exact hlen)
      rw [hdl, hfirst] at this
      exact this
    refine ⟨⟨?_, ?_⟩, hrej⟩
    · intro hacc
      by_contra hlen
      rw [(hrej hlen).1] at hacc
      cases hacc
    · intro hlen
      have hws : strtokAll line [] = [w] := by
        cases hl : strtokAll line [] with
        | nil => rw [hl] at hlen; simp at hlen
        | cons x xs =>
          rw [hl] at hlen hw
          simp at hlen hw
          rw [hlen, hw]
      obtain ⟨hv, hi1, hk⟩ := tokenizeLoop_noarg tt0 line w h0 hws hw1
      rw [tokenize_ret_true, hdl, hi1, hk, hv]
      exact ⟨fun _ => rfl, fun hn _ => absurd (by rw [hfirst]; exact hw1) hn, rfl,
        by decide, by decide, by decide, by decide⟩
  · intro hw1
    have hne : ¬ (w = "exit".toList ∨ w = "jobs".toList) := by
      rcases hw1 with rfl | rfl <;> decide
    have hrej : (strtokAll line []).length ≠ 2 →
        (tokenize tt0 (line ++ [endOfLine])).ret = false ∧
        (tokenize tt0 (line ++ [endOfLine])).printed =
          w ++ ": wrong number of arguments\n".toList := by
      intro hlen
      have := tokenize_arity_onearg tt0 (line ++ [endOfLine])
        (by rw [hdl, hfirst]; exact hne) (by rw [hdl, hfirst]; exact hw1)
        (by rw [hdl, hi]; exact hlen)
      rw [hdl, hfirst] at this
      exact this
    have hshape : (tokenize tt0 (line ++ [endOfLine])).ret = true →
        ∃ w2, strtokAll line [] = [w, w2] := by
      intro hacc
      have hlen : (strtokAll line []).length = 2 := by
        by_contra hlen
        rw [(hrej hlen).1] at hacc
        cases hacc
      cases hl : strtokAll line [] with
      | nil => rw [hl] at hlen; simp at hlen
      | cons x xs =>
        cases xs with
        | nil => rw [hl] at hlen; simp at hlen
        | cons y ys =>
          rw [hl] at hlen hw
          simp at hlen hw
          exact ⟨y, by rw [hw, hlen]⟩
    refine ⟨⟨?_, ?_⟩, ?_, hrej⟩
    · intro hacc
      obtain ⟨w2, hws⟩ := hshape hacc
      refine ⟨w2, hws, ?_⟩
      intro hres
      obtain ⟨_, hbad, _⟩ := tokenizeLoop_onearg tt0 line w w2 h0 hws hw1
      have hinv := hbad ((hasReserved_iff w2).2 hres)
      rw [tokenize_ret_true, hdl, hinv] at hacc
      simp at hacc
    · rintro ⟨w2, hws, hres⟩
      have hr : hasReserved w2 = false := by
        cases h : hasReserved w2 with
        | false => rfl
        | true => exact absurd ((hasReserved_iff w2).1 h) hres
      obtain ⟨hi2, _, hgood⟩ := tokenizeLoop_onearg tt0 line w w2 h0 hws hw1
      obtain ⟨hv, _, hk2⟩ := hgood hr
      rw [tokenize_ret_true, hdl, hi2, hk2, hv, hfirst]
      exact ⟨fun h => absurd h hne, fun _ _ => rfl, rfl,
        by decide, by decide, by decide, by decide⟩
    · intro hacc
      obtain ⟨w2, hws⟩ := hshape hacc
      obtain ⟨hi2, hbad, hgood⟩ := tokenizeLoop_onearg tt0 line w w2 h0 hws hw1
      have hr : hasReserved w2 = false := by
        cases h : hasReserved w2 with
        | false => rfl
        | true =>
          have hinv := hbad h
          rw [tokenize_ret_true, hdl, hinv] at hacc
          simp at hacc
      obtain ⟨_, hk1, hk2⟩ := hgood hr
      rw [tokenize_tokenType, tokenize_numOfTokens, hdl, hi2]
      simp [kindsUpTo, List.range_succ, hk1, hk2]

/-- C4 on concrete lines: `exit now` is rejected with the arity message of `exit`, and
`cd /tmp` is accepted with the kinds `[BUILTIN_WITH_ARG, ARG]`. -/
theorem C4_builtin_arity_witness :
    freshTokenType 0 = START ∧
    (tokenize freshTokenType ("exit now".toList ++ [endOfLine])).printed =
      "exit: wrong number of arguments\n".toList ∧
    kindsUpTo (tokenize freshTokenType ("cd /tmp".toList ++ [endOfLine])).tokenType
      (tokenize freshTokenType ("cd /tmp".toList ++ [endOfLine])).numOfTokens =
        [BUILTIN_WITH_ARG, ARG] :=
  ⟨rfl,
   (((C4_builtin_arity freshTokenType "exit now".toList "exit".toList rfl (by decide)).1
      (Or.inl rfl)).2 (by decide)).2,
   ((C4_builtin_arity freshTokenType "cd /tmp".toList "cd".toList rfl (by decide)).2
      (Or.inl rfl)).2.1 (by decide)⟩

/-- C8, as stated, fails: the kind of the previous token and the text of the word do
not determine the outcome.  After `cmd a a < in` and after `cmd > out < in` the fifth
token is an `IN_FILE` and the sixth word is `>`; it becomes a `REDIR_OUT` in the first
line and is invalid in the second (two redirections were already seen).  After
`a b c d` and after `a | c d` the fourth token is an `ARG` and the fifth word is `<`;
it becomes a `REDIR_IN` in the first line and is invalid in the second (a pipe was
already seen). -/
theorem C8_counterexample :
    ((stateAfter freshTokenType "cmd a a < in >".toList 5).tokenType 5 = IN_FILE ∧
     (stateAfter freshTokenType "cmd > out < in >".toList 5).tokenType 5 = IN_FILE ∧
     (strtokAll "cmd a a < in >".toList [])[5]? = some ">".toList ∧
     (strtokAll "cmd > out < in >".toList [])[5]? = some ">".toList ∧
     stepOutcome (stateAfter freshTokenType "cmd a a < in >".toList 5) ">".toList =
       some REDIR_OUT ∧
     stepOutcome (stateAfter freshTokenType "cmd > out < in >".toList 5) ">".toList = none) ∧
    ((stateAfter freshTokenType "a b c d <".toList 4).tokenType 4 = ARG ∧
     (stateAfter freshTokenType "a | c d <".toList 4).tokenType 4 = ARG ∧
     (strtokAll "a b c d <".toList [])[4]? = some "<".toList ∧
     (strtokAll "a | c d <".toList [])[4]? = some "<".toList ∧
     stepOutcome (stateAfter freshTokenType "a b c d <".toList 4) "<".toList =
       some REDIR_IN ∧
     stepOutcome (stateAfter freshTokenType "a | c d <".toList 4) "<".toList = none) := by
  decide

/-- C8, amended: the outcome of classifying a word is determined by the kind held by
the previous token, the text of the word and the two counters `piped` and
`redirected` (the pipes and redirections classified earlier in the line): it is the
value of the transition function `classify` at these four, so two lines (at any two
positions, whatever the earlier content of `tokenType`) that agree on them get the
same outcome. -/
theorem C8_classifier_transition (tt1 tt2 : Nat → cmdType) (line1 line2 : List Char)
    (k1 k2 : Nat) (w : List Char)
    (hprev : (stateAfter tt1 line1 k1).tokenType (stateAfter tt1 line1 k1).i =
      (stateAfter tt2 line2 k2).tokenType (stateAfter tt2 line2 k2).i)
    (hpiped : (stateAfter tt1 line1 k1).piped = (stateAfter tt2 line2 k2).piped)
    (hredir : (stateAfter tt1 line1 k1).redirected = (stateAfter tt2 line2 k2).redirected) :
    stepOutcome (stateAfter tt1 line1 k1) w = stepOutcome (stateAfter tt2 line2 k2) w ∧
    stepOutcome (stateAfter tt1 line1 k1) w =
      classify ((stateAfter tt1 line1 k1).tokenType (stateAfter tt1 line1 k1).i)
        (stateAfter tt1 line1 k1).piped (stateAfter tt1 line1 k1).redirected w := by
  rw [stepOutcome_eq, stepOutcome_eq, hprev, hpiped, hredir]
  exact ⟨rfl, rfl⟩

/-- C8 (amended) on two lines: after `ls -l` at the start of the program and after
`cat x y` with other leftovers in `tokenType`, the word `>` gets the same outcome. -/
theorem C8_classifier_transition_witness :
    stepOutcome (stateAfter freshTokenType "ls -l > out".toList 2) ">".toList =
      stepOutcome (stateAfter (fun j => if j = 0 then START else PIPE) "cat x y >".toList 3)
        ">".toList ∧
    stepOutcome (stateAfter freshTokenType "ls -l > out".toList 2) ">".toList =
      classify ARG 0 0 ">".toList :=
  C8_classifier_transition freshTokenType (fun j => if j = 0 then START else PIPE)
    "ls -l > out".toList "cat x y >".toList 2 3 ">".toList (by decide) (by decide) (by decide)

/-- C9, as stated, fails: in `cmd < in | cat` the word after the `IN_FILE` token is
`|`, it is classified `PIPE` and the line is accepted. -/
theorem C9_counterexample :
    (tokenize freshTokenType ("cmd < in | cat".toList ++ [endOfLine])).tokenType 3 = IN_FILE ∧
    (tokenize freshTokenType ("cmd < in | cat".toList ++ [endOfLine])).tokenizedInput 4 =
      "|".toList ∧
    (tokenize freshTokenType ("cmd < in | cat".toList ++ [endOfLine])).tokenType 4 = PIPE ∧
    (tokenize freshTokenType ("cmd < in | cat".toList ++ [endOfLine])).ret = true := by
  decide

/-- C9, amended: the word directly after an `IN_FILE` token is classified `REDIR_OUT`
when it is `>` or `>>` and fewer than 2 redirections have been seen so far; otherwise
it is classified `PIPE` when it is `|` and fewer than 2 pipes have been seen so far;
any other word makes `tokenize` reject the line. -/
theorem C9_after_infile (tt0 : Nat → cmdType) (line : List Char) (k : Nat) (w : List Char)
    (hw : (strtokAll line [])[k]? = some w)
    (hin : (stateAfter tt0 line k).tokenType k = IN_FILE) :
    (((w = ">".toList ∨ w = ">>".toList) ∧ (stateAfter tt0 line k).redirected < 2) →
      stepOutcome (stateAfter tt0 line k) w = some REDIR_OUT ∧
      (stateAfter tt0 line (k + 1)).tokenType (k + 1) = REDIR_OUT) ∧
    (¬ ((w = ">".toList ∨ w = ">>".toList) ∧ (stateAfter tt0 line k).redirected < 2) →
      (w = "|".toList ∧ (stateAfter tt0 line k).piped < 2) →
      stepOutcome (stateAfter tt0 line k) w = some PIPE ∧
      (stateAfter tt0 line (k + 1)).tokenType (k + 1) = PIPE) ∧
    (¬ ((w = ">".toList ∨ w = ">>".toList) ∧ (stateAfter tt0 line k).redirected < 2) →
      ¬ (w = "|".toList ∧ (stateAfter tt0 line k).piped < 2) →
      stepOutcome (stateAfter tt0 line k) w = none ∧
      (tokenize tt0 (line ++ [endOfLine])).ret = false) := by
  have hlt : k < (strtokAll line []).length := by
    rcases Nat.lt_or_ge k (strtokAll line []).length with h | h
    · exact h
    · rw [List.getElem?_eq_none h] at hw; cases hw
  have hi : (stateAfter tt0 line k).i = k := stateAfter_i tt0 line k (by omega)
  have hout : stepOutcome (stateAfter tt0 line k) w =
      classify IN_FILE (stateAfter tt0 line k).piped (stateAfter tt0 line k).redirected w := by
    rw [stepOutcome_eq, hi, hin]
  have hnext : ∀ kd, stepOutcome (stateAfter tt0 line k) w = some kd →
      (stateAfter tt0 line (k + 1)).tokenType (k + 1) = kd := by
    intro kd hkd
    rw [stepOutcome_eq] at hkd
    rw [stateAfter_succ tt0 line k w hw, tokenizeStep_some _ _ _ hkd, hi]
    simp
  refine ⟨?_, ?_, ?_⟩
  · intro h1
    have : stepOutcome (stateAfter tt0 line k) w = some REDIR_OUT := by
      rw [hout]; simp only [classify]; rw [if_pos h1]
    exact ⟨this, hnext _ this⟩
  · intro h1 h2
    have : stepOutcome (stateAfter tt0 line k) w = some PIPE := by
      rw [hout]; simp only [classify]; rw [if_neg h1, if_pos h2]
    exact ⟨this, hnext _ this⟩
  · intro h1 h2
    have : stepOutcome (stateAfter tt0 line k) w = none := by
      rw [hout]; simp only [classify]; rw [if_neg h1, if_neg h2]
    exact ⟨this, invalid_word_rejects tt0 line k w hw this⟩

/-- C9 (amended) on concrete lines: in `cat < in x` the word `x` after the `IN_FILE`
token makes `tokenize` reject the line. -/
theorem C9_after_infile_witness :
    (strtokAll "cat < in x".toList [])[3]? = some ['x'] ∧
    (stateAfter freshTokenType "cat < in x".toList 3).tokenType 3 = IN_FILE ∧
    (tokenize freshTokenType ("cat < in x".toList ++ [endOfLine])).ret = false :=
  ⟨by decide, by decide,
   ((C9_after_infile freshTokenType "cat < in x".toList 3 ['x'] (by decide)
      (by decide)).2.2 (by decide) (by decide)).2⟩

/-- C6: a line accepted by `tokenize` has at most 2 `PIPE` tokens and at most 3 command
tokens (stage starts), and a line with three or more words `|` is rejected.  In a
round of `main` started with the segmenter cursor at `0`, every slot `processCnt - 1`
written by `forkCmd` is below 3, so the process count never exceeds 3; this holds
whatever the system calls return and however the round ends.  When the round returns,
the cursor is at `0` and `tokenType[0]` is `START` again. -/
theorem C6_pipeline_bound (env : Env) (fuel : Nat) (sh : Shell) (line : List Char)
    (h0 : sh.tokenType 0 = START) (hpos : sh.currentCmdPos = 0) (hs : SlotsOK sh) :
    ((tokenize sh.tokenType (line ++ [endOfLine])).ret = true →
      (kindsUpTo (tokenize sh.tokenType (line ++ [endOfLine])).tokenType
        (tokenize sh.tokenType (line ++ [endOfLine])).numOfTokens).count PIPE ≤ 2 ∧
      (cmdPositions (tokenize sh.tokenType (line ++ [endOfLine])).tokenType
        (tokenize sh.tokenType (line ++ [endOfLine])).numOfTokens 0).length ≤ 3 ∧
      (mainIteration env fuel sh (line ++ [endOfLine])).shell.processCnt ≤ 3) ∧
    (3 ≤ (strtokAll line []).count "|".toList →
      (tokenize sh.tokenType (line ++ [endOfLine])).ret = false) ∧
    SlotsOK (mainIteration env fuel sh (line ++ [endOfLine])).shell ∧
    (∀ sh1, mainIteration env fuel sh (line ++ [endOfLine]) = Step.running sh1 →
      sh1.tokenType 0 = START ∧ sh1.currentCmdPos = 0) := by
  have hdl : (line ++ [endOfLine]).dropLast = line := List.dropLast_concat
  have hz : (tokenize sh.tokenType (line ++ [endOfLine])).tokenType 0 = START := by
    rw [tokenize_tokenType, tokenizeLoop_zero, h0]
  have hmain : (tokenize sh.tokenType (line ++ [endOfLine])).ret = true →
      (mainIteration env fuel sh (line ++ [endOfLine])).shell.processCnt ≤ 3 ∧
      SlotsOK (mainIteration env fuel sh (line ++ [endOfLine])).shell ∧
      (∀ sh1, mainIteration env fuel sh (line ++ [endOfLine]) = Step.running sh1 →
        sh1.tokenType 0 = START ∧ sh1.currentCmdPos = 0) := by
    intro hacc
    obtain ⟨_, hcmd, _⟩ := accepted_counts sh.tokenType _ h0 hacc
    rw [← cmdPositions_zero_length] at hcmd
    have hs1 : SlotsOK (sh.afterTokenize (tokenize sh.tokenType (line ++ [endOfLine]))) := by
      unfold SlotsOK Shell.afterTokenize
      simp only []
      split
      · exact hs
      · rw [forkSlots_append]
        simpa using hs
    obtain ⟨b1, b2, b3, b4⟩ := processInput_bound env fuel
      (sh.afterTokenize (tokenize sh.tokenType (line ++ [endOfLine]))) hpos hcmd hs1
    unfold mainIteration
    simp only [hacc, if_true]
    refine ⟨b1, b2, ?_⟩
    intro sh1 hsh1
    refine ⟨?_, b4 sh1 hsh1⟩
    rw [hsh1] at b3
    have b3b : sh1.tokenType = (tokenize sh.tokenType (line ++ [endOfLine])).tokenType := b3
    rw [b3b, hz]
  have hrejected : (tokenize sh.tokenType (line ++ [endOfLine])).ret = false →
      SlotsOK (mainIteration env fuel sh (line ++ [endOfLine])).shell ∧
      (∀ sh1, mainIteration env fuel sh (line ++ [endOfLine]) = Step.running sh1 →
        sh1.tokenType 0 = START ∧ sh1.currentCmdPos = 0) := by
    intro hrej
    obtain ⟨sh1, e1, e2, _, _, _, e6⟩ := mainIteration_rejected env fuel sh _ hrej
    rw [e1]
    refine ⟨?_, ?_⟩
    · unfold SlotsOK
      show ∀ slot ∈ forkSlots sh1.trace, slot < 3
      rw [e2, forkSlots_append]
      simpa using hs
    · intro sh2 hsh2
      simp only [Step.running.injEq] at hsh2
      subst hsh2
      refine ⟨?_, e6.trans hpos⟩
      have : sh1.tokenType = (tokenize sh.tokenType (line ++ [endOfLine])).tokenType := by
        unfold mainIteration at e1
        simp only [hrej, Bool.false_eq_true, if_false, Step.running.injEq] at e1
        rw [← e1]
        rfl
      rw [this, hz]
  refine ⟨?_, ?_, ?_, ?_⟩
  · intro hacc
    obtain ⟨hp, hcmd, _⟩ := accepted_counts sh.tokenType _ h0 hacc
    rw [← cmdPositions_zero_length] at hcmd
    exact ⟨hp, hcmd, (hmain hacc).1⟩
  · intro h3
    cases hr : (tokenize sh.tokenType (line ++ [endOfLine])).ret with
    | false => rfl
    | true =>
      obtain ⟨hp, _, hw⟩ := accepted_counts sh.tokenType _ h0 hr
      rw [hdl] at hw
      omega
  · cases hr : (tokenize sh.tokenType (line ++ [endOfLine])).ret with
    | false => exact (hrejected hr).1
    | true => exact (hmain hr).2.1
  · cases hr : (tokenize sh.tokenType (line ++ [endOfLine])).ret with
    | false => exact (hrejected hr).2
    | true => exact (hmain hr).2.2

/-- C6 on concrete lines at program start: the three-stage line `a | b | c` forks into
the slots 0, 1, 2 and `a | b | c | d` is rejected. -/
theorem C6_pipeline_bound_witness :
    initialShell.tokenType 0 = START ∧ initialShell.currentCmdPos = 0 ∧
    forkSlots (mainIteration quietEnv 5 initialShell
      ("a | b | c".toList ++ [endOfLine])).shell.trace = [0, 1, 2] ∧
    SlotsOK (mainIteration quietEnv 5 initialShell ("a | b | c".toList ++ [endOfLine])).shell ∧
    (tokenize initialShell.tokenType ("a | b | c | d".toList ++ [endOfLine])).ret = false :=
  ⟨rfl, rfl, by decide,
   (C6_pipeline_bound quietEnv 5 initialShell "a | b | c".toList rfl rfl
      (fun _ h => absurd h (by simp [forkSlots, initialShell]))).2.2.1,
   (C6_pipeline_bound quietEnv 5 initialShell "a | b | c | d".toList rfl rfl
      (fun _ h => absurd h (by simp [forkSlots, initialShell]))).2.1 (by decide)⟩

/-- C7: in a line accepted by `tokenize`, each stage (the tokens between consecutive
`PIPE` tokens and the ends of the line) contains at most one `REDIR_IN` token and at
most one `REDIR_OUT` token. -/
theorem C7_one_redirection_per_stage (tt0 : Nat → cmdType) (line : List Char)
    (h0 : tt0 0 = START) (hacc : (tokenize tt0 (line ++ [endOfLine])).ret = true) :
    ∀ st ∈ splitStages (kindsUpTo (tokenize tt0 (line ++ [endOfLine])).tokenType
        (tokenize tt0 (line ++ [endOfLine])).numOfTokens),
      st.count REDIR_IN ≤ 1 ∧ st.count REDIR_OUT ≤ 1 := by
  obtain ⟨_, _, _, hF, _⟩ := tokenize_accepted tt0 _ h0 hacc
  obtain ⟨st, rest, hs, hi, ho, hrest⟩ :=
    follows_stage_counts _ _ START 0 0 0 0 ⟨rfl, rfl⟩ (by omega) (by omega) hF
  intro t ht
  rw [hs] at ht
  rcases List.mem_cons.1 ht with rfl | ht
  · exact ⟨by omega, by omega⟩
  · exact hrest t ht

/-- C7 on a concrete line: the stages of `a > y < x | b > z` are
`a > y < x` and `b > z`, each with at most one redirection of each direction. -/
theorem C7_one_redirection_per_stage_witness :
    freshTokenType 0 = START ∧
    (tokenize freshTokenType ("a > y < x | b > z".toList ++ [endOfLine])).ret = true ∧
    splitStages (kindsUpTo
      (tokenize freshTokenType ("a > y < x | b > z".toList ++ [endOfLine])).tokenType
      (tokenize freshTokenType ("a > y < x | b > z".toList ++ [endOfLine])).numOfTokens) =
        [[CMDNAME, REDIR_OUT, OUT_FILE, REDIR_IN, IN_FILE], [CMDNAME, REDIR_OUT, OUT_FILE]] ∧
    ([CMDNAME, REDIR_OUT, OUT_FILE].count REDIR_IN ≤ 1 ∧
      [CMDNAME, REDIR_OUT, OUT_FILE].count REDIR_OUT ≤ 1) :=
  ⟨rfl, by decide, by decide,
   C7_one_redirection_per_stage freshTokenType "a > y < x | b > z".toList rfl (by decide)
     [CMDNAME, REDIR_OUT, OUT_FILE] (by decide)⟩

/-- The concrete table `threeJobs` holds the nodes `threeJobsList`. -/
theorem threeJobs_jobList : JobList threeJobs threeJobsList :=
  ⟨⟨rfl, by decide, rfl, rfl, by decide, rfl, rfl, by decide, rfl, rfl⟩, by decide, rfl⟩

theorem threeJobs_dense : jobIds threeJobsList = denseIds threeJobsList.length := by decide

/-- The search stops at the first node that carries the number, and hands back the
node before it. -/
theorem searchJob_found (t : JobTable) (A B : List (Nat × suspendedJobs)) (d : Nat)
    (dn : suspendedJobs) (k : Int) (fuel : Nat)
    (h : JobList t (A ++ (d, dn) :: B)) (hne : ∀ x ∈ A, x.2.jobNum ≠ k)
    (hk : dn.jobNum = k) (hf : A.length < fuel) :
    searchJob fuel t k = some (d, some (lastAddr A)) ∧ d ≠ 0 ∧ load t.mem d = some dn := by
  obtain ⟨r, hA, hr, hd0, hdm, _⟩ := (seg_append _ _ _ _ _).1 h.1
  subst hr
  obtain ⟨f, rfl⟩ : ∃ f, fuel = A.length + (f + 1) := ⟨fuel - A.length - 1, by omega⟩
  refine ⟨?_, hd0, by simp [load, hd0, hdm]⟩
  unfold searchJob
  rw [searchJobLoop_skip t.mem k A t.head r 0 (f + 1) hA hne]
  exact searchJobLoop_found t.mem k r dn _ f hd0 hdm hk

/-! ## Claims on the job table operations -/

/-- C11, amended: on a job table whose `N` nodes carry the ids `1..N`, a call of `addJob`
in which `malloc` succeeds (it hands out a fresh node) yields a table of `N + 1` nodes: the first `N` nodes
are the former ones with the same addresses, ids, process handles and command lines,
in the same order; the new last node has the id `N + 1` (`1` when the table was
empty), the three given process handles and the saved input line as its command
line; `curr` is the new node and `head` is unchanged unless the table was empty.
The capacity of the buffer `jobName` is not part of the model. -/
theorem C11_addJob_postcondition (t : JobTable) (L : List (Nat × suspendedJobs)) (ptr : Nat)
    (pid : Int × Int × Int) (inputStringBackup : List Char) (fuel : Nat)
    (h : JobList t L) (hd : jobIds L = denseIds L.length)
    (hp : ptr ≠ 0) (hfree : t.mem ptr = none) (hf : L.length + 1 < fuel) :
    ∃ t1 L1, addJob t ptr pid inputStringBackup = some (t1, ptr) ∧ JobList t1 L1 ∧
      listJobs t1.mem fuel t1.head = some L1 ∧
      L1.length = L.length + 1 ∧
      jobIds (L1.take L.length) = jobIds L ∧
      jobPayload (L1.take L.length) = jobPayload L ∧
      (L1.take L.length).map Prod.fst = L.map Prod.fst ∧
      L1.drop L.length =
        [(ptr, { jobNum := (L.length : Int) + 1, pid := pid, jobName := inputStringBackup,
                 next := 0 })] ∧
      jobIds L1 = denseIds (L.length + 1) ∧
      t1.curr = ptr ∧ t1.head = (if L.length = 0 then ptr else t.head) := by
  obtain ⟨t1, h1, h2⟩ := addJob_spec t L ptr pid inputStringBackup h hp hfree
  have h2b : JobList t1 (setLastNext L ptr ++
      [(ptr, { jobNum := (L.length : Int) + 1, pid := pid, jobName := inputStringBackup,
               next := 0 })]) := by
    rcases list_nil_or_snoc L with rfl | ⟨L0, x, rfl⟩
    · simpa using h2
    · have := dense_last L0 x hd
      simpa [this] using h2
  clear h2
  rename' h2b => h2
  have hlen : (setLastNext L ptr).length = L.length := setLastNext_length L ptr
  have htake : ∀ (y : Nat × suspendedJobs),
      (setLastNext L ptr ++ [y]).take L.length = setLastNext L ptr := by
    intro y
    rw [← hlen, List.take_left']
    rfl
  have hdrop : ∀ (y : Nat × suspendedJobs), (setLastNext L ptr ++ [y]).drop L.length = [y] := by
    intro y
    rw [← hlen, List.drop_left']
    rfl
  refine ⟨t1, _, h1, h2, listJobs_of_seg _ _ _ _ h2.1 (by simp [hlen]; omega), by simp [hlen],
    ?_, ?_, ?_, hdrop _, ?_, ?_, ?_⟩
  · rw [htake, setLastNext_ids]
  · rw [htake, setLastNext_payload]
  · rw [htake, setLastNext_fst]
  · rw [jobIds_append, setLastNext_ids, hd, denseIds_add]
    have e1 : List.range 1 = [0] := rfl
    simp [jobIds, denseIds, e1]
  · rw [h2.2.2, lastAddr_concat]
  · have hh := seg_head_eq _ _ _ h2.1
    rw [hh]
    rcases list_nil_or_snoc L with rfl | ⟨L0, x, rfl⟩
    · simp [setLastNext]
    · have h0 := seg_head_eq _ _ _ h.1
      rw [h0]
      simp [setLastNext_fst]



/-- C11, as stated, fails: when `malloc` returns `NULL`, `addJob` returns `NULL` and
leaves the table as it was.  On `threeJobs` (ids `1..3`) the result still has the three
former jobs, not four, and `curr` is still the third job. -/
theorem C11_counterexample :
    JobList threeJobs threeJobsList ∧ jobIds threeJobsList = denseIds 3 ∧
    (∃ t1, addJob threeJobs 0 (41, 42, 0) "sleep 9".toList = some (t1, 0) ∧
      t1.head = threeJobs.head ∧ t1.curr = threeJobs.curr ∧
      listJobs t1.mem 5 t1.head = some threeJobsList) ∧
    threeJobsList.length = 3 :=
  ⟨threeJobs_jobList, by decide, ⟨threeJobs, rfl, rfl, rfl, by decide⟩, rfl⟩

/-- C11, amended, on the table `threeJobs`: a fourth job is appended at the fresh
address 11. -/
theorem C11_addJob_postcondition_witness :
    JobList threeJobs threeJobsList ∧
    ∃ t1 L1, addJob threeJobs 11 (41, 42, 0) "sleep 9".toList = some (t1, 11) ∧
      JobList t1 L1 ∧ listJobs t1.mem 5 t1.head = some L1 ∧ L1.length = 4 ∧
      jobIds L1 = [1, 2, 3, 4] ∧
      jobPayload L1 = [((11, 0, 0), ['a']), ((21, 22, 0), ['b']), ((31, 0, 0), ['c']),
        ((41, 42, 0), "sleep 9".toList)] ∧
      L1.map Prod.fst = [5, 7, 9, 11] ∧ t1.curr = 11 ∧ t1.head = 5 := by
  refine ⟨threeJobs_jobList, ?_⟩
  obtain ⟨t1, L1, h1, h2, h3, h4, _, h6, h7, h8, h9, h10, h11⟩ :=
    C11_addJob_postcondition threeJobs threeJobsList 11 (41, 42, 0) "sleep 9".toList 5
      threeJobs_jobList threeJobs_dense (by decide) (by decide) (by decide)
  have hsplit : L1 = L1.take threeJobsList.length ++ L1.drop threeJobsList.length :=
    (List.take_append_drop _ _).symm
  refine ⟨t1, L1, h1, h2, h3, h4, ?_, ?_, ?_, h10, h11⟩
  · rw [h9]; decide
  · rw [hsplit, jobPayload_append, h6, h8]; decide
  · rw [hsplit, List.map_append, h7, h8]; decide

/-- C12: on a job table whose `N` nodes carry the ids `1..N`, `searchJob(k, &preceding)`
returns the `k`-th node of the list when `1 ≤ k ≤ N` and stores in `preceding` the
address of the node just before it (`NULL` when it is the head); for every other `k`
it returns `NULL`.  Hence once the test of `fg` has passed (`head` is not `NULL` and
`1 ≤ jobNum ≤ curr->jobNum`) the node looked up is not `NULL` and can be read. -/
theorem C12_searchJob (t : JobTable) (L : List (Nat × suspendedJobs)) (k : Int) (fuel : Nat)
    (h : JobList t L) (hd : jobIds L = denseIds L.length) (hf : L.length < fuel) :
    ((1 ≤ k ∧ k ≤ L.length) →
      ∃ d dn, L[k.toNat - 1]? = some (d, dn) ∧ dn.jobNum = k ∧ d ≠ 0 ∧
        load t.mem d = some dn ∧
        searchJob fuel t k = some (d, some (lastAddr (L.take (k.toNat - 1)))) ∧
        (k = 1 → lastAddr (L.take (k.toNat - 1)) = 0) ∧
        (1 < k → (L.map Prod.fst)[k.toNat - 2]? = some (lastAddr (L.take (k.toNat - 1))))) ∧
    (¬ (1 ≤ k ∧ k ≤ L.length) → searchJob fuel t k = some (0, none)) ∧
    (∀ last, t.head ≠ 0 → load t.mem t.curr = some last → 1 ≤ k → k ≤ last.jobNum →
      ∃ d dn pre, searchJob fuel t k = some (d, pre) ∧ d ≠ 0 ∧ load t.mem d = some dn ∧
        dn.jobNum = k) := by
  have hfound : (1 ≤ k ∧ k ≤ L.length) →
      ∃ d dn, L[k.toNat - 1]? = some (d, dn) ∧ dn.jobNum = k ∧ d ≠ 0 ∧
        load t.mem d = some dn ∧
        searchJob fuel t k = some (d, some (lastAddr (L.take (k.toNat - 1)))) := by
    rintro ⟨hk1, hk2⟩
    obtain ⟨A, d, dn, B, hL, hA, hB, hAl, hdk, hne⟩ := dense_locate L k hd hk1 hk2
    have hJ := h
    rw [hL] at hJ
    obtain ⟨s1, s2, s3⟩ := searchJob_found t A B d dn k fuel hJ hne hdk
      (by have : L.length = A.length + (B.length + 1) := by rw [hL]; simp
          omega)
    refine ⟨d, dn, ?_, hdk, s2, s3, by rw [← hA]; exact s1⟩
    rw [hL, ← hAl, List.getElem?_append_right (le_refl _)]
    simp
  refine ⟨?_, ?_, ?_⟩
  · intro hk
    obtain ⟨d, dn, e1, e2, e3, e4, e5⟩ := hfound hk
    refine ⟨d, dn, e1, e2, e3, e4, e5, ?_, ?_⟩
    · intro h1
      subst h1
      simp [lastAddr]
    · intro h1
      have hlen : (L.take (k.toNat - 1)).length = k.toNat - 1 := by
        rw [List.length_take]; omega
      unfold lastAddr
      rw [List.getLast?_eq_getElem?, List.length_map, hlen, List.map_take,
        List.getElem?_take_of_lt (by omega)]
      have e : k.toNat - 1 - 1 = k.toNat - 2 := by omega
      rw [e]
      have hlt : k.toNat - 2 < (L.map Prod.fst).length := by simp; omega
      rw [List.getElem?_eq_getElem hlt]
      rfl
  · intro hk
    have hne := dense_absent L k hd (by omega)
    exact searchJobLoop_absent t.mem k L t.head 0 fuel h.1 hne hf
  · intro last hh hl hk1 hk2
    have hhc := dense_head_curr t L h hd
    have hpos : 0 < L.length := by
      rcases Nat.eq_zero_or_pos L.length with h0 | h0
      · exact absurd (hhc.1.2 h0) hh
      · exact h0
    have hlast := (hhc.2 hpos).2
    rw [hl] at hlast
    simp only [Option.map_some', Option.some.injEq] at hlast
    obtain ⟨d, dn, _, e2, e3, e4, e5⟩ := hfound ⟨hk1, by omega⟩
    exact ⟨d, dn, _, e5, e3, e4, e2⟩

/-- C12 on the table `threeJobs`: job 2 is found at address 7 after the node at 5, job 1
is the head, and the ids 0 and 4 are not found. -/
theorem C12_searchJob_witness :
    JobList threeJobs threeJobsList ∧
    searchJob 4 threeJobs 2 = some (7, some 5) ∧
    searchJob 4 threeJobs 1 = some (5, some 0) ∧
    searchJob 4 threeJobs 0 = some (0, none) ∧
    searchJob 4 threeJobs 4 = some (0, none) := by
  refine ⟨threeJobs_jobList, ?_, ?_, ?_, ?_⟩
  · obtain ⟨d, dn, e1, _, _, _, e5, _⟩ :=
      (C12_searchJob threeJobs threeJobsList 2 4 threeJobs_jobList threeJobs_dense
        (by decide)).1 (by decide)
    have hd : d = 7 := by
      have : threeJobsList[(2 : Int).toNat - 1]? =
          some (7, { jobNum := 2, pid := (21, 22, 0), jobName := ['b'], next := 9 }) := by
        decide
      rw [this] at e1
      simp only [Option.some.injEq, Prod.mk.injEq] at e1
      exact e1.1.symm
    rw [e5, hd]
    decide
  · obtain ⟨d, dn, e1, _, _, _, e5, _⟩ :=
      (C12_searchJob threeJobs threeJobsList 1 4 threeJobs_jobList threeJobs_dense
        (by decide)).1 (by decide)
    have hd : d = 5 := by
      have : threeJobsList[(1 : Int).toNat - 1]? =
          some (5, { jobNum := 1, pid := (11, 0, 0), jobName := ['a'], next := 7 }) := by
        decide
      rw [this] at e1
      simp only [Option.some.injEq, Prod.mk.injEq] at e1
      exact e1.1.symm
    rw [e5, hd]
    decide
  · exact (C12_searchJob threeJobs threeJobsList 0 4 threeJobs_jobList threeJobs_dense
      (by decide)).2.1 (by decide)
  · exact (C12_searchJob threeJobs threeJobsList 4 4 threeJobs_jobList threeJobs_dense
      (by decide)).2.1 (by decide)

/-! ## Built-ins: lemmas -/

/-- On a line whose first token is a command, the first `nextCommand()` stops there. -/
theorem nextCommand_first (tt : Nat → cmdType) (n : Nat) (h1 : isCommand (tt 1) = true)
    (hn : 1 ≤ n) : nextCommand tt n 0 = (true, 1) := by
  unfold nextCommand
  obtain ⟨m, rfl⟩ : ∃ m, n = m + 1 := ⟨n - 1, by omega⟩
  have e : List.range' (0 + 1) (m + 1 - 0) = 1 :: List.range' 2 m := by
    simp [List.range'_succ]
  have e2 : (1 :: List.range' 2 m).find? (fun i => isCommand (tt i)) = some 1 :=
    List.find?_cons_of_pos (p := fun i => isCommand (tt i)) _ h1
  rw [e, e2]

/-- When no command token is left after the cursor, `nextCommand()` fails. -/
theorem nextCommand_none (tt : Nat → cmdType) (n pos : Nat)
    (h : ∀ j, pos < j → j ≤ n → isCommand (tt j) = false) :
    nextCommand tt n pos = (false, 0) := by
  unfold nextCommand
  have e : (List.range' (pos + 1) (n - pos)).find? (fun i => isCommand (tt i)) = none := by
    rw [List.find?_eq_none]
    intro j hj
    rw [List.mem_range'_1] at hj
    simp [h j (by omega) (by omega)]
  rw [e]

/-- The function `processInput()` on a line that is one built-in with its argument: the
built-in runs once, no process is launched or waited for. -/
theorem processInput_builtin (env : Env) (fuel : Nat) (sh : Shell)
    (hpos : sh.currentCmdPos = 0)
    (hb : sh.tokenType 1 = BUILTIN ∨ sh.tokenType 1 = BUILTIN_WITH_ARG)
    (hn : 1 ≤ sh.numOfTokens)
    (hrest : ∀ j, 1 < j → j ≤ sh.numOfTokens → isCommand (sh.tokenType j) = false)
    (hf : 2 ≤ fuel) :
    processInput env fuel sh =
      match runBuiltIn env fuel { sh.startLaunch with currentCmdPos := 1 } with
      | Step.running sh2 => Step.running ({ sh2 with currentCmdPos := 0 }.log Event.pipesClosed)
      | other => other := by
  obtain ⟨f, rfl⟩ : ∃ f, fuel = f + 2 := ⟨fuel - 2, by omega⟩
  have hc : isCommand (sh.tokenType 1) = true := by
    rcases hb with h | h <;> simp [isCommand, h]
  have hn1 : nextCommand sh.startLaunch.tokenType sh.startLaunch.numOfTokens
      sh.startLaunch.currentCmdPos = (true, 1) := by
    show nextCommand sh.tokenType sh.numOfTokens sh.currentCmdPos = (true, 1)
    rw [hpos]
    exact nextCommand_first _ _ hc hn
  have hsl := sameLaunch_runBuiltIn env (f + 2) { sh.startLaunch with currentCmdPos := 1 }
  unfold processInput
  rw [launchLoop, hn1]
  simp only []
  rw [if_pos (by exact hb)]
  cases hr : runBuiltIn env (f + 2) { sh.startLaunch with currentCmdPos := 1 } with
  | running sh2 =>
    rw [hr] at hsl
    obtain ⟨e1, e2, e3, e4, _⟩ := hsl
    have e1b : sh2.tokenType = sh.tokenType := e1
    have e2b : sh2.numOfTokens = sh.numOfTokens := e2
    have e3b : sh2.currentCmdPos = 1 := e3
    have e4b : sh2.processCnt = 0 := e4
    simp only []
    rw [launchLoop, e1b, e2b, e3b, nextCommand_none _ _ _ hrest]
    simp only [Shell.log, e4b, List.range_zero, waitLoop]
  | exited st sh2 => simp only []
  | child sh2 => simp only []
  | undefined sh2 => simp only []
  | outOfFuel sh2 => simp only []

/-- The `exit` branch of `runBuiltIn`. -/
theorem runBuiltIn_exit (env : Env) (fuel : Nat) (sh : Shell)
    (h : sh.tokenizedInput 1 = "exit".toList) :
    runBuiltIn env fuel sh =
      if sh.jobs.head ≠ 0 then Step.running (sh.log (Event.print Message.atLeastOneSuspendedJob))
      else Step.exited 0 sh := by
  have h1 : ¬ ("exit".toList = "cd".toList) := by decide
  unfold runBuiltIn
  simp only [h, h1, if_false, if_true]

/-- On `fg`, `runBuiltIn` comes down to its `fg` branch. -/
theorem runBuiltIn_fg (env : Env) (fuel : Nat) (sh : Shell)
    (h : sh.tokenizedInput 1 = "fg".toList) :
    runBuiltIn env fuel sh = runFg env fuel sh (atoi (sh.tokenizedInput 2)) := by
  have h1 : ¬ ("fg".toList = "cd".toList) := by decide
  have h2 : ¬ ("fg".toList = "exit".toList) := by decide
  have h3 : ¬ ("fg".toList = "jobs".toList) := by decide
  unfold runBuiltIn
  simp only [h, h1, h2, h3, if_false, if_true]

/-- An accepted line prints nothing. -/
theorem tokenize_accepted_printed (tt0 : Nat → cmdType) (input : List Char)
    (h : (tokenize tt0 input).ret = true) : (tokenize tt0 input).printed = [] := by
  unfold tokenize at h ⊢
  simp only [] at h ⊢
  split_ifs at h ⊢
  all_goals first
    | (simp at h; done)
    | rfl

/-- The result of `tokenize` on a line that consists of the word `exit` or `jobs`. -/
theorem tokenize_noarg_line (tt0 : Nat → cmdType) (line : List Char) (w : List Char)
    (h0 : tt0 0 = START) (hws : strtokAll line [] = [w])
    (hw : w = "exit".toList ∨ w = "jobs".toList) :
    (tokenize tt0 (line ++ [endOfLine])).ret = true ∧
      (tokenize tt0 (line ++ [endOfLine])).printed = [] ∧
      (tokenize tt0 (line ++ [endOfLine])).numOfTokens = 1 ∧
      (tokenize tt0 (line ++ [endOfLine])).tokenType 1 = BUILTIN ∧
      (tokenize tt0 (line ++ [endOfLine])).tokenizedInput 1 = w := by
  have hdl : (line ++ [endOfLine]).dropLast = line := List.dropLast_concat
  obtain ⟨a1, a2, a3⟩ := tokenizeLoop_noarg tt0 line w h0 hws hw
  have ht : (tokenizeLoop tt0 line).tokenizedInput 1 = w :=
    tokenizeLoop_first_text tt0 line w (by rw [hws]; rfl)
  have hret : (tokenize tt0 (line ++ [endOfLine])).ret = true := by
    rw [tokenize_ret_true, hdl, a2, a3]
    refine ⟨fun _ => rfl, fun hn => absurd (ht ▸ hw) hn, a1, ?_, ?_, ?_, ?_⟩ <;> decide
  refine ⟨hret, tokenize_accepted_printed _ _ hret, ?_, ?_, ?_⟩
  · rw [tokenize_numOfTokens, hdl, a2]
  · rw [tokenize_tokenType, hdl, a3]
  · rw [tokenize_tokenizedInput, hdl, ht]

/-- The result of `tokenize` on a line that consists of `cd` or `fg` and one more word
without reserved characters. -/
theorem tokenize_onearg_line (tt0 : Nat → cmdType) (line : List Char) (w w2 : List Char)
    (h0 : tt0 0 = START) (hws : strtokAll line [] = [w, w2])
    (hw : w = "cd".toList ∨ w = "fg".toList) (hres : hasReserved w2 = false) :
    (tokenize tt0 (line ++ [endOfLine])).ret = true ∧
      (tokenize tt0 (line ++ [endOfLine])).printed = [] ∧
      (tokenize tt0 (line ++ [endOfLine])).numOfTokens = 2 ∧
      (tokenize tt0 (line ++ [endOfLine])).tokenType 1 = BUILTIN_WITH_ARG ∧
      (tokenize tt0 (line ++ [endOfLine])).tokenType 2 = ARG ∧
      (tokenize tt0 (line ++ [endOfLine])).tokenizedInput 1 = w ∧
      (tokenize tt0 (line ++ [endOfLine])).tokenizedInput 2 = w2 := by
  have hdl : (line ++ [endOfLine]).dropLast = line := List.dropLast_concat
  obtain ⟨a1, _, a3⟩ := tokenizeLoop_onearg tt0 line w w2 h0 hws hw
  obtain ⟨b1, b2, b3⟩ := a3 hres
  have ht : (tokenizeLoop tt0 line).tokenizedInput 1 = w :=
    tokenizeLoop_first_text tt0 line w (by rw [hws]; rfl)
  have ht2 : (tokenizeLoop tt0 line).tokenizedInput 2 = w2 := by
    have h1 := textsUpTo_getElem? (tokenizeLoop tt0 line).tokenizedInput
      (tokenizeLoop tt0 line).i 1 (by rw [a1]; decide)
    rw [tokenizeLoop_texts, hws] at h1
    simpa using h1.symm
  have hne : ¬ (w = "exit".toList ∨ w = "jobs".toList) := by
    rcases hw with rfl | rfl <;> decide
  have hret : (tokenize tt0 (line ++ [endOfLine])).ret = true := by
    rw [tokenize_ret_true, hdl, a1, b3, ht]
    refine ⟨fun hn => absurd hn hne, fun _ _ => rfl, b1, ?_, ?_, ?_, ?_⟩ <;> decide
  refine ⟨hret, tokenize_accepted_printed _ _ hret, ?_, ?_, ?_, ?_, ?_⟩
  · rw [tokenize_numOfTokens, hdl, a1]
  · rw [tokenize_tokenType, hdl, b2]
  · rw [tokenize_tokenType, hdl, b3]
  · rw [tokenize_tokenizedInput, hdl, ht]
  · rw [tokenize_tokenizedInput, hdl, ht2]

/-- A round of `main` on an accepted line whose first token is a built-in: the
built-in runs once, between the creation and the closing of the pipes. -/
theorem mainIteration_builtin (env : Env) (fuel : Nat) (sh : Shell) (input : List Char)
    (hret : (tokenize sh.tokenType input).ret = true) (hpos : sh.currentCmdPos = 0)
    (hb : (tokenize sh.tokenType input).tokenType 1 = BUILTIN ∨
      (tokenize sh.tokenType input).tokenType 1 = BUILTIN_WITH_ARG)
    (hn : 1 ≤ (tokenize sh.tokenType input).numOfTokens)
    (hrest : ∀ j, 1 < j → j ≤ (tokenize sh.tokenType input).numOfTokens →
      isCommand ((tokenize sh.tokenType input).tokenType j) = false)
    (hf : 2 ≤ fuel) :
    mainIteration env fuel sh input =
      match runBuiltIn env fuel
        { (sh.afterTokenize (tokenize sh.tokenType input)).startLaunch with
          currentCmdPos := 1 } with
      | Step.running sh2 => Step.running ({ sh2 with currentCmdPos := 0 }.log Event.pipesClosed)
      | other => other := by
  unfold mainIteration
  simp only [hret, if_true]
  exact processInput_builtin env fuel _ hpos hb hn hrest hf

/-- The pointer `head` is `NULL` exactly when the table holds no job. -/
theorem jobList_head_zero (t : JobTable) (L : List (Nat × suspendedJobs)) (h : JobList t L) :
    t.head = 0 ↔ L = [] := by
  cases L with
  | nil =>
    have : t.head = 0 := h.1
    simp [this]
  | cons x L =>
    have := seg_firstAddr_ne_zero _ _ _ _ _ h.1
    simp [this]

/-- C15: on the line `exit` (the one word `exit`, the only form `tokenize` accepts), the
round of `main` ends with `exit(EXIT_SUCCESS)` when the job table is empty; when at
least one job is suspended it prints the error, does not terminate, returns to the
loop of `main` and leaves the job table unchanged.  The process terminates if and only
if the table is empty. -/
theorem C15_exit_builtin (env : Env) (fuel : Nat) (sh : Shell) (line : List Char)
    (L : List (Nat × suspendedJobs))
    (h0 : sh.tokenType 0 = START) (hpos : sh.currentCmdPos = 0)
    (hws : strtokAll line [] = ["exit".toList]) (hJ : JobList sh.jobs L) (hf : 2 ≤ fuel) :
    (L = [] → ∃ sh1, mainIteration env fuel sh (line ++ [endOfLine]) = Step.exited 0 sh1 ∧
      sh1.jobs = sh.jobs) ∧
    (L ≠ [] → ∃ sh1, mainIteration env fuel sh (line ++ [endOfLine]) = Step.running sh1 ∧
      sh1.jobs = sh.jobs ∧
      sh1.trace = sh.trace ++ [Event.pipesCreated,
        Event.print Message.atLeastOneSuspendedJob, Event.pipesClosed]) ∧
    ((∃ status sh1, mainIteration env fuel sh (line ++ [endOfLine]) =
      Step.exited status sh1) ↔ L = []) := by
  obtain ⟨t1, t2, t3, t4, t5⟩ := tokenize_noarg_line sh.tokenType line "exit".toList h0 hws
    (Or.inl rfl)
  have hm := mainIteration_builtin env fuel sh (line ++ [endOfLine]) t1 hpos (Or.inl t4)
    (by rw [t3]) (by intro j h1 h2; rw [t3] at h2; omega) hf
  have hx := runBuiltIn_exit env fuel
    { (sh.afterTokenize (tokenize sh.tokenType (line ++ [endOfLine]))).startLaunch with
      currentCmdPos := 1 } t5
  rw [hx] at hm
  have hhead := jobList_head_zero sh.jobs L hJ
  have hempty : L = [] → ∃ sh1, mainIteration env fuel sh (line ++ [endOfLine]) =
      Step.exited 0 sh1 ∧ sh1.jobs = sh.jobs := by
    intro hL
    have hh : sh.jobs.head = 0 := hhead.2 hL
    rw [if_neg (by simpa using hh)] at hm
    exact ⟨_, hm, rfl⟩
  have hfull : L ≠ [] → ∃ sh1, mainIteration env fuel sh (line ++ [endOfLine]) =
      Step.running sh1 ∧ sh1.jobs = sh.jobs ∧
      sh1.trace = sh.trace ++ [Event.pipesCreated,
        Event.print Message.atLeastOneSuspendedJob, Event.pipesClosed] := by
    intro hL
    have hh : sh.jobs.head ≠ 0 := fun h => hL (hhead.1 h)
    rw [if_pos (by simpa using hh)] at hm
    refine ⟨_, hm, rfl, ?_⟩
    simp [Shell.log, Shell.startLaunch, Shell.afterTokenize, t2]
  refine ⟨hempty, hfull, ?_⟩
  constructor
  · rintro ⟨status, sh1, he⟩
    by_contra hL
    obtain ⟨sh2, h2, _⟩ := hfull hL
    rw [h2] at he
    cases he
  · intro hL
    obtain ⟨sh1, h1, _⟩ := hempty hL
    exact ⟨0, sh1, h1⟩

/-- C15 at program start (empty table: the shell exits with status 0) and with the three
jobs of `threeJobs` suspended (the shell goes on). -/
theorem C15_exit_builtin_witness :
    (∃ sh1, mainIteration quietEnv 2 initialShell ("exit".toList ++ [endOfLine]) =
        Step.exited 0 sh1 ∧ sh1.jobs = initialShell.jobs) ∧
    (∃ sh1, mainIteration quietEnv 2 threeJobsShell (" exit ".toList ++ [endOfLine]) =
        Step.running sh1 ∧ sh1.jobs = threeJobsShell.jobs ∧
        sh1.trace = threeJobsShell.trace ++ [Event.pipesCreated,
          Event.print Message.atLeastOneSuspendedJob, Event.pipesClosed]) :=
  ⟨(C15_exit_builtin quietEnv 2 initialShell "exit".toList [] rfl rfl (by decide)
      jobList_empty (by decide)).1 rfl,
   (C15_exit_builtin quietEnv 2 threeJobsShell " exit ".toList threeJobsList rfl rfl
      (by decide) threeJobs_jobList (by decide)).2.1 (by simp [threeJobsList])⟩

/-! ## The `fg` built-in: lemmas -/

theorem waitsIn_append (tr1 tr2 : List Event) :
    waitsIn (tr1 ++ tr2) = waitsIn tr1 + waitsIn tr2 := by
  unfold waitsIn
  rw [List.countP_append]

/-- Sending the continue signals does not touch the job table and waits for nothing. -/
theorem continueAll_frame (env : Env) (l : List Int) :
    ∀ (sh : Shell), (continueAll env sh l).jobs = sh.jobs ∧
      waitsIn (continueAll env sh l).trace = waitsIn sh.trace := by
  induction l with
  | nil => intro sh; exact ⟨rfl, rfl⟩
  | cons p rest ih =>
    intro sh
    unfold continueAll
    simp only []
    split
    · obtain ⟨a, b⟩ := ih ((sh.log (Event.kill p)).log (Event.print (Message.signalError p)))
      refine ⟨a, ?_⟩
      rw [b]
      simp [Shell.log, waitsIn_append, waitsIn]
    · obtain ⟨a, b⟩ := ih (sh.log (Event.kill p))
      refine ⟨a, ?_⟩
      rw [b]
      simp [Shell.log, waitsIn_append, waitsIn]

/-- The waiting loop of `fg` when every wait returns the process it was asked about:
the loop runs to its end, the job table is untouched, and `resumed` is set exactly when
the first process of the job (at `i = 0`) is reported as stopped. -/
theorem waitAllFg_ownpid (env : Env) (hown : ∀ tr p, (env.waitpid tr p).1 = p)
    (l : List Int) :
    ∀ (sh : Shell) (i : Nat) (r : Bool),
      ∃ sh3, waitAllFg env sh i r l =
          (Step.running sh3,
            r || (decide (i = 0) &&
              (match l with
                | [] => false
                | p :: _ => decide ((env.waitpid sh.trace p).2 = WaitStatus.stopped)))) ∧
        sh3.jobs = sh.jobs := by
  induction l with
  | nil => intro sh i r; exact ⟨sh, by simp [waitAllFg], rfl⟩
  | cons p rest ih =>
    intro sh i r
    unfold waitAllFg
    simp only [hown, ne_eq, not_true_eq_false, if_false]
    by_cases hc : i = 0 ∧ (env.waitpid sh.trace p).2 = WaitStatus.stopped
    · rw [if_pos hc]
      obtain ⟨sh3, e1, e2⟩ := ih ((sh.log (Event.waitpid p)).log (Event.print Message.newline))
        (i + 1) true
      refine ⟨sh3, ?_, e2⟩
      rw [e1]
      simp [hc.1, hc.2]
    · rw [if_neg hc]
      obtain ⟨sh3, e1, e2⟩ := ih (sh.log (Event.waitpid p)) (i + 1) r
      refine ⟨sh3, ?_, e2⟩
      rw [e1]
      by_cases hi : i = 0
      · have : ¬ (env.waitpid sh.trace p).2 = WaitStatus.stopped := fun h => hc ⟨hi, h⟩
        simp [hi, this]
      · simp [hi]

/-- Looking up the id of a job in a densely numbered table finds the node at that
position. -/
theorem dense_search (t : JobTable) (L : List (Nat × suspendedJobs)) (k : Int) (fuel : Nat)
    (h : JobList t L) (hd : jobIds L = denseIds L.length) (hf : L.length < fuel)
    (hk1 : 1 ≤ k) (hk2 : k ≤ L.length) :
    ∃ d dn, L[k.toNat - 1]? = some (d, dn) ∧ dn.jobNum = k ∧ d ≠ 0 ∧
      load t.mem d = some dn ∧
      searchJob fuel t k = some (d, some (lastAddr (L.take (k.toNat - 1)))) := by
  obtain ⟨A, d, dn, B, hL, hA, hB, hAl, hdk, hne⟩ := dense_locate L k hd hk1 hk2
  have hJ := h
  rw [hL] at hJ
  obtain ⟨s1, s2, s3⟩ := searchJob_found t A B d dn k fuel hJ hne hdk
    (by have : L.length = A.length + (B.length + 1) := by rw [hL]; simp
        omega)
  refine ⟨d, dn, ?_, hdk, s2, s3, by rw [← hA]; exact s1⟩
  rw [hL, ← hAl, List.getElem?_append_right (le_refl _)]
  simp

/-- The `fg` branch on the id of a job, when every wait returns the process it was
asked about: the job is woken up and waited for; it is kept when its first process is
reported as stopped and handed to `deleteJob` otherwise. -/
theorem runFg_valid (env : Env) (hown : ∀ tr p, (env.waitpid tr p).1 = p) (fuel : Nat)
    (sh : Shell) (k : Int) (L : List (Nat × suspendedJobs)) (hJ : JobList sh.jobs L)
    (hd : jobIds L = denseIds L.length) (hk1 : 1 ≤ k) (hk2 : k ≤ L.length)
    (hf : L.length < fuel) :
    ∃ d dn sh3, L[k.toNat - 1]? = some (d, dn) ∧ sh3.jobs = sh.jobs ∧
      runFg env fuel sh k =
        if livePids dn.pid ≠ [] ∧
            (env.waitpid (continueAll env
              (sh.log (Event.print (Message.jobWakeUp dn.jobName))) (livePids dn.pid)).trace
              ((livePids dn.pid).headD 0)).2 = WaitStatus.stopped then Step.running sh3
        else
          match deleteJob fuel sh.jobs k with
          | none => Step.undefined sh3
          | some (t, _) => Step.running { sh3 with jobs := t } := by
  obtain ⟨d, dn, e1, e2, e3, e4, e5⟩ := dense_search sh.jobs L k fuel hJ hd hf hk1 hk2
  have hhc := dense_head_curr sh.jobs L hJ hd
  have hpos : 0 < L.length := by omega
  have hh : sh.jobs.head ≠ 0 := fun h => by
    have := hhc.1.1 h
    omega
  have hlast := (hhc.2 hpos).2
  obtain ⟨sh3, w1, w2⟩ := waitAllFg_ownpid env hown (livePids dn.pid)
    (continueAll env (sh.log (Event.print (Message.jobWakeUp dn.jobName))) (livePids dn.pid))
    0 false
  have w3 : sh3.jobs = sh.jobs := by
    rw [w2, (continueAll_frame env _ _).1]
    rfl
  refine ⟨d, dn, sh3, e1, w3, ?_⟩
  unfold runFg
  rw [if_neg hh, if_neg (by omega)]
  cases hl : load sh.jobs.mem sh.jobs.curr with
  | none => rw [hl] at hlast; simp at hlast
  | some last =>
    rw [hl] at hlast
    simp only [Option.map_some', Option.some.injEq] at hlast
    simp only []
    rw [if_neg (by omega), e5]
    simp only [e4, w1]
    rw [w3]
    cases hdj : deleteJob fuel sh.jobs k with
    | none =>
      cases hlp : livePids dn.pid with
      | nil => simp
      | cons p rest => simp
    | some res =>
      obtain ⟨t, b⟩ := res
      cases hlp : livePids dn.pid with
      | nil => simp
      | cons p rest => simp

/-- The state in which `runBuiltIn` is entered on an accepted line of the form
`fg <word>`: what it holds of the tokens, the job table and the events. -/
theorem mainIteration_fg (env : Env) (fuel : Nat) (sh : Shell) (line w : List Char)
    (h0 : sh.tokenType 0 = START) (hpos : sh.currentCmdPos = 0)
    (hws : strtokAll line [] = ["fg".toList, w]) (hres : hasReserved w = false)
    (hf : 2 ≤ fuel) :
    ∃ sh0 : Shell, sh0.jobs = sh.jobs ∧ sh0.trace = sh.trace ++ [Event.pipesCreated] ∧
      mainIteration env fuel sh (line ++ [endOfLine]) =
        match runFg env fuel sh0 (atoi w) with
        | Step.running sh2 =>
          Step.running ({ sh2 with currentCmdPos := 0 }.log Event.pipesClosed)
        | other => other := by
  obtain ⟨t1, t2, t3, t4, t5, t6, t7⟩ :=
    tokenize_onearg_line sh.tokenType line "fg".toList w h0 hws (Or.inr rfl) hres
  have hm := mainIteration_builtin env fuel sh (line ++ [endOfLine]) t1 hpos (Or.inr t4)
    (by rw [t3]; decide)
    (by intro j h1 h2
        rw [t3] at h2
        have : j = 2 := by omega
        rw [this, t5]
        rfl) hf
  have hx := runBuiltIn_fg env fuel
    { (sh.afterTokenize (tokenize sh.tokenType (line ++ [endOfLine]))).startLaunch with
      currentCmdPos := 1 } t6
  rw [hx] at hm
  refine ⟨{ (sh.afterTokenize (tokenize sh.tokenType (line ++ [endOfLine]))).startLaunch with
            currentCmdPos := 1 }, rfl, ?_, ?_⟩
  · simp [Shell.startLaunch, Shell.afterTokenize, t2]
  · rw [hm]
    have e : ({ (sh.afterTokenize (tokenize sh.tokenType (line ++ [endOfLine]))).startLaunch with
        currentCmdPos := 1 } : Shell).tokenizedInput 2 = w := t7
    rw [e]

/-- A table holds one list of nodes only. -/
theorem jobList_unique (t : JobTable) (L1 L2 : List (Nat × suspendedJobs))
    (h1 : JobList t L1) (h2 : JobList t L2) : L1 = L2 := by
  have a := listJobs_of_seg t.mem L1 t.head (L1.length + L2.length + 1) h1.1 (by omega)
  have b := listJobs_of_seg t.mem L2 t.head (L1.length + L2.length + 1) h2.1 (by omega)
  rw [a] at b
  exact Option.some.inj b

/-- In a scripted environment every wait returns the process it was asked about. -/
theorem scriptedEnv_own (base : Env) (start : Nat) (outcomes : List WaitStatus) :
    ∀ tr p, ((scriptedEnv base start outcomes).waitpid tr p).1 = p :=
  fun _ _ => rfl

/-- The first scripted wait reports the first status of the vector. -/
theorem scriptedEnv_status (base : Env) (start : Nat) (outcomes : List WaitStatus)
    (tr : List Event) (p : Int) (h : waitsIn tr = start) :
    ((scriptedEnv base start outcomes).waitpid tr p).2 = WaitStatus.stopped ↔
      outcomes.head? = some WaitStatus.stopped := by
  show outcomes.getD (waitsIn tr - start) WaitStatus.exited = WaitStatus.stopped ↔ _
  rw [h, Nat.sub_self]
  cases outcomes with
  | nil => simp
  | cons o rest => simp

/-- The call `deleteJob(k)` on a densely numbered table, for the id of a job. -/
theorem deleteJob_dense (t : JobTable) (L : List (Nat × suspendedJobs))
    (k : Int) (fuel : Nat) (h : JobList t L) (hd : jobIds L = denseIds L.length)
    (hk1 : 1 ≤ k) (hk2 : k ≤ L.length) (hf : L.length < fuel) :
    ∃ t1 L1 d dn, L[k.toNat - 1]? = some (d, dn) ∧
      deleteJob fuel t k = some (t1, false) ∧ JobList t1 L1 ∧
      L1.length = L.length - 1 ∧
      jobPayload L1 = (jobPayload L).eraseIdx (k.toNat - 1) ∧
      jobIds L1 = denseIds (L.length - 1) ∧ t1.mem d = none := by
  obtain ⟨A, d, dn, B, hL, hA, hB, hAl, hdk, hne⟩ := dense_locate L k hd hk1 hk2
  have hLl : L.length = A.length + (B.length + 1) := by rw [hL]; simp
  have hJ := h
  have hd2 := hd
  rw [hL] at hJ hd2
  obtain ⟨t1, h1, h2, h3⟩ := deleteJob_spec t A B d dn k fuel hJ hne hdk
    (by rw [← hL]; exact hf)
  have hlen : (setLastNext A dn.next ++ B.map decNode).length = L.length - 1 := by
    rw [hLl]; simp [setLastNext_length]
  have hdense := dense_delete A B (d, dn) dn.next hd2
  rw [hlen] at hdense
  refine ⟨t1, setLastNext A dn.next ++ B.map decNode, d, dn, ?_, h1, h2, hlen, ?_, hdense, h3⟩
  · rw [hL, ← hAl, List.getElem?_append_right (le_refl _)]
    simp
  · have e1 : (jobPayload L).take (k.toNat - 1) = jobPayload A := by
      rw [hA]; simp [jobPayload, List.map_take]
    have e2 : (jobPayload L).drop (k.toNat - 1 + 1) = jobPayload B := by
      rw [hB]; simp [jobPayload, List.map_drop]
    rw [List.eraseIdx_eq_take_drop_succ, e1, e2, jobPayload_append, setLastNext_payload,
      jobPayload_decNode]

/-- C13, amended: on an accepted line `fg <word>` whose value `atoi w` is the id of a job,
for every vector of wait outcomes (each wait returning its own process), the shell
wakes the job up, waits for its non-zero process handles and returns to the loop of
`main`; the job table is left unchanged if and only if the first process of the job
was reported as stopped, and otherwise the job is deleted by `deleteJob`: the other
jobs remain, in order, renumbered `1..N-1`.  Outcomes of the second and third
process have no influence. -/
theorem C13_fg_completion (base : Env) (outcomes : List WaitStatus) (fuel : Nat) (sh : Shell)
    (line w : List Char) (L : List (Nat × suspendedJobs))
    (h0 : sh.tokenType 0 = START) (hpos : sh.currentCmdPos = 0)
    (hws : strtokAll line [] = ["fg".toList, w]) (hres : hasReserved w = false)
    (hJ : JobList sh.jobs L) (hd : jobIds L = denseIds L.length)
    (hk1 : 1 ≤ atoi w) (hk2 : atoi w ≤ L.length) (hf : L.length + 2 ≤ fuel) :
    ∃ d dn sh1, L[(atoi w).toNat - 1]? = some (d, dn) ∧
      mainIteration (scriptedEnv base (waitsIn sh.trace) outcomes) fuel sh
        (line ++ [endOfLine]) = Step.running sh1 ∧
      ((livePids dn.pid ≠ [] ∧ outcomes.head? = some WaitStatus.stopped) →
        sh1.jobs = sh.jobs) ∧
      (¬ (livePids dn.pid ≠ [] ∧ outcomes.head? = some WaitStatus.stopped) →
        deleteJob fuel sh.jobs (atoi w) = some (sh1.jobs, false) ∧
        sh1.jobs.mem d = none ∧
        ∃ L1, JobList sh1.jobs L1 ∧ L1.length = L.length - 1 ∧
          jobPayload L1 = (jobPayload L).eraseIdx ((atoi w).toNat - 1) ∧
          jobIds L1 = denseIds (L.length - 1)) ∧
      (JobList sh1.jobs L ↔
        (livePids dn.pid ≠ [] ∧ outcomes.head? = some WaitStatus.stopped)) := by
  obtain ⟨sh0, a1, a2, a3⟩ := mainIteration_fg (scriptedEnv base (waitsIn sh.trace) outcomes)
    fuel sh line w h0 hpos hws hres (by omega)
  obtain ⟨d, dn, sh3, b1, b2, b3⟩ := runFg_valid (scriptedEnv base (waitsIn sh.trace) outcomes)
    (scriptedEnv_own _ _ _) fuel sh0 (atoi w) L (by rw [a1]; exact hJ) hd hk1 hk2 (by omega)
  have hst := scriptedEnv_status base (waitsIn sh.trace) outcomes
    (continueAll (scriptedEnv base (waitsIn sh.trace) outcomes)
      (sh0.log (Event.print (Message.jobWakeUp dn.jobName))) (livePids dn.pid)).trace
    ((livePids dn.pid).headD 0)
    (by rw [(continueAll_frame _ _ _).2]
        simp [Shell.log, a2, waitsIn_append, waitsIn])
  obtain ⟨t1, L1, d1, dn1, c0, c1, c2, c3, c4, c5, c6⟩ :=
    deleteJob_dense sh.jobs L (atoi w) fuel hJ hd hk1 hk2 (by omega)
  rw [b1] at c0
  simp only [Option.some.injEq, Prod.mk.injEq] at c0
  obtain ⟨rfl, rfl⟩ := c0
  rw [a1, c1] at b3
  by_cases hlead : livePids dn.pid ≠ [] ∧ outcomes.head? = some WaitStatus.stopped
  · rw [if_pos ⟨hlead.1, hst.2 hlead.2⟩] at b3
    rw [b3] at a3
    refine ⟨_, _, _, b1, a3, fun _ => b2.trans a1, fun hn => absurd hlead hn, ?_⟩
    exact ⟨fun _ => hlead, fun _ => by
      show JobList sh3.jobs L
      rw [b2, a1]; exact hJ⟩
  · rw [if_neg (fun hc => hlead ⟨hc.1, hst.1 hc.2⟩)] at b3
    rw [b3] at a3
    refine ⟨_, _, _, b1, a3, fun hl => absurd hl hlead,
      fun _ => ⟨c1, c6, L1, c2, c3, c4, c5⟩, ?_⟩
    constructor
    · intro hJL
      have hJL2 : JobList t1 L := hJL
      have := jobList_unique t1 L L1 hJL2 c2
      rw [← this] at c3
      omega
    · intro hl
      exact absurd hl hlead

/-- C13, as stated, fails: job 2 of `threeJobs` has the processes 21 and 22; during
`fg 2` the wait for 21 reports `exited` and the wait for 22 reports `stopped`, and the
job is deleted all the same (`resumed` is only set for `i == 0`). -/
theorem C13_counterexample :
    (mainIteration (scriptedEnv quietEnv 0 [WaitStatus.exited, WaitStatus.stopped]) 5
        threeJobsShell ("fg 2".toList ++ [endOfLine])).shell.trace =
      [Event.pipesCreated, Event.print (Message.jobWakeUp ['b']), Event.kill 21,
        Event.kill 22, Event.waitpid 21, Event.waitpid 22, Event.pipesClosed] ∧
    (scriptedEnv quietEnv 0 [WaitStatus.exited, WaitStatus.stopped]).waitpid
        [Event.pipesCreated, Event.print (Message.jobWakeUp ['b']), Event.kill 21,
          Event.kill 22, Event.waitpid 21] 22 = (22, WaitStatus.stopped) ∧
    listJobs threeJobs.mem 4 threeJobs.head = some threeJobsList ∧
    listJobs (mainIteration (scriptedEnv quietEnv 0 [WaitStatus.exited, WaitStatus.stopped]) 5
        threeJobsShell ("fg 2".toList ++ [endOfLine])).shell.jobs.mem 4
      (mainIteration (scriptedEnv quietEnv 0 [WaitStatus.exited, WaitStatus.stopped]) 5
        threeJobsShell ("fg 2".toList ++ [endOfLine])).shell.jobs.head =
      some [(5, { jobNum := 1, pid := (11, 0, 0), jobName := ['a'], next := 9 }),
            (9, { jobNum := 2, pid := (31, 0, 0), jobName := ['c'], next := 0 })] := by
  decide

/-- C13, amended, on `fg 2` with the three jobs of `threeJobs`: the job is kept when its
first process stops again and deleted when only its second process does. -/
theorem C13_fg_completion_witness :
    (∃ sh1, mainIteration (scriptedEnv quietEnv 0 [WaitStatus.stopped, WaitStatus.exited]) 5
        threeJobsShell ("fg 2".toList ++ [endOfLine]) = Step.running sh1 ∧
      sh1.jobs = threeJobsShell.jobs) ∧
    (∃ sh1, mainIteration (scriptedEnv quietEnv 0 [WaitStatus.exited, WaitStatus.stopped]) 5
        threeJobsShell ("fg 2".toList ++ [endOfLine]) = Step.running sh1 ∧
      deleteJob 5 threeJobs 2 = some (sh1.jobs, false)) := by
  have hnode : threeJobsList[(atoi "2".toList).toNat - 1]? =
      some (7, { jobNum := 2, pid := (21, 22, 0), jobName := ['b'], next := 9 }) := by
    decide
  constructor
  · obtain ⟨d, dn, sh1, e1, e2, e3, _, _⟩ :=
      C13_fg_completion quietEnv [WaitStatus.stopped, WaitStatus.exited] 5 threeJobsShell
        "fg 2".toList "2".toList threeJobsList rfl rfl (by decide) (by decide)
        threeJobs_jobList threeJobs_dense (by decide) (by decide) (by decide)
    rw [hnode] at e1
    simp only [Option.some.injEq, Prod.mk.injEq] at e1
    obtain ⟨_, rfl⟩ := e1
    exact ⟨sh1, e2, e3 ⟨by decide, rfl⟩⟩
  · obtain ⟨d, dn, sh1, e1, e2, _, e4, _⟩ :=
      C13_fg_completion quietEnv [WaitStatus.exited, WaitStatus.stopped] 5 threeJobsShell
        "fg 2".toList "2".toList threeJobsList rfl rfl (by decide) (by decide)
        threeJobs_jobList threeJobs_dense (by decide) (by decide) (by decide)
    exact ⟨sh1, e2, (e4 (fun h => by simp at h)).1⟩

/-! ## History independence of the classifier: lemmas -/

/-- An iteration of the loop keeps two runs on the same line in step: stale kinds are
only read once `invalidInput` is set. -/
theorem sameRun_step (s1 s2 : TokState) (w : List Char) (h : SameRun s1 s2) :
    SameRun (tokenizeStep s1 w) (tokenizeStep s2 w) := by
  obtain ⟨hi, ht, hv, hrest⟩ := h
  have htext : (tokenizeStep s1 w).tokenizedInput = (tokenizeStep s2 w).tokenizedInput := by
    funext j
    rw [tokenizeStep_text, tokenizeStep_text, hi, ht]
  cases hinv : s1.invalidInput with
  | true =>
    have h1 := tokenizeStep_invalid_of_invalid s1 w hinv
    have h2 := tokenizeStep_invalid_of_invalid s2 w (hv ▸ hinv)
    refine ⟨by rw [tokenizeStep_i, tokenizeStep_i, hi], htext, by rw [h1, h2], ?_⟩
    intro hf
    rw [h1] at hf
    cases hf
  | false =>
    obtain ⟨hp, hr, hk⟩ := hrest hinv
    have hinv2 : s2.invalidInput = false := hv ▸ hinv
    have hc : classify (s2.tokenType s2.i) s2.piped s2.redirected w =
        classify (s1.tokenType s1.i) s1.piped s1.redirected w := by
      rw [← hp, ← hr, ← hi, hk s1.i (le_refl _)]
    cases hcl : classify (s1.tokenType s1.i) s1.piped s1.redirected w with
    | none =>
      rw [hcl] at hc
      rw [tokenizeStep_none s1 w hcl, tokenizeStep_none s2 w hc]
      refine ⟨by simp [hi], by simp [hi, ht], rfl, ?_⟩
      intro hf
      cases hf
    | some k =>
      rw [hcl] at hc
      rw [tokenizeStep_some s1 w k hcl, tokenizeStep_some s2 w k hc]
      refine ⟨by simp [hi], by simp [hi, ht], by simp [hinv, hinv2], ?_⟩
      intro _
      refine ⟨by simp [hp], by simp [hr], ?_⟩
      intro j hj
      simp only [] at hj ⊢
      rw [← hi]
      by_cases hj1 : j = s1.i + 1
      · simp [hj1]
      · simp only [hj1, if_false]
        exact hk j (by omega)

theorem sameRun_foldl (ws : List (List Char)) :
    ∀ (s1 s2 : TokState), SameRun s1 s2 →
      SameRun (ws.foldl tokenizeStep s1) (ws.foldl tokenizeStep s2) := by
  induction ws with
  | nil => intro s1 s2 h; exact h
  | cons w ws ih => intro s1 s2 h; exact ih _ _ (sameRun_step s1 s2 w h)

/-- The loops started on two contents of `tokenType` with `tokenType[0] = START`. -/
theorem sameRun_loop (tt1 tt2 : Nat → cmdType) (line : List Char)
    (h1 : tt1 0 = START) (h2 : tt2 0 = START) :
    SameRun (tokenizeLoop tt1 line) (tokenizeLoop tt2 line) := by
  unfold tokenizeLoop
  apply sameRun_foldl
  refine ⟨rfl, rfl, rfl, fun _ => ⟨rfl, rfl, ?_⟩⟩
  intro j hj
  have : j = 0 := by simpa [tokenizeInit] using hj
  subst this
  show tt1 0 = tt2 0
  rw [h1, h2]

/-- C19: for every line and every two contents of the global `tokenType` on entry, both
with `tokenType[0] = START`, `tokenize` returns the same verdict, prints the same
message, counts the same tokens and stores the same texts; and when the line is
accepted it leaves the same kinds in `tokenType[0..numOfTokens]`. -/
theorem C19_history_independence (tt1 tt2 : Nat → cmdType) (input : List Char)
    (h1 : tt1 0 = START) (h2 : tt2 0 = START) :
    (tokenize tt1 input).ret = (tokenize tt2 input).ret ∧
    (tokenize tt1 input).printed = (tokenize tt2 input).printed ∧
    (tokenize tt1 input).numOfTokens = (tokenize tt2 input).numOfTokens ∧
    (tokenize tt1 input).tokenizedInput = (tokenize tt2 input).tokenizedInput ∧
    (tokenize tt1 input).inputStringBackup = (tokenize tt2 input).inputStringBackup ∧
    ((tokenize tt1 input).ret = true →
      ∀ j, j ≤ (tokenize tt1 input).numOfTokens →
        (tokenize tt1 input).tokenType j = (tokenize tt2 input).tokenType j) := by
  obtain ⟨hi, ht, hv, hrest⟩ := sameRun_loop tt1 tt2 input.dropLast h1 h2
  have hcond : (tokenizeLoop tt1 input.dropLast).invalidInput = false →
      (tokenizeLoop tt1 input.dropLast).tokenType (tokenizeLoop tt1 input.dropLast).i =
        (tokenizeLoop tt2 input.dropLast).tokenType (tokenizeLoop tt2 input.dropLast).i := by
    intro hf
    rw [← hi]
    exact (hrest hf).2.2 _ (le_refl _)
  have hbad : ((tokenizeLoop tt1 input.dropLast).invalidInput = true ∨
        (tokenizeLoop tt1 input.dropLast).tokenType (tokenizeLoop tt1 input.dropLast).i =
          REDIR_IN ∨
        (tokenizeLoop tt1 input.dropLast).tokenType (tokenizeLoop tt1 input.dropLast).i =
          REDIR_OUT ∨
        (tokenizeLoop tt1 input.dropLast).tokenType (tokenizeLoop tt1 input.dropLast).i =
          PIPE ∨
        (tokenizeLoop tt1 input.dropLast).tokenType (tokenizeLoop tt1 input.dropLast).i =
          BUILTIN_WITH_ARG) ↔
      ((tokenizeLoop tt2 input.dropLast).invalidInput = true ∨
        (tokenizeLoop tt2 input.dropLast).tokenType (tokenizeLoop tt2 input.dropLast).i =
          REDIR_IN ∨
        (tokenizeLoop tt2 input.dropLast).tokenType (tokenizeLoop tt2 input.dropLast).i =
          REDIR_OUT ∨
        (tokenizeLoop tt2 input.dropLast).tokenType (tokenizeLoop tt2 input.dropLast).i =
          PIPE ∨
        (tokenizeLoop tt2 input.dropLast).tokenType (tokenizeLoop tt2 input.dropLast).i =
          BUILTIN_WITH_ARG) := by
    cases hinv : (tokenizeLoop tt1 input.dropLast).invalidInput with
    | true => simp [← hv, hinv]
    | false => rw [← hv, hinv, ← hcond hinv]
  have hboth : (tokenize tt1 input).ret = (tokenize tt2 input).ret ∧
      (tokenize tt1 input).printed = (tokenize tt2 input).printed := by
    unfold tokenize
    simp only []
    generalize tokenizeLoop tt1 input.dropLast = s1 at hi ht hbad ⊢
    generalize tokenizeLoop tt2 input.dropLast = s2 at hi ht hbad ⊢
    rw [← hi] at hbad ⊢
    rw [← ht]
    by_cases hb : s1.invalidInput = true ∨ s1.tokenType s1.i = REDIR_IN ∨
        s1.tokenType s1.i = REDIR_OUT ∨ s1.tokenType s1.i = PIPE ∨
        s1.tokenType s1.i = BUILTIN_WITH_ARG
    · rw [if_pos hb, if_pos (hbad.1 hb)]
      split_ifs <;> exact ⟨rfl, rfl⟩
    · rw [if_neg hb, if_neg (fun h => hb (hbad.2 h))]
      split_ifs <;> exact ⟨rfl, rfl⟩
  refine ⟨hboth.1, hboth.2, ?_, ?_, ?_, ?_⟩
  · rw [tokenize_numOfTokens, tokenize_numOfTokens, hi]
  · rw [tokenize_tokenizedInput, tokenize_tokenizedInput, ht]
  · rw [tokenize_inputStringBackup, tokenize_inputStringBackup]
  · intro hacc j hj
    rw [tokenize_ret_true] at hacc
    rw [tokenize_numOfTokens] at hj
    rw [tokenize_tokenType, tokenize_tokenType]
    exact (hrest hacc.2.2.1).2.2 j hj

/-- C19 with `tokenType` as at program start and with `tokenType` full of stale `PIPE`
kinds: the rejected line `a * b` (after the invalid word `*` the stale kind in
`tokenType[2]` is read) and the accepted line `ls -l | wc`. -/
theorem C19_history_independence_witness :
    (freshTokenType 0 = START ∧ (fun j => if j = 0 then START else PIPE) 0 = START) ∧
    ((tokenize freshTokenType ("a * b".toList ++ [endOfLine])).ret =
        (tokenize (fun j => if j = 0 then START else PIPE) ("a * b".toList ++ [endOfLine])).ret ∧
      (tokenize freshTokenType ("a * b".toList ++ [endOfLine])).printed =
        (tokenize (fun j => if j = 0 then START else PIPE)
          ("a * b".toList ++ [endOfLine])).printed) ∧
    ((tokenize freshTokenType ("ls -l | wc".toList ++ [endOfLine])).ret = true ∧
      ∀ j, j ≤ (tokenize freshTokenType ("ls -l | wc".toList ++ [endOfLine])).numOfTokens →
        (tokenize freshTokenType ("ls -l | wc".toList ++ [endOfLine])).tokenType j =
          (tokenize (fun j => if j = 0 then START else PIPE)
            ("ls -l | wc".toList ++ [endOfLine])).tokenType j) :=
  ⟨⟨rfl, rfl⟩,
   ⟨(C19_history_independence freshTokenType (fun j => if j = 0 then START else PIPE)
      ("a * b".toList ++ [endOfLine]) rfl rfl).1,
    (C19_history_independence freshTokenType (fun j => if j = 0 then START else PIPE)
      ("a * b".toList ++ [endOfLine]) rfl rfl).2.1⟩,
   ⟨by decide,
    (C19_history_independence freshTokenType (fun j => if j = 0 then START else PIPE)
      ("ls -l | wc".toList ++ [endOfLine]) rfl rfl).2.2.2.2.2 (by decide)⟩⟩

/-! ## The number of tokens of a line -/

/-- A line of `n` characters has at most `(n + 1) / 2` words. -/
theorem strtokAll_length_bound (l : List Char) :
    ∀ cur : List Char,
      (cur = [] → 2 * (strtokAll l cur).length ≤ l.length + 1) ∧
      (cur ≠ [] → 2 * (strtokAll l cur).length ≤ l.length + 2) := by
  induction l with
  | nil =>
    intro cur
    constructor
    · intro h; simp [strtokAll, h]
    · intro h; simp [strtokAll, h]
  | cons c cs ih =>
    intro cur
    by_cases hc : c = ' '
    · constructor
      · intro h
        have := (ih []).1 rfl
        simp only [strtokAll, hc, h, if_true, List.length_cons]
        omega
      · intro h
        have := (ih []).1 rfl
        simp only [strtokAll, hc, h, if_true, if_false, List.length_cons]
        omega
    · have hne : cur ++ [c] ≠ [] := by simp
      have := (ih (cur ++ [c])).2 hne
      constructor
      · intro _
        simp only [strtokAll, hc, if_false, List.length_cons]
        omega
      · intro _
        simp only [strtokAll, hc, if_false, List.length_cons]
        omega

/-- The number of tokens of a line of at most 255 characters is at most 128, and at
most 127 when the line has at most 254 characters. -/
theorem tokenize_numOfTokens_le (tt0 : Nat → cmdType) (line : List Char) :
    2 * (tokenize tt0 (line ++ [endOfLine])).numOfTokens ≤ line.length + 1 := by
  rw [tokenize_numOfTokens, List.dropLast_concat, tokenizeLoop_i]
  exact (strtokAll_length_bound line []).1 rfl

/-- The call of `fgets` stores at most the number of bytes it is allowed. -/
theorem fgets_length (n : Nat) : ∀ stream : List Char, ((fgets n stream).1).length ≤ n := by
  induction n with
  | zero => intro stream; simp [fgets]
  | succ n ih =>
    intro stream
    cases stream with
    | nil => simp [fgets]
    | cons c cs =>
      unfold fgets
      split_ifs
      · simp
      · simp only [List.length_cons]
        have := ih cs
        omega

/-- The C string in a buffer is not longer than the buffer. -/
theorem cString_length (buffer : List Char) : (cString buffer).length ≤ buffer.length := by
  unfold cString
  exact (List.takeWhile_sublist _).length_le

/-- A line that `readInput()` passes on ends in its newline and has at most `STRSIZ`
bytes before it. -/
theorem readInput_passed (fuel : Nat) (stream : List Char) (r : ReadResult)
    (h : readInput fuel stream = some r) (hr : r.ret = false) :
    endOfLine ∈ r.inputString ∧ r.inputString.dropLast.length ≤ STRSIZ := by
  unfold readInput at h
  split_ifs at h with h1 h2
  · simp only [Option.some.injEq] at h
    subst h
    refine ⟨h2, ?_⟩
    have := fgets_length (STRSIZ + 1) stream
    have := cString_length (fgets (STRSIZ + 1) stream).1
    simp only [List.length_dropLast]
    omega
  · simp only [Option.map_eq_some'] at h
    obtain ⟨a, _, rfl⟩ := h
    simp at hr
  · simp only [Option.some.injEq] at h
    subst h
    simp at hr

/-- C18 fails on the code: the line `fullLine` has 255 characters, the longest that
`readInput` passes on, and 128 words; `readInput` passes it on, `tokenize` accepts it
with `numOfTokens = 128` and stores a kind in `tokenType[128]` and a text in
`tokenizedInput[128]`, one entry past the end of the arrays of 128 entries (indices
`0..127`): `n + 1 = 129`. -/
theorem C18_token_index_overflow :
    fullLine.length = 255 ∧
    readInput 1 (stdinBytes (fullLine ++ [endOfLine])) =
      some { ret := false, tooLong := false, inputString := fullLine ++ [endOfLine],
             stream := [] } ∧
    (tokenize freshTokenType (fullLine ++ [endOfLine])).ret = true ∧
    (tokenize freshTokenType (fullLine ++ [endOfLine])).numOfTokens = 128 ∧
    (tokenize freshTokenType (fullLine ++ [endOfLine])).tokenType 128 = ARG ∧
    (tokenize freshTokenType (fullLine ++ [endOfLine])).tokenizedInput 128 = ['a'] := by
  set_option maxRecDepth 100000 in decide

/-! ## Launching and waiting for external stages: lemmas -/

end ShellSim
